import Mathlib

/-!
# Multi-object tracking core: shallow embedding and verified properties

The embedding follows the C++ sources function by function
(`Track.cpp`, `Tracker.cpp`, `KalmanFilter.cpp`, `HungarianAlgorithm.cpp`).

Modelling conventions
* `int` fields (ids, counters, pixel coordinates) are unbounded `Int`;
  machine overflow is outside the model.  `a / 2` on `int` is `Int.tdiv`.
* `float` values (costs, filter state) are exact rationals `ℚ`; float32
  rounding is outside the model.
* `std::vector<std::shared_ptr<Track>>` is a `List Track`; an in-place call
  `tracks[i]->f()` is `modifyNth f i`.
* `cv::KalmanFilter` belongs to OpenCV, not to this repository.  Its data
  members are the record `CvKalman`; its two member functions are taken as
  the parameter `CvOps`.  `cvExact` is the textbook instance.
-/

namespace MOT

/-! ## Geometry and detections (`Detection.h`, `cv::Rect`, `cv::Point`) -/

/-- Integer rectangle `cv::Rect`: top-left corner and size. -/
structure Rect where
  x : Int
  y : Int
  width : Int
  height : Int
deriving DecidableEq, Repr

/-- Integer point `cv::Point`. -/
structure Point where
  x : Int
  y : Int
deriving DecidableEq, Repr

/-- The default-constructed `cv::Rect()`. -/
def Rect.empty : Rect := ⟨0, 0, 0, 0⟩

/-- Record `Detection` of `Detection.h`. -/
structure Detection where
  bbox : Rect
  confidence : ℚ
  classId : Int
  className : String
deriving DecidableEq

/-- Centre point used for the trajectory in `Track.cpp`:
`cv::Point(bbox.x + bbox.width / 2, bbox.y + bbox.height / 2)`. -/
def center (bbox : Rect) : Point :=
  ⟨bbox.x + Int.tdiv bbox.width 2, bbox.y + Int.tdiv bbox.height 2⟩

/-! ## Matrices over `ℚ` -/

/-- Dense row-major matrix. -/
abbrev Mat := List (List ℚ)

/-- Dot product of two vectors. -/
def dot (u v : List ℚ) : ℚ := (List.zipWith (· * ·) u v).foldl (· + ·) 0

/-- Column `j` of a matrix. -/
def matCol (A : Mat) (j : Nat) : List ℚ := A.map (fun row => row.getD j 0)

/-- Transpose (of a rectangular matrix). -/
def matT (A : Mat) : Mat :=
  match A with
  | [] => []
  | r :: _ => (List.range r.length).map (matCol A)

/-- Matrix product. -/
def matMul (A B : Mat) : Mat :=
  A.map (fun row => (matT B).map (fun col => dot row col))

/-- Matrix–vector product. -/
def matVec (A : Mat) (v : List ℚ) : List ℚ := A.map (fun row => dot row v)

/-- Entrywise sum. -/
def matAdd (A B : Mat) : Mat := List.zipWith (List.zipWith (· + ·)) A B

/-- Entrywise difference. -/
def matSub (A B : Mat) : Mat := List.zipWith (List.zipWith (· - ·)) A B

/-- The matrix `c · I` of size `n` (`cv::setIdentity(m, Scalar::all(c))`). -/
def scaledIdentity (n : Nat) (c : ℚ) : Mat :=
  (List.range n).map (fun i => (List.range n).map (fun j => if i = j then c else 0))

/-- All-zero matrix (`cv::Mat::zeros`). -/
def zeros (r c : Nat) : Mat := List.replicate r (List.replicate c 0)

/-! ## `cv::KalmanFilter` (OpenCV) -/

/-- Data members of `cv::KalmanFilter` that the program reads or writes. -/
structure CvKalman where
  statePre : List ℚ
  statePost : List ℚ
  transitionMatrix : Mat
  measurementMatrix : Mat
  processNoiseCov : Mat
  measurementNoiseCov : Mat
  errorCovPre : Mat
  errorCovPost : Mat
  gain : Mat
deriving DecidableEq

/-- The two OpenCV member functions the program calls, as a parameter:
`predict()` returns the new object state and the prediction matrix,
`correct(measurement)` the new object state. -/
structure CvOps where
  predict : CvKalman → CvKalman × List ℚ
  correct : CvKalman → List ℚ → CvKalman

/-- Modelled from the spec: `cv::KalmanFilter::init(8, 4, 0)` is OpenCV code,
absent from the sources.  An 8-dimensional state and a 4-dimensional measurement,
zero state and covariances, identity transition and noise matrices (all but the
state are overwritten by the constructor of `KalmanFilter.cpp`, see
`KalmanFilter.new`). -/
def CvKalman.init840 : CvKalman where
  statePre := List.replicate 8 0
  statePost := List.replicate 8 0
  transitionMatrix := scaledIdentity 8 1
  measurementMatrix := zeros 4 8
  processNoiseCov := scaledIdentity 8 1
  measurementNoiseCov := scaledIdentity 4 1
  errorCovPre := zeros 8 8
  errorCovPost := zeros 8 8
  gain := zeros 8 4

/-! ## `KalmanFilter.cpp` -/

/-- Class `KalmanFilter`: the wrapped OpenCV filter and the `initialized` flag. -/
structure KalmanFilter where
  kf : CvKalman
  initialized : Bool
deriving DecidableEq

/-- Transition matrix built by the constructor: identity with
`F[i][i+4] = 1` for `i < 4`. -/
def transitionF : Mat :=
  (List.range 8).map (fun i => (List.range 8).map (fun j =>
    if i = j ∨ (i < 4 ∧ j = i + 4) then (1 : ℚ) else 0))

/-- Measurement matrix built by the constructor: `H[i][i] = 1` for `i < 4`. -/
def measurementH : Mat :=
  (List.range 4).map (fun i => (List.range 8).map (fun j =>
    if i = j then (1 : ℚ) else 0))

/-- Constructor `KalmanFilter::KalmanFilter()`. -/
def KalmanFilter.new : KalmanFilter where
  kf := { CvKalman.init840 with
    transitionMatrix := transitionF
    measurementMatrix := measurementH
    processNoiseCov := scaledIdentity 8 (1 / 100)
    measurementNoiseCov := scaledIdentity 4 (1 / 10)
    errorCovPost := scaledIdentity 8 1 }
  initialized := false

/-- Function `KalmanFilter::bboxToState`. -/
def bboxToState (bbox : Rect) : List ℚ :=
  [(bbox.x : ℚ) + (bbox.width : ℚ) / 2, (bbox.y : ℚ) + (bbox.height : ℚ) / 2,
   (bbox.width : ℚ), (bbox.height : ℚ), 0, 0, 0, 0]

/-- Conversion `static_cast<int>` of a float: truncation toward zero. -/
def truncToInt (q : ℚ) : Int := Int.tdiv q.num q.den

/-- Function `KalmanFilter::stateToBbox`. -/
def stateToBbox (state : List ℚ) : Rect :=
  let cx := state.getD 0 0
  let cy := state.getD 1 0
  let w := state.getD 2 0
  let h := state.getD 3 0
  ⟨truncToInt (cx - w / 2), truncToInt (cy - h / 2), truncToInt w, truncToInt h⟩

/-- Function `KalmanFilter::init`. -/
def KalmanFilter.init (f : KalmanFilter) (bbox : Rect) : KalmanFilter :=
  { kf := { f.kf with statePost := bboxToState bbox }, initialized := true }

/-- Function `KalmanFilter::predict`: the filter afterwards and the returned box. -/
def KalmanFilter.predict (cv : CvOps) (f : KalmanFilter) : KalmanFilter × Rect :=
  if !f.initialized then (f, Rect.empty)
  else
    let r := cv.predict f.kf
    ({ f with kf := r.1 }, stateToBbox r.2)

/-- Measurement vector built in `KalmanFilter::update`. -/
def measurementOf (bbox : Rect) : List ℚ :=
  [(bbox.x : ℚ) + (bbox.width : ℚ) / 2, (bbox.y : ℚ) + (bbox.height : ℚ) / 2,
   (bbox.width : ℚ), (bbox.height : ℚ)]

/-- Function `KalmanFilter::update`. -/
def KalmanFilter.update (cv : CvOps) (f : KalmanFilter) (bbox : Rect) : KalmanFilter :=
  if !f.initialized then f.init bbox
  else { f with kf := cv.correct f.kf (measurementOf bbox) }

/-! ## `Track.h` / `Track.cpp` -/

/-- Enumeration `TrackState`. -/
inductive TrackState where
  | Tentative
  | Confirmed
  | Deleted
deriving DecidableEq, Repr

/-- Constant `Track::MAX_TRAJECTORY_LENGTH`. -/
def MAX_TRAJECTORY_LENGTH : Nat := 30

/-- Class `Track`. -/
structure Track where
  id : Int
  classId : Int
  className : String
  kf : KalmanFilter
  state : TrackState
  timeSinceUpdate : Int
  hitStreak : Int
  age : Int
  trajectory : List Point
deriving DecidableEq

/-- Constructor `Track::Track(bbox, classId, className, trackId)`. -/
def Track.new (bbox : Rect) (classId : Int) (className : String) (trackId : Int) : Track where
  id := trackId
  classId := classId
  className := className
  kf := KalmanFilter.new.init bbox
  state := TrackState.Tentative
  timeSinceUpdate := 0
  hitStreak := 0
  age := 0
  trajectory := [center bbox]

/-- Function `Track::predict`. -/
def Track.predict (cv : CvOps) (t : Track) : Track :=
  { t with
    kf := (t.kf.predict cv).1
    age := t.age + 1
    timeSinceUpdate := t.timeSinceUpdate + 1 }

/-- Function `Track::update`. -/
def Track.update (cv : CvOps) (t : Track) (bbox : Rect) : Track :=
  let hitStreak := t.hitStreak + 1
  let pushed := t.trajectory ++ [center bbox]
  let trajectory :=
    if pushed.length > MAX_TRAJECTORY_LENGTH then pushed.tail else pushed
  { t with
    kf := t.kf.update cv bbox
    timeSinceUpdate := 0
    hitStreak := hitStreak
    trajectory := trajectory
    state :=
      if t.state = TrackState.Tentative ∧ hitStreak ≥ 3 then TrackState.Confirmed
      else t.state }

/-- Function `Track::getPredictedBbox`: it calls `kf.predict()` through a
`const_cast`, so the track afterwards is returned with the box. -/
def Track.getPredictedBbox (cv : CvOps) (t : Track) : Track × Rect :=
  let r := t.kf.predict cv
  ({ t with kf := r.1 }, r.2)

/-- Function `Track::getCurrentBbox`: the same body as `getPredictedBbox`. -/
def Track.getCurrentBbox (cv : CvOps) (t : Track) : Track × Rect :=
  let r := t.kf.predict cv
  ({ t with kf := r.1 }, r.2)

/-- Function `Track::markMissed`. -/
def Track.markMissed (t : Track) : Track :=
  { t with timeSinceUpdate := t.timeSinceUpdate + 1, hitStreak := 0 }

/-- Function `Track::markHit`. -/
def Track.markHit (t : Track) : Track :=
  { t with hitStreak := t.hitStreak + 1 }

/-- Function `Track::setState`. -/
def Track.setState (t : Track) (newState : TrackState) : Track :=
  { t with state := newState }

/-! ## `HungarianAlgorithm.cpp` -/

/-- Constant `HungarianAlgorithm::INF`, the largest finite float32. -/
def INF : ℚ := (2 ^ 24 - 1) * 2 ^ 104

/-- In-place call on element `i` of a vector; out of range leaves the list as is. -/
def modifyNth {α : Type} (f : α → α) : Nat → List α → List α
  | _, [] => []
  | 0, a :: l => f a :: l
  | n + 1, a :: l => a :: modifyNth f n l

/-- Entry `cost[i][j]` of a matrix. -/
def entry (cost : Mat) (i j : Nat) : ℚ := (cost.getD i []).getD j 0

/-- Step 1 on one row: subtract the row minimum from the entries below `INF`. -/
def reduceRow (row : List ℚ) : List ℚ :=
  match row with
  | [] => []
  | c :: cs =>
    let minVal := cs.foldl min c
    if minVal < INF then row.map (fun v => if v < INF then v - minVal else v) else row

/-- Step 2 on column `j`: subtract the column minimum from the entries below `INF`. -/
def reduceCol (cost : Mat) (j : Nat) : Mat :=
  let minVal := cost.foldl (fun m row => min m (row.getD j 0)) INF
  if minVal < INF then
    cost.map (modifyNth (fun v => if v < INF then v - minVal else v) j)
  else cost

/-- Loop state of steps 3 and 4. -/
structure Cover where
  assignment : List Int
  rowCovered : List Bool
  colCovered : List Bool
deriving DecidableEq

/-- Step 3 for row `i`: the first column with a zero, row and column uncovered. -/
def greedyRow (cost : Mat) (cols : Nat) (s : Cover) (i : Nat) : Cover :=
  match (List.range cols).find? (fun j =>
      entry cost i j == 0 && !s.rowCovered.getD i false && !s.colCovered.getD j false) with
  | some j =>
    { assignment := s.assignment.set i (j : Int)
      rowCovered := s.rowCovered.set i true
      colCovered := s.colCovered.set j true }
  | none => s

/-- Inner loop of step 4: the running `(minCost, minCol)` after column `j`. -/
def residualScan (cost : Mat) (colCovered : List Bool) (i : Nat)
    (acc : ℚ × Int) (j : Nat) : ℚ × Int :=
  if !colCovered.getD j false && entry cost i j < acc.1 then (entry cost i j, (j : Int))
  else acc

/-- Step 4 for row `i`. -/
def residualRow (cost : Mat) (cols : Nat) (s : Cover) (i : Nat) : Cover :=
  if s.assignment.getD i (-1) = -1 then
    let r := (List.range cols).foldl (residualScan cost s.colCovered i) (INF, -1)
    if r.2 ≠ -1 ∧ r.1 < INF then
      { s with
        assignment := s.assignment.set i r.2
        colCovered := s.colCovered.set r.2.toNat true }
    else s
  else s

/-- Function `HungarianAlgorithm::solve`. -/
def HungarianAlgorithm.solve (costMatrix : Mat) : List Int :=
  match costMatrix with
  | [] => []
  | [] :: _ => []
  | row0 :: _ =>
    let rows := costMatrix.length
    let cols := row0.length
    let cost1 := costMatrix.map reduceRow
    let cost2 := (List.range cols).foldl reduceCol cost1
    let s0 : Cover :=
      { assignment := List.replicate rows (-1)
        rowCovered := List.replicate rows false
        colCovered := List.replicate cols false }
    let s1 := (List.range rows).foldl (greedyRow cost2 cols) s0
    let s2 := (List.range rows).foldl (residualRow cost2 cols) s1
    s2.assignment

/-! ## `Tracker.h` / `Tracker.cpp` -/

/-- Class `Tracker`. -/
structure Tracker where
  tracks : List Track
  nextId : Int
  maxIoUDistance : ℚ
  maxAge : Int
  minHits : Int
deriving DecidableEq

/-- Constructor `Tracker::Tracker(maxIoUDistance, maxAge, minHits)`. -/
def Tracker.new (maxIoUDistance : ℚ) (maxAge minHits : Int) : Tracker where
  tracks := []
  nextId := 1
  maxIoUDistance := maxIoUDistance
  maxAge := maxAge
  minHits := minHits

/-- The constructor with the default arguments of `Tracker.h`. -/
def Tracker.default : Tracker := Tracker.new (7 / 10) 30 3

/-- Function `Tracker::getTotalTracks` (`Tracker.h`): `return nextId;`. -/
def Tracker.getTotalTracks (t : Tracker) : Int := t.nextId

/-- Value printed by `main` as "Total unique tracks":
`tracker.getTotalTracks() - 1`. -/
def totalUniqueTracks (t : Tracker) : Int := t.getTotalTracks - 1

/-- Function `Tracker::calculateIoU`. -/
def calculateIoU (box1 box2 : Rect) : ℚ :=
  let x1 := max box1.x box2.x
  let y1 := max box1.y box2.y
  let x2 := min (box1.x + box1.width) (box2.x + box2.width)
  let y2 := min (box1.y + box1.height) (box2.y + box2.height)
  let intersectionArea := max 0 (x2 - x1) * max 0 (y2 - y1)
  let box1Area := box1.width * box1.height
  let box2Area := box2.width * box2.height
  let unionArea := box1Area + box2Area - intersectionArea
  if unionArea > 0 then (intersectionArea : ℚ) / (unionArea : ℚ) else 0

/-- Body of the outer loop of `createCostMatrix` for one track: the track
after `getPredictedBbox` and its row of costs. -/
def costRow (cv : CvOps) (detections : List Detection) (t : Track) : Track × List ℚ :=
  let r := t.getPredictedBbox cv
  (r.1, detections.map (fun d =>
    let iou := calculateIoU r.2 d.bbox
    if t.classId ≠ d.classId then 1 else 1 - iou))

/-- Function `Tracker::createCostMatrix`: the tracks afterwards (their filters
were advanced by `getPredictedBbox`) and the matrix. -/
def createCostMatrix (cv : CvOps) (tracks : List Track) (detections : List Detection) :
    List Track × Mat :=
  ((tracks.map (costRow cv detections)).map Prod.fst,
   (tracks.map (costRow cv detections)).map Prod.snd)

/-- Output of `Tracker::associate`: the four index vectors, and the track
collection as the call leaves it. -/
structure Association where
  tracks : List Track
  matchedTracks : List Nat
  matchedDetections : List Nat
  unmatchedTracks : List Nat
  unmatchedDetections : List Nat
deriving DecidableEq

/-- Loop state of the "process assignments" loop of `associate`. -/
structure Gate where
  matchedTracks : List Nat
  matchedDetections : List Nat
  unmatchedTracks : List Nat
  detectionMatched : List Bool
deriving DecidableEq

/-- One iteration of the "process assignments" loop, for row `i` assigned `a`. -/
def gateStep (costMatrix : Mat) (maxIoUDistance : ℚ) (g : Gate) (ia : Nat × Int) : Gate :=
  if ia.2 ≥ 0 ∧ entry costMatrix ia.1 ia.2.toNat < maxIoUDistance then
    { g with
      matchedTracks := g.matchedTracks ++ [ia.1]
      matchedDetections := g.matchedDetections ++ [ia.2.toNat]
      detectionMatched := g.detectionMatched.set ia.2.toNat true }
  else
    { g with unmatchedTracks := g.unmatchedTracks ++ [ia.1] }

/-- Function `Tracker::associate`. -/
def Tracker.associate (cv : CvOps) (t : Tracker) (detections : List Detection) : Association :=
  if t.tracks.isEmpty then
    { tracks := t.tracks, matchedTracks := [], matchedDetections := [], unmatchedTracks := []
      unmatchedDetections := List.range detections.length }
  else if detections.isEmpty then
    { tracks := t.tracks, matchedTracks := [], matchedDetections := []
      unmatchedTracks := List.range t.tracks.length, unmatchedDetections := [] }
  else
    let cm := createCostMatrix cv t.tracks detections
    let assignment := HungarianAlgorithm.solve cm.2
    let g := assignment.enum.foldl (gateStep cm.2 t.maxIoUDistance)
      { matchedTracks := [], matchedDetections := [], unmatchedTracks := []
        detectionMatched := List.replicate detections.length false }
    { tracks := cm.1
      matchedTracks := g.matchedTracks
      matchedDetections := g.matchedDetections
      unmatchedTracks := g.unmatchedTracks
      unmatchedDetections :=
        (List.range detections.length).filter (fun i => !g.detectionMatched.getD i false) }

/-- Loop "update matched tracks": `tracks[trackIdx]->update(detections[detectionIdx].bbox)`
for each position of the two matched vectors. -/
def updateMatched (cv : CvOps) (detections : List Detection) (tracks : List Track)
    (pairs : List (Nat × Nat)) : List Track :=
  pairs.foldl (fun ts p =>
    match detections.get? p.2 with
    | some d => modifyNth (fun tr => tr.update cv d.bbox) p.1 ts
    | none => ts) tracks

/-- Loop "mark unmatched tracks as missed". -/
def markUnmatched (tracks : List Track) (unmatchedTracks : List Nat) : List Track :=
  unmatchedTracks.foldl (fun ts i => modifyNth Track.markMissed i ts) tracks

/-- Loop "create new tracks for unmatched detections": the tracks created,
in order, the first of them with id `nextId`. -/
def spawnTracks (detections : List Detection) (nextId : Int) : List Nat → List Track
  | [] => []
  | j :: js =>
    match detections.get? j with
    | some det => Track.new det.bbox det.classId det.className nextId
        :: spawnTracks detections (nextId + 1) js
    | none => spawnTracks detections nextId js

/-- Tracks of one `update` call after prediction, association, update of the
matched tracks and marking of the unmatched ones (statements up to the
"create new tracks" loop). -/
def Tracker.afterMark (cv : CvOps) (t : Tracker) (detections : List Detection) : List Track :=
  let predicted := { t with tracks := t.tracks.map (Track.predict cv) }
  let a := predicted.associate cv detections
  let updated := updateMatched cv detections a.tracks
    (List.zip a.matchedTracks a.matchedDetections)
  markUnmatched updated a.unmatchedTracks

/-- Tracks created by one `update` call, in creation order. -/
def Tracker.spawned (cv : CvOps) (t : Tracker) (detections : List Detection) : List Track :=
  let predicted := { t with tracks := t.tracks.map (Track.predict cv) }
  spawnTracks detections t.nextId (predicted.associate cv detections).unmatchedDetections

/-- Track collection of one `update` call just before "remove dead tracks". -/
def Tracker.beforeReap (cv : CvOps) (t : Tracker) (detections : List Detection) : List Track :=
  t.afterMark cv detections ++ t.spawned cv detections

/-- Predicate of the final loop of `update`: the track is pushed to `confirmedTracks`. -/
def surfaced (minHits : Int) (tr : Track) : Bool :=
  tr.state == TrackState.Confirmed || decide (tr.hitStreak ≥ minHits)

/-- Function `Tracker::update`: the tracker afterwards and the returned vector. -/
def Tracker.update (cv : CvOps) (t : Tracker) (detections : List Detection) :
    Tracker × List Track :=
  let all := t.beforeReap cv detections
  let kept := all.filter (fun tr => !decide (tr.timeSinceUpdate > t.maxAge))
  ({ t with tracks := kept, nextId := t.nextId + (t.spawned cv detections).length },
   kept.filter (surfaced t.minHits))

/-- The tracker after feeding a sequence of frames to `update`. -/
def Tracker.run (cv : CvOps) (t : Tracker) (frames : List (List Detection)) : Tracker :=
  frames.foldl (fun s d => (s.update cv d).1) t

/-- Ids of all tracks created while feeding a sequence of frames, in creation order. -/
def Tracker.issuedIds (cv : CvOps) (t : Tracker) : List (List Detection) → List Int
  | [] => []
  | d :: ds => (t.spawned cv d).map Track.id ++ (t.update cv d).1.issuedIds cv ds

/-! ## The textbook instance of `cv::KalmanFilter` -/

/-- Modelled from the spec: `cv::solve` is OpenCV code, absent from the sources
(the "standard Kalman correction" of §4.1 needs the inverse of the innovation
covariance).  One elimination step of Gauss–Jordan on the augmented matrix,
pivot `(k, k)`. -/
def gaussStep (M : Mat) (k : Nat) : Mat :=
  let prow := M.getD k []
  let p := prow.getD k 0
  if p = 0 then M
  else
    let prow1 := prow.map (fun v => v / p)
    M.enum.map (fun ir =>
      if ir.1 = k then prow1
      else List.zipWith (fun a b => a - ir.2.getD k 0 * b) ir.2 prow1)

/-- Modelled from the spec: `cv::solve` is OpenCV code, absent from the sources.
Solution `X` of `S · X = B` for a square `S` with non-zero pivots, as the
positive definite innovation covariance of `correct` is. -/
def solveLinear (S B : Mat) : Mat :=
  ((List.range S.length).foldl gaussStep (List.zipWith (· ++ ·) S B)).map
    (List.drop S.length)

/-- Modelled from the spec: `cv::KalmanFilter::predict()` is OpenCV code, absent
from the sources (§4.1: "advance state one tick" of the linear filter with
transition `F` and process noise `Q`): `x⁻ = F x`, `P⁻ = F P Fᵀ + Q`, both
copied to the posterior; the prediction returned is `x⁻`. -/
def cvPredict (k : CvKalman) : CvKalman × List ℚ :=
  let statePre := matVec k.transitionMatrix k.statePost
  let errorCovPre :=
    matAdd (matMul (matMul k.transitionMatrix k.errorCovPost) (matT k.transitionMatrix))
      k.processNoiseCov
  ({ k with statePre := statePre, errorCovPre := errorCovPre
            statePost := statePre, errorCovPost := errorCovPre }, statePre)

/-- Modelled from the spec: `cv::KalmanFilter::correct(z)` is OpenCV code, absent
from the sources (§4.1: "the standard Kalman correction"):
`K = P⁻ Hᵀ (H P⁻ Hᵀ + R)⁻¹`, `x = x⁻ + K (z − H x⁻)`, `P = P⁻ − K H P⁻`. -/
def cvCorrect (k : CvKalman) (z : List ℚ) : CvKalman :=
  let temp2 := matMul k.measurementMatrix k.errorCovPre
  let temp3 := matAdd (matMul temp2 (matT k.measurementMatrix)) k.measurementNoiseCov
  let gain := matT (solveLinear temp3 temp2)
  let temp5 := List.zipWith (· - ·) z (matVec k.measurementMatrix k.statePre)
  { k with
    gain := gain
    statePost := List.zipWith (· + ·) k.statePre (matVec gain temp5)
    errorCovPost := matSub k.errorCovPre (matMul gain temp2) }

/-- The linear Kalman filter in exact arithmetic, the instance of `CvOps` at
which the scenarios are evaluated. -/
def cvExact : CvOps := ⟨cvPredict, cvCorrect⟩

/-! ## Call sequences on one track -/

/-- A call of one of the state-changing member functions of `Track` that
`Tracker::update` and the output code make. -/
inductive TrackOp where
  | predict
  | getPredictedBbox
  | getCurrentBbox
  | update (bbox : Rect)
  | markMissed
deriving DecidableEq

/-- The track after one call. -/
def Track.apply (cv : CvOps) (t : Track) : TrackOp → Track
  | TrackOp.predict => t.predict cv
  | TrackOp.getPredictedBbox => (t.getPredictedBbox cv).1
  | TrackOp.getCurrentBbox => (t.getCurrentBbox cv).1
  | TrackOp.update bbox => t.update cv bbox
  | TrackOp.markMissed => t.markMissed

/-- The track after a sequence of calls, first call first. -/
def Track.applyOps (cv : CvOps) (t : Track) (ops : List TrackOp) : Track :=
  ops.foldl (Track.apply cv) t

/-- Track `b` is track `a` after some sequence of calls. -/
def Evolves (cv : CvOps) (a b : Track) : Prop := ∃ ops, b = a.applyOps cv ops

/-- Calls made on a live track by one `Tracker::update` that matches it to a
detection with box `bbox`. -/
def matchedFrame (bbox : Rect) : List TrackOp :=
  [TrackOp.predict, TrackOp.getPredictedBbox, TrackOp.update bbox]

/-- Well-formedness of the identifiers of a tracker: the counter is positive,
live ids are pairwise distinct and lie in `[1, nextId)`. -/
def Tracker.IdsOk (t : Tracker) : Prop :=
  1 ≤ t.nextId ∧ (t.tracks.map Track.id).Nodup ∧
    ∀ tr ∈ t.tracks, 1 ≤ tr.id ∧ tr.id < t.nextId

/-- Observation of a run: for each `update` call, the id, state,
`timeSinceUpdate` and `hitStreak` of every track live after the call, in
collection order, and the ids of the tracks the call returned. -/
def Tracker.trace (cv : CvOps) (t : Tracker) :
    List (List Detection) → List (List (Int × TrackState × Int × Int) × List Int)
  | [] => []
  | d :: ds =>
    ((t.update cv d).1.tracks.map
        (fun tr => (tr.id, tr.state, tr.timeSinceUpdate, tr.hitStreak)),
      (t.update cv d).2.map Track.id)
      :: (t.update cv d).1.trace cv ds

/-- A track is the result of the constructor followed by calls. -/
def Constructed (cv : CvOps) (tr : Track) : Prop :=
  ∃ bbox classId className ops,
    tr = (Track.new bbox classId className tr.id).applyOps cv ops

/-! ## Predicates on the assigner -/

/-- Invariant of steps 3 and 4 of `solve`: every assigned entry is a column
index below `cols`, that column is covered, and no other row holds it. -/
def CoverOk (cols : Nat) (s : Cover) : Prop :=
  s.colCovered.length = cols ∧
  ∀ (i : Nat) (a : Int), s.assignment[i]? = some a → a ≠ -1 →
    (0 ≤ a ∧ a.toNat < cols ∧ s.colCovered[a.toNat]? = some true ∧
      ∀ k : Nat, s.assignment[k]? = some a → k = i)

/-- Condition of the gate in `associate` for row `ia.1` assigned `ia.2`:
`assignment[i] >= 0 && costMatrix[i][assignment[i]] < maxIoUDistance`. -/
def gateAccepts (costMatrix : Mat) (maxIoUDistance : ℚ) (ia : Nat × Int) : Bool :=
  decide (ia.2 ≥ 0 ∧ entry costMatrix ia.1 ia.2.toNat < maxIoUDistance)

/-- The cost matrix `associate` builds for the tracks of `t` and `detections`. -/
def Tracker.costs (cv : CvOps) (t : Tracker) (detections : List Detection) : Mat :=
  (createCostMatrix cv t.tracks detections).2

/-- The assignment `solve` returns on that cost matrix. -/
def Tracker.assignment (cv : CvOps) (t : Tracker) (detections : List Detection) : List Int :=
  HungarianAlgorithm.solve (t.costs cv detections)

/-- The tracker as `associate` sees it inside `update`: every track predicted. -/
def Tracker.predicted (cv : CvOps) (t : Tracker) : Tracker :=
  { t with tracks := t.tracks.map (Track.predict cv) }

/-- The unmatched detection indices of one `update` call. -/
def Tracker.unmatchedDetections (cv : CvOps) (t : Tracker) (detections : List Detection) :
    List Nat :=
  ((t.predicted cv).associate cv detections).unmatchedDetections

/-! ## Intersection over union in the words of the specification -/

/-- The unit pixel cells of a rectangle: the cell `(p, q)` is in it when
`x ≤ p < x + width` and `y ≤ q < y + height`. -/
def Rect.cells (r : Rect) : Finset (Int × Int) :=
  Finset.Ico r.x (r.x + r.width) ×ˢ Finset.Ico r.y (r.y + r.height)

/-- Classical intersection over union, as the specification words it: the
number of cells in both rectangles divided by the number of cells in at least
one of them, and 0 when that union is empty. -/
def classicalIoU (a b : Rect) : ℚ :=
  if (a.cells ∪ b.cells).card = 0 then 0
  else ((a.cells ∩ b.cells).card : ℚ) / ((a.cells ∪ b.cells).card : ℚ)

/-- Counter invariant of one track: both counters are non-negative and a
positive hit streak goes with `timeSinceUpdate = 0`. -/
def CountersOk (tr : Track) : Prop :=
  0 ≤ tr.timeSinceUpdate ∧ 0 ≤ tr.hitStreak ∧ (0 < tr.hitStreak → tr.timeSinceUpdate = 0)

/-- Every entry of the matrix is a cost in `[0, INF)`. -/
def EntriesBounded (M : Mat) : Prop := ∀ row ∈ M, ∀ v ∈ row, 0 ≤ v ∧ v < INF

/-- The row indices that carry an assignment (an entry other than -1). -/
def assignedRows (assignment : List Int) : List Nat :=
  (List.range assignment.length).filter (fun i => decide (assignment.getD i (-1) ≠ -1))

/-- Every covered column is held by some row. -/
def CoverTight (s : Cover) : Prop :=
  ∀ j : Nat, s.colCovered[j]? = some true → ∃ i : Nat, s.assignment[i]? = some (j : Int)

/-- During step 3 a row that is not covered is not assigned. -/
def RowsFresh (s : Cover) : Prop :=
  s.rowCovered.length = s.assignment.length ∧
  ∀ i : Nat, s.rowCovered.getD i false = false → s.assignment.getD i (-1) = -1

/-- The track with identifier `k` sits at a matched position of the `update`
call of `t` on `detections`: some index of `matchedTracks` holds a track whose
id is `k`. -/
def Tracker.matchesId (cv : CvOps) (t : Tracker) (detections : List Detection) (k : Int) :
    Bool :=
  ((t.predicted cv).associate cv detections).matchedTracks.any
    (fun i => decide ((t.tracks.map Track.id)[i]? = some k))

/-- The track with identifier `k` is matched by every `update` call of the run
of `t` over the frames. -/
def Tracker.matchedThrough (cv : CvOps) (k : Int) : Tracker → List (List Detection) → Bool
  | _, [] => true
  | t, d :: ds => t.matchesId cv d k && Tracker.matchedThrough cv k (t.update cv d).1 ds

/-- The vector returned by the last `update` call of a run (empty when there
is no call). -/
def Tracker.lastReturned (cv : CvOps) : Tracker → List (List Detection) → List Track
  | _, [] => []
  | t, [d] => (t.update cv d).2
  | t, d :: d2 :: ds => Tracker.lastReturned cv (t.update cv d).1 (d2 :: ds)

/-! ## Scenario inputs of the specification -/

/-- The detection `(100, 100, 50, 50)`, class 0, of scenarios A, B and C. -/
def detA : Detection := ⟨⟨100, 100, 50, 50⟩, 9 / 10, 0, ""⟩

/-- The detection `(110, 100, 50, 50)`, class 0, of scenarios B and C. -/
def detB : Detection := ⟨⟨110, 100, 50, 50⟩, 9 / 10, 0, ""⟩

/-- The detection of frame 2 of scenario D: the box of `detA` with class 1. -/
def detA1 : Detection := ⟨⟨100, 100, 50, 50⟩, 9 / 10, 1, ""⟩

/-- A second object of class 0, far from `detA` (scenario E has two objects). -/
def detC : Detection := ⟨⟨300, 300, 50, 50⟩, 9 / 10, 0, ""⟩

/-- Total original cost of an assignment: the sum of `C[i][assignment[i]]`. -/
def assignmentCost (C : Mat) (assignment : List Int) : ℚ :=
  (assignment.enum.map (fun ia => entry C ia.1 ia.2.toNat)).sum

/-- The example matrix `[[0.1, 0.2], [0.1, 0.3]]`. -/
def greedyExample : Mat := [[1 / 10, 2 / 10], [1 / 10, 3 / 10]]

/-- A 3 x 2 matrix with entries in [0, 1]: more rows than columns. -/
def tallExample : Mat := [[1 / 2, 1 / 5], [3 / 10, 1], [0, 7 / 10]]

/-- A 2 x 2 matrix of finite entries below `INF` whose row spread reaches
`2^128`, above `INF`. -/
def spreadExample : Mat := [[-(2 ^ 127), 2 ^ 127], [-(2 ^ 127), 2 ^ 127]]

/-- The track built from `detA` and then matched once to the moved box of
`detB` (one `predict`, one `update`): its filter has a non-zero velocity. -/
def movedTrack : Track :=
  ((Track.new detA.bbox 0 "" 1).predict cvExact).update cvExact detB.bbox

/-! ## Track-level facts -/

@[simp] theorem predict_fields (cv : CvOps) (t : Track) :
    (t.predict cv).id = t.id ∧ (t.predict cv).classId = t.classId ∧
    (t.predict cv).className = t.className ∧ (t.predict cv).state = t.state ∧
    (t.predict cv).hitStreak = t.hitStreak ∧ (t.predict cv).trajectory = t.trajectory ∧
    (t.predict cv).timeSinceUpdate = t.timeSinceUpdate + 1 ∧
    (t.predict cv).age = t.age + 1 :=
  ⟨rfl, rfl, rfl, rfl, rfl, rfl, rfl, rfl⟩

@[simp] theorem getPredictedBbox_fields (cv : CvOps) (t : Track) :
    (t.getPredictedBbox cv).1.id = t.id ∧ (t.getPredictedBbox cv).1.classId = t.classId ∧
    (t.getPredictedBbox cv).1.className = t.className ∧
    (t.getPredictedBbox cv).1.state = t.state ∧
    (t.getPredictedBbox cv).1.hitStreak = t.hitStreak ∧
    (t.getPredictedBbox cv).1.trajectory = t.trajectory ∧
    (t.getPredictedBbox cv).1.timeSinceUpdate = t.timeSinceUpdate ∧
    (t.getPredictedBbox cv).1.age = t.age :=
  ⟨rfl, rfl, rfl, rfl, rfl, rfl, rfl, rfl⟩

@[simp] theorem getCurrentBbox_fields (cv : CvOps) (t : Track) :
    (t.getCurrentBbox cv).1.id = t.id ∧ (t.getCurrentBbox cv).1.classId = t.classId ∧
    (t.getCurrentBbox cv).1.className = t.className ∧
    (t.getCurrentBbox cv).1.state = t.state ∧
    (t.getCurrentBbox cv).1.hitStreak = t.hitStreak ∧
    (t.getCurrentBbox cv).1.trajectory = t.trajectory ∧
    (t.getCurrentBbox cv).1.timeSinceUpdate = t.timeSinceUpdate ∧
    (t.getCurrentBbox cv).1.age = t.age :=
  ⟨rfl, rfl, rfl, rfl, rfl, rfl, rfl, rfl⟩

@[simp] theorem markMissed_fields (t : Track) :
    t.markMissed.id = t.id ∧ t.markMissed.classId = t.classId ∧
    t.markMissed.className = t.className ∧ t.markMissed.state = t.state ∧
    t.markMissed.kf = t.kf ∧ t.markMissed.age = t.age ∧
    t.markMissed.trajectory = t.trajectory ∧ t.markMissed.hitStreak = 0 ∧
    t.markMissed.timeSinceUpdate = t.timeSinceUpdate + 1 :=
  ⟨rfl, rfl, rfl, rfl, rfl, rfl, rfl, rfl, rfl⟩

@[simp] theorem update_fields (cv : CvOps) (t : Track) (bbox : Rect) :
    (t.update cv bbox).id = t.id ∧ (t.update cv bbox).classId = t.classId ∧
    (t.update cv bbox).className = t.className ∧ (t.update cv bbox).age = t.age ∧
    (t.update cv bbox).timeSinceUpdate = 0 ∧
    (t.update cv bbox).hitStreak = t.hitStreak + 1 :=
  ⟨rfl, rfl, rfl, rfl, rfl, rfl⟩

theorem update_state (cv : CvOps) (t : Track) (bbox : Rect) :
    (t.update cv bbox).state =
      if t.state = TrackState.Tentative ∧ t.hitStreak + 1 ≥ 3 then TrackState.Confirmed
      else t.state := rfl

theorem applyOps_snoc (cv : CvOps) (t : Track) (ops : List TrackOp) (op : TrackOp) :
    t.applyOps cv (ops ++ [op]) = (t.applyOps cv ops).apply cv op := by
  simp [Track.applyOps, List.foldl_append]

theorem applyOps_append (cv : CvOps) (t : Track) (ops1 ops2 : List TrackOp) :
    t.applyOps cv (ops1 ++ ops2) = (t.applyOps cv ops1).applyOps cv ops2 := by
  simp [Track.applyOps, List.foldl_append]

theorem forall2_map_self {α : Type} {R : α → α → Prop} {f : α → α}
    (h : ∀ a, R a (f a)) (l : List α) : List.Forall₂ R l (l.map f) := by
  induction l with
  | nil => exact List.Forall₂.nil
  | cons a l ih => exact List.Forall₂.cons (h a) ih

theorem forall2_refl_of {α : Type} {R : α → α → Prop} (h : ∀ a, R a a) (l : List α) :
    List.Forall₂ R l l := by
  induction l with
  | nil => exact List.Forall₂.nil
  | cons a l ih => exact List.Forall₂.cons (h a) ih

theorem forall2_modifyNth {α : Type} {R : α → α → Prop} {f : α → α}
    (hrefl : ∀ a, R a a) (h : ∀ a, R a (f a)) (i : Nat) (l : List α) :
    List.Forall₂ R l (modifyNth f i l) := by
  induction l generalizing i with
  | nil => cases i <;> exact List.Forall₂.nil
  | cons a l ih =>
    cases i with
    | zero => exact List.Forall₂.cons (h a) (forall2_refl_of hrefl l)
    | succ n => exact List.Forall₂.cons (hrefl a) (ih n)

theorem forall2_trans_of {α : Type} {R : α → α → Prop}
    (htrans : ∀ a b c, R a b → R b c → R a c) {l1 l2 l3 : List α}
    (h12 : List.Forall₂ R l1 l2) (h23 : List.Forall₂ R l2 l3) : List.Forall₂ R l1 l3 := by
  induction h12 generalizing l3 with
  | nil => cases h23; exact List.Forall₂.nil
  | cons hab _ ih =>
    cases h23 with
    | cons hbc h23 => exact List.Forall₂.cons (htrans _ _ _ hab hbc) (ih h23)

theorem forall2_foldl {α β : Type} {R : α → α → Prop}
    (hrefl : ∀ a, R a a) (htrans : ∀ a b c, R a b → R b c → R a c)
    (g : List α → β → List α) (hg : ∀ ts x, List.Forall₂ R ts (g ts x))
    (xs : List β) (ts : List α) : List.Forall₂ R ts (xs.foldl g ts) := by
  induction xs generalizing ts with
  | nil => exact forall2_refl_of hrefl ts
  | cons x xs ih => exact forall2_trans_of htrans (hg ts x) (ih (g ts x))

theorem forall2_mem_right {α : Type} {R : α → α → Prop} {l1 l2 : List α}
    (h : List.Forall₂ R l1 l2) {b : α} (hb : b ∈ l2) : ∃ a ∈ l1, R a b := by
  induction h with
  | nil => cases hb
  | cons hab _ ih =>
    rcases List.mem_cons.mp hb with rfl | hb
    · exact ⟨_, List.mem_cons_self _ _, hab⟩
    · obtain ⟨a, ha, hr⟩ := ih hb
      exact ⟨a, List.mem_cons_of_mem _ ha, hr⟩

theorem forall2_map_eq {α β : Type} {R : α → α → Prop} (g : α → β)
    (hg : ∀ a b, R a b → g b = g a) {l1 l2 : List α} (h : List.Forall₂ R l1 l2) :
    l2.map g = l1.map g := by
  induction h with
  | nil => rfl
  | cons hab _ ih => simp [hg _ _ hab, ih]

theorem evolves_refl (cv : CvOps) (a : Track) : Evolves cv a a := ⟨[], rfl⟩

theorem evolves_trans (cv : CvOps) (a b c : Track)
    (hab : Evolves cv a b) (hbc : Evolves cv b c) : Evolves cv a c := by
  obtain ⟨o1, rfl⟩ := hab
  obtain ⟨o2, rfl⟩ := hbc
  exact ⟨o1 ++ o2, (applyOps_append cv a o1 o2).symm⟩

theorem evolves_op (cv : CvOps) (a : Track) (op : TrackOp) : Evolves cv a (a.apply cv op) :=
  ⟨[op], rfl⟩

/-- Induction principle for `Evolves`: a relation that holds of a track and
itself and is kept by every call holds between a track and what it evolves to. -/
theorem evolves_induction (cv : CvOps) (P : Track → Track → Prop)
    (hrefl : ∀ a, P a a) (hstep : ∀ a b op, P a b → P a (b.apply cv op))
    {a b : Track} (h : Evolves cv a b) : P a b := by
  obtain ⟨ops, rfl⟩ := h
  induction ops using List.reverseRecOn with
  | nil => exact hrefl a
  | append_singleton ops op ih =>
    rw [applyOps_snoc]
    exact hstep _ _ op ih

theorem evolves_id (cv : CvOps) {a b : Track} (h : Evolves cv a b) : b.id = a.id := by
  refine evolves_induction cv (fun a b => b.id = a.id) (fun _ => rfl) ?_ h
  intro a b op hab
  cases op <;> simpa [Track.apply] using hab

theorem createCostMatrix_evolves (cv : CvOps) (tracks : List Track) (dets : List Detection) :
    List.Forall₂ (Evolves cv) tracks (createCostMatrix cv tracks dets).1 := by
  have : (createCostMatrix cv tracks dets).1
      = tracks.map (fun t => t.apply cv TrackOp.getPredictedBbox) := by
    simp [createCostMatrix, costRow, Track.apply, Function.comp_def]
  rw [this]
  exact forall2_map_self (fun a => evolves_op cv a TrackOp.getPredictedBbox) tracks

theorem associate_evolves (cv : CvOps) (t : Tracker) (dets : List Detection) :
    List.Forall₂ (Evolves cv) t.tracks (t.associate cv dets).tracks := by
  unfold Tracker.associate
  split
  · exact forall2_refl_of (evolves_refl cv) _
  · split
    · exact forall2_refl_of (evolves_refl cv) _
    · exact createCostMatrix_evolves cv t.tracks dets

theorem updateMatched_evolves (cv : CvOps) (dets : List Detection) (tracks : List Track)
    (pairs : List (Nat × Nat)) :
    List.Forall₂ (Evolves cv) tracks (updateMatched cv dets tracks pairs) := by
  unfold updateMatched
  apply forall2_foldl (evolves_refl cv) (evolves_trans cv)
  intro ts p
  cases hd : dets.get? p.2 with
  | none => exact forall2_refl_of (evolves_refl cv) ts
  | some d =>
    exact forall2_modifyNth (evolves_refl cv)
      (fun a => evolves_op cv a (TrackOp.update d.bbox)) p.1 ts

theorem markUnmatched_evolves (cv : CvOps) (tracks : List Track) (idx : List Nat) :
    List.Forall₂ (Evolves cv) tracks (markUnmatched tracks idx) := by
  unfold markUnmatched
  apply forall2_foldl (evolves_refl cv) (evolves_trans cv)
  intro ts i
  exact forall2_modifyNth (evolves_refl cv)
    (fun a => evolves_op cv a TrackOp.markMissed) i ts

/-- Every track of the collection before the "create new tracks" loop is the
track at the same position before the call after some calls on it. -/
theorem afterMark_evolves (cv : CvOps) (t : Tracker) (dets : List Detection) :
    List.Forall₂ (Evolves cv) t.tracks (t.afterMark cv dets) := by
  unfold Tracker.afterMark
  have h1 : List.Forall₂ (Evolves cv) t.tracks (t.tracks.map (Track.predict cv)) :=
    forall2_map_self (fun a => evolves_op cv a TrackOp.predict) t.tracks
  have h2 := associate_evolves cv { t with tracks := t.tracks.map (Track.predict cv) } dets
  exact forall2_trans_of (evolves_trans cv) h1
    (forall2_trans_of (evolves_trans cv) h2
      (forall2_trans_of (evolves_trans cv) (updateMatched_evolves cv dets _ _)
        (markUnmatched_evolves cv _ _)))

theorem afterMark_ids (cv : CvOps) (t : Tracker) (dets : List Detection) :
    (t.afterMark cv dets).map Track.id = t.tracks.map Track.id :=
  forall2_map_eq Track.id (fun _ _ h => evolves_id cv h) (afterMark_evolves cv t dets)

theorem spawnTracks_ids (dets : List Detection) (n : Int) (js : List Nat) :
    (spawnTracks dets n js).map Track.id =
      (List.range (spawnTracks dets n js).length).map (fun (i : Nat) => n + (i : Int)) := by
  induction js generalizing n with
  | nil => simp [spawnTracks]
  | cons j js ih =>
    unfold spawnTracks
    cases hd : dets.get? j with
    | none => simpa using ih n
    | some d =>
      simp only [List.map_cons, List.length_cons, List.range_succ_eq_map, List.map_map]
      rw [ih (n + 1)]
      simp only [Track.new, Function.comp_def, List.cons.injEq, Nat.cast_zero, add_zero,
        true_and]
      apply List.map_congr_left
      intro a _
      simp only [Nat.succ_eq_add_one, Nat.cast_add, Nat.cast_one]
      omega

theorem spawnTracks_new (dets : List Detection) (n : Int) (js : List Nat) :
    ∀ tr ∈ spawnTracks dets n js,
      ∃ d ∈ dets, ∃ i, tr = Track.new d.bbox d.classId d.className i := by
  induction js generalizing n with
  | nil => simp [spawnTracks]
  | cons j js ih =>
    intro tr htr
    unfold spawnTracks at htr
    cases hd : dets.get? j with
    | none =>
      rw [hd] at htr
      exact ih n tr htr
    | some d =>
      rw [hd] at htr
      rcases List.mem_cons.mp htr with rfl | h
      · exact ⟨d, List.get?_mem hd, n, rfl⟩
      · exact ih (n + 1) tr h

theorem spawned_ids (cv : CvOps) (t : Tracker) (dets : List Detection) :
    (t.spawned cv dets).map Track.id =
      (List.range (t.spawned cv dets).length).map (fun (i : Nat) => t.nextId + (i : Int)) :=
  spawnTracks_ids _ _ _

theorem spawned_new (cv : CvOps) (t : Tracker) (dets : List Detection) :
    ∀ tr ∈ t.spawned cv dets,
      ∃ d ∈ dets, ∃ i, tr = Track.new d.bbox d.classId d.className i :=
  spawnTracks_new _ _ _

theorem update_tracks (cv : CvOps) (t : Tracker) (dets : List Detection) :
    (t.update cv dets).1.tracks =
      (t.afterMark cv dets ++ t.spawned cv dets).filter
        (fun tr => !decide (tr.timeSinceUpdate > t.maxAge)) := rfl

theorem update_nextId (cv : CvOps) (t : Tracker) (dets : List Detection) :
    (t.update cv dets).1.nextId = t.nextId + (t.spawned cv dets).length := rfl

theorem update_config (cv : CvOps) (t : Tracker) (dets : List Detection) :
    (t.update cv dets).1.maxAge = t.maxAge ∧ (t.update cv dets).1.minHits = t.minHits ∧
    (t.update cv dets).1.maxIoUDistance = t.maxIoUDistance := ⟨rfl, rfl, rfl⟩

theorem update_returned (cv : CvOps) (t : Tracker) (dets : List Detection) :
    (t.update cv dets).2 = (t.update cv dets).1.tracks.filter (surfaced t.minHits) := rfl

theorem beforeReap_ids (cv : CvOps) (t : Tracker) (dets : List Detection) :
    (t.beforeReap cv dets).map Track.id =
      t.tracks.map Track.id ++
        (List.range (t.spawned cv dets).length).map (fun (i : Nat) => t.nextId + (i : Int)) := by
  simp only [Tracker.beforeReap, List.map_append, afterMark_ids, spawned_ids]

/-- One `update` call keeps the identifiers well-formed. -/
theorem idsOk_update (cv : CvOps) (t : Tracker) (dets : List Detection) (h : t.IdsOk) :
    (t.update cv dets).1.IdsOk := by
  obtain ⟨h1, hnd, hb⟩ := h
  have hall : ((t.beforeReap cv dets).map Track.id).Nodup ∧
      ∀ x ∈ (t.beforeReap cv dets).map Track.id,
        1 ≤ x ∧ x < t.nextId + (t.spawned cv dets).length := by
    rw [beforeReap_ids]
    constructor
    · rw [List.nodup_append]
      refine ⟨hnd, ?_, ?_⟩
      · refine List.Nodup.map ?_ (List.nodup_range _)
        intro a b hab
        simpa using hab
      · intro x hx hx2
        obtain ⟨tr, htr, rfl⟩ := List.mem_map.mp hx
        obtain ⟨i, _, hi⟩ := List.mem_map.mp hx2
        have := (hb tr htr).2
        omega
    · intro x hx
      rcases List.mem_append.mp hx with hx | hx
      · obtain ⟨tr, htr, rfl⟩ := List.mem_map.mp hx
        have := hb tr htr
        omega
      · obtain ⟨i, hi, rfl⟩ := List.mem_map.mp hx
        have := List.mem_range.mp hi
        omega
  have hsub : List.Sublist ((t.update cv dets).1.tracks.map Track.id)
      ((t.beforeReap cv dets).map Track.id) := by
    rw [update_tracks]
    exact List.Sublist.map _ (List.filter_sublist _)
  refine ⟨?_, hall.1.sublist hsub, ?_⟩
  · rw [update_nextId]; omega
  · intro tr htr
    rw [update_nextId]
    exact hall.2 _ (hsub.subset (List.mem_map_of_mem _ htr))

theorem idsOk_new (a : ℚ) (b c : Int) : (Tracker.new a b c).IdsOk := by
  simp [Tracker.IdsOk, Tracker.new]

theorem run_cons (cv : CvOps) (t : Tracker) (d : List Detection) (ds : List (List Detection)) :
    t.run cv (d :: ds) = (t.update cv d).1.run cv ds := rfl

theorem run_snoc (cv : CvOps) (t : Tracker) (ds : List (List Detection)) (d : List Detection) :
    t.run cv (ds ++ [d]) = ((t.run cv ds).update cv d).1 := by
  simp [Tracker.run, List.foldl_append]

theorem idsOk_run (cv : CvOps) (t : Tracker) (frames : List (List Detection))
    (h : t.IdsOk) : (t.run cv frames).IdsOk := by
  induction frames generalizing t with
  | nil => exact h
  | cons d ds ih => exact ih _ (idsOk_update cv t d h)

/-- The ids issued during a run are the consecutive integers from the
counter before the run up to the counter after it. -/
theorem issuedIds_run (cv : CvOps) (t : Tracker) (frames : List (List Detection)) :
    (t.run cv frames).nextId = t.nextId + (t.issuedIds cv frames).length ∧
    t.issuedIds cv frames =
      (List.range (t.issuedIds cv frames).length).map (fun (i : Nat) => t.nextId + (i : Int)) := by
  induction frames generalizing t with
  | nil => simp [Tracker.run, Tracker.issuedIds]
  | cons d ds ih =>
    obtain ⟨ih1, ih2⟩ := ih (t.update cv d).1
    rw [run_cons]
    constructor
    · rw [ih1, update_nextId]
      simp [Tracker.issuedIds]
      omega
    · have hlen : (t.issuedIds cv (d :: ds)).length =
          (t.spawned cv d).length + ((t.update cv d).1.issuedIds cv ds).length := by
        simp [Tracker.issuedIds]
      rw [hlen, List.range_add, List.map_append, List.map_map]
      conv_lhs => rw [Tracker.issuedIds, spawned_ids, ih2, update_nextId]
      congr 1
      apply List.map_congr_left
      intro i _
      simp [add_assoc]

/-! ## Updates without detections -/

theorem modifyNth_append_length {α : Type} (f : α → α) (pre : List α) (a : α) (l : List α) :
    modifyNth f pre.length (pre ++ a :: l) = pre ++ f a :: l := by
  induction pre with
  | nil => rfl
  | cons p pre ih => simp [modifyNth, ih]

theorem foldl_modifyNth_range {α : Type} (f : α → α) (l pre : List α) :
    (List.range' pre.length l.length).foldl (fun ts i => modifyNth f i ts) (pre ++ l) =
      pre ++ l.map f := by
  induction l generalizing pre with
  | nil => simp
  | cons a l ih =>
    simp only [List.length_cons, List.range'_succ, List.foldl_cons, List.map_cons]
    rw [modifyNth_append_length]
    have := ih (pre ++ [f a])
    simpa using this

theorem markUnmatched_range (l : List Track) :
    markUnmatched l (List.range l.length) = l.map Track.markMissed := by
  have := foldl_modifyNth_range Track.markMissed l []
  simpa [markUnmatched, List.range_eq_range'] using this

theorem afterMark_no_detections (cv : CvOps) (t : Tracker) :
    t.afterMark cv [] = t.tracks.map (fun tr => (tr.predict cv).markMissed) := by
  unfold Tracker.afterMark Tracker.associate
  by_cases h : t.tracks = []
  · simp [h, updateMatched, markUnmatched]
  · have h2 : (t.tracks.map (Track.predict cv)).isEmpty = false := by
      cases hl : t.tracks with
      | nil => exact absurd hl h
      | cons a l => rfl
    simp only [h2, List.isEmpty_nil, if_true, Bool.false_eq_true, if_false, List.zip_nil_left,
      updateMatched, List.foldl_nil]
    have := markUnmatched_range (t.tracks.map (Track.predict cv))
    rw [List.length_map] at this
    rw [List.length_map, this, List.map_map]
    rfl

theorem spawned_no_detections (cv : CvOps) (t : Tracker) : t.spawned cv [] = [] := by
  unfold Tracker.spawned Tracker.associate
  simp only [List.isEmpty_nil, if_true, List.length_nil, List.range_zero]
  split <;> rfl

/-- An `update` call without detections predicts and marks every track, creates
none and reaps on the doubled counter. -/
theorem update_no_detections (cv : CvOps) (t : Tracker) :
    (t.update cv []).1.tracks =
      (t.tracks.map (fun tr => (tr.predict cv).markMissed)).filter
        (fun tr => !decide (tr.timeSinceUpdate > t.maxAge)) ∧
    (t.update cv []).1.nextId = t.nextId := by
  rw [update_tracks, update_nextId, afterMark_no_detections, spawned_no_detections]
  simp

/-! ## Life cycle of one track -/

theorem evolves_confirmed (cv : CvOps) {a b : Track} (h : Evolves cv a b)
    (ha : a.state = TrackState.Confirmed) : b.state = TrackState.Confirmed := by
  refine evolves_induction cv
    (fun a b => a.state = TrackState.Confirmed → b.state = TrackState.Confirmed)
    (fun _ h => h) ?_ h ha
  intro a b op hab ha
  have hb := hab ha
  cases op <;> simp [Track.apply, update_state, hb]

theorem evolves_not_deleted (cv : CvOps) {a b : Track} (h : Evolves cv a b)
    (ha : a.state ≠ TrackState.Deleted) : b.state ≠ TrackState.Deleted := by
  refine evolves_induction cv
    (fun a b => a.state ≠ TrackState.Deleted → b.state ≠ TrackState.Deleted)
    (fun _ h => h) ?_ h ha
  intro a b op hab ha
  have hb := hab ha
  cases op <;> simp only [Track.apply, predict_fields, getPredictedBbox_fields,
    getCurrentBbox_fields, markMissed_fields, update_state] <;> try exact hb
  split
  · simp
  · exact hb

/-- A track that is Confirmed after a call sequence had `hitStreak ≥ 3` after
some prefix of it. -/
theorem confirmed_had_three_hits (cv : CvOps) (bbox : Rect) (classId : Int)
    (className : String) (trackId : Int) (ops : List TrackOp)
    (h : ((Track.new bbox classId className trackId).applyOps cv ops).state
      = TrackState.Confirmed) :
    ∃ ops1 ops2, ops = ops1 ++ ops2 ∧
      ((Track.new bbox classId className trackId).applyOps cv ops1).hitStreak ≥ 3 := by
  induction ops using List.reverseRecOn with
  | nil => simp [Track.applyOps, Track.new] at h
  | append_singleton ops op ih =>
    rw [applyOps_snoc] at h
    have hold : ((Track.new bbox classId className trackId).applyOps cv ops).state
          = TrackState.Confirmed →
        ∃ ops1 ops2, ops ++ [op] = ops1 ++ ops2 ∧
          ((Track.new bbox classId className trackId).applyOps cv ops1).hitStreak ≥ 3 := by
      intro hc
      obtain ⟨o1, o2, ho, hh⟩ := ih hc
      exact ⟨o1, o2 ++ [op], by rw [ho, List.append_assoc], hh⟩
    cases op with
    | update b =>
      simp only [Track.apply, update_state] at h
      split at h
      · rename_i hcond
        refine ⟨ops ++ [TrackOp.update b], [], by simp, ?_⟩
        rw [applyOps_snoc]
        simp only [Track.apply, update_fields]
        exact hcond.2
      · exact hold h
    | predict => exact hold (by simpa [Track.apply] using h)
    | getPredictedBbox => exact hold (by simpa [Track.apply] using h)
    | getCurrentBbox => exact hold (by simpa [Track.apply] using h)
    | markMissed => exact hold (by simpa [Track.apply] using h)

theorem new_not_deleted (cv : CvOps) (bbox : Rect) (classId : Int) (className : String)
    (trackId : Int) (ops : List TrackOp) :
    ((Track.new bbox classId className trackId).applyOps cv ops).state
      ≠ TrackState.Deleted :=
  evolves_not_deleted cv ⟨ops, rfl⟩ (by simp [Track.new])

theorem constructed_update (cv : CvOps) (t : Tracker) (dets : List Detection)
    (h : ∀ tr ∈ t.tracks, Constructed cv tr) :
    ∀ tr ∈ (t.update cv dets).1.tracks, Constructed cv tr := by
  intro tr htr
  rw [update_tracks] at htr
  rcases List.mem_append.mp (List.mem_of_mem_filter htr) with hm | hs
  · obtain ⟨a, ha, hev⟩ := forall2_mem_right (afterMark_evolves cv t dets) hm
    obtain ⟨bbox, cid, cname, ops, hcon⟩ := h a ha
    have hid := evolves_id cv hev
    obtain ⟨ops2, rfl⟩ := hev
    refine ⟨bbox, cid, cname, ops ++ ops2, ?_⟩
    rw [applyOps_append, hid, ← hcon]
  · obtain ⟨d, _, i, rfl⟩ := spawned_new cv t dets tr hs
    exact ⟨d.bbox, d.classId, d.className, [], rfl⟩

theorem constructed_run (cv : CvOps) (t : Tracker) (frames : List (List Detection))
    (h : ∀ tr ∈ t.tracks, Constructed cv tr) :
    ∀ tr ∈ (t.run cv frames).tracks, Constructed cv tr := by
  induction frames generalizing t with
  | nil => exact h
  | cons d ds ih => exact ih _ (constructed_update cv t d h)

/-- A Confirmed live track keeps its state across an `update` call: the track
with the same id afterwards, if any, is Confirmed. -/
theorem confirmed_kept_by_update (cv : CvOps) (t : Tracker) (dets : List Detection)
    (hok : t.IdsOk) (tr : Track) (htr : tr ∈ t.tracks)
    (hc : tr.state = TrackState.Confirmed) (tr2 : Track)
    (h2 : tr2 ∈ (t.update cv dets).1.tracks) (hid : tr2.id = tr.id) :
    tr2.state = TrackState.Confirmed := by
  rw [update_tracks] at h2
  rcases List.mem_append.mp (List.mem_of_mem_filter h2) with hm | hs
  · obtain ⟨a, ha, hev⟩ := forall2_mem_right (afterMark_evolves cv t dets) hm
    have haid : a.id = tr.id := by rw [← evolves_id cv hev, hid]
    have hatr : a = tr := List.inj_on_of_nodup_map hok.2.1 ha htr haid
    rw [hatr] at hev
    exact evolves_confirmed cv hev hc
  · have hmem : tr2.id ∈ (t.spawned cv dets).map Track.id := List.mem_map_of_mem _ hs
    rw [spawned_ids] at hmem
    obtain ⟨i, _, hi⟩ := List.mem_map.mp hmem
    have := (hok.2.2 tr htr).2
    omega

/-! ## The assigner: shape of the result of `solve` -/

theorem coverOk_assign (cols : Nat) (s : Cover) (i j : Nat) (rc : List Bool)
    (h : CoverOk cols s) (hj : j < cols) (hu : s.colCovered.getD j false = false) :
    CoverOk cols
      { assignment := s.assignment.set i (j : Int), rowCovered := rc
        colCovered := s.colCovered.set j true } := by
  obtain ⟨hlen, hall⟩ := h
  have hunc : s.colCovered[j]? ≠ some true := by
    intro hc
    simp [List.getD_eq_getElem?_getD, hc] at hu
  refine ⟨by simp [hlen], ?_⟩
  intro k a hk ha
  simp only [List.getElem?_set] at hk
  by_cases hik : i = k
  · subst hik
    rw [if_pos rfl] at hk
    split at hk
    · rename_i hi
      have haj : a = (j : Int) := by simpa using hk.symm
      subst haj
      refine ⟨by omega, by simpa using hj, ?_, ?_⟩
      · simp only [Int.toNat_ofNat, List.getElem?_set, if_true, hlen, hj]
      · intro k2 hk2
        by_contra hne
        have hne2 : i ≠ k2 := fun h => hne h.symm
        simp only [List.getElem?_set, if_neg hne2] at hk2
        have := (hall k2 _ hk2 ha).2.2.1
        simp only [Int.toNat_ofNat] at this
        exact hunc this
    · cases hk
  · rw [if_neg hik] at hk
    obtain ⟨h0, hlt, hcov, huniq⟩ := hall k a hk ha
    refine ⟨h0, hlt, ?_, ?_⟩
    · have hne : j ≠ a.toNat := by
        intro hj2
        rw [← hj2] at hcov
        exact hunc hcov
      simp only [List.getElem?_set, if_neg hne, hcov]
    · intro k2 hk2
      simp only [List.getElem?_set] at hk2
      by_cases hik2 : i = k2
      · subst hik2
        rw [if_pos rfl] at hk2
        split at hk2
        · have haj : a = (j : Int) := by simpa using hk2.symm
          subst haj
          simp only [Int.toNat_ofNat] at hcov
          exact absurd hcov hunc
        · cases hk2
      · rw [if_neg hik2] at hk2
        exact huniq k2 hk2

theorem coverOk_greedyRow (cost : Mat) (cols : Nat) (s : Cover) (i : Nat)
    (h : CoverOk cols s) : CoverOk cols (greedyRow cost cols s i) := by
  unfold greedyRow
  split
  · rename_i j hfind
    have hmem := List.mem_of_find?_eq_some hfind
    have hp := List.find?_some hfind
    simp only [Bool.and_eq_true, Bool.not_eq_true'] at hp
    exact coverOk_assign cols s i j _ h (List.mem_range.mp hmem) hp.2
  · exact h

theorem residualScan_foldl (cost : Mat) (cc : List Bool) (i cols : Nat) (l : List Nat)
    (hl : ∀ j ∈ l, j < cols) (acc : ℚ × Int)
    (hacc : acc.2 = -1 ∨ ∃ j : Nat, j < cols ∧ acc.2 = (j : Int) ∧ cc.getD j false = false) :
    (l.foldl (residualScan cost cc i) acc).2 = -1 ∨
      ∃ j : Nat, j < cols ∧ (l.foldl (residualScan cost cc i) acc).2 = (j : Int) ∧
        cc.getD j false = false := by
  induction l generalizing acc with
  | nil => exact hacc
  | cons x l ih =>
    simp only [List.foldl_cons]
    apply ih (fun j hj => hl j (List.mem_cons_of_mem _ hj))
    unfold residualScan
    split
    · rename_i hc
      simp only [Bool.and_eq_true, Bool.not_eq_true'] at hc
      exact Or.inr ⟨x, hl x (List.mem_cons_self _ _), rfl, hc.1⟩
    · exact hacc

theorem coverOk_residualRow (cost : Mat) (cols : Nat) (s : Cover) (i : Nat)
    (h : CoverOk cols s) : CoverOk cols (residualRow cost cols s i) := by
  unfold residualRow
  split
  · simp only
    split
    · rename_i hr
      rcases residualScan_foldl cost s.colCovered i cols (List.range cols)
          (fun j hj => List.mem_range.mp hj) (INF, -1) (Or.inl rfl) with h1 | ⟨j, hj, hjr, hu⟩
      · exact absurd h1 hr.1
      · rw [hjr]
        simpa using coverOk_assign cols s i j s.rowCovered h hj hu
    · exact h
  · exact h

theorem greedyRow_length (cost : Mat) (cols : Nat) (s : Cover) (i : Nat) :
    (greedyRow cost cols s i).assignment.length = s.assignment.length := by
  unfold greedyRow
  split <;> simp

theorem residualRow_length (cost : Mat) (cols : Nat) (s : Cover) (i : Nat) :
    (residualRow cost cols s i).assignment.length = s.assignment.length := by
  unfold residualRow
  split
  · simp only
    split <;> simp
  · rfl

theorem foldl_invariant {α β : Type} (P : α → Prop) (f : α → β → α)
    (hf : ∀ a b, P a → P (f a b)) (l : List β) (a : α) (ha : P a) : P (l.foldl f a) := by
  induction l generalizing a with
  | nil => exact ha
  | cons b l ih => exact ih (f a b) (hf a b ha)

theorem coverOk_initial (rows cols : Nat) :
    CoverOk cols
      { assignment := List.replicate rows (-1), rowCovered := List.replicate rows false
        colCovered := List.replicate cols false } := by
  refine ⟨by simp, ?_⟩
  intro i a hi ha
  simp only [List.getElem?_replicate] at hi
  split at hi
  · exact absurd (Option.some.inj hi).symm ha
  · cases hi

/-- The unfolding of `solve` on a matrix whose first row is not empty. -/
theorem solve_cons (c : ℚ) (cs : List ℚ) (rest : Mat) :
    HungarianAlgorithm.solve ((c :: cs) :: rest) =
      ((List.range (rest.length + 1)).foldl
        (residualRow ((List.range (cs.length + 1)).foldl reduceCol
          (((c :: cs) :: rest).map reduceRow)) (cs.length + 1))
        ((List.range (rest.length + 1)).foldl
          (greedyRow ((List.range (cs.length + 1)).foldl reduceCol
            (((c :: cs) :: rest).map reduceRow)) (cs.length + 1))
          { assignment := List.replicate (rest.length + 1) (-1)
            rowCovered := List.replicate (rest.length + 1) false
            colCovered := List.replicate (cs.length + 1) false })).assignment := rfl

/-- Shape of the result of `solve` on a matrix with a non-empty first row: one
entry per row; an entry other than -1 is a column index below the width of the
first row and is held by no other row. -/
theorem solve_shape (row0 : List ℚ) (rest : Mat) (h0 : row0 ≠ []) :
    (HungarianAlgorithm.solve (row0 :: rest)).length = rest.length + 1 ∧
    ∀ (i : Nat) (a : Int), (HungarianAlgorithm.solve (row0 :: rest))[i]? = some a → a ≠ -1 →
      (0 ≤ a ∧ a.toNat < row0.length ∧
        ∀ k : Nat, (HungarianAlgorithm.solve (row0 :: rest))[k]? = some a → k = i) := by
  cases row0 with
  | nil => exact absurd rfl h0
  | cons c cs =>
    rw [solve_cons]
    constructor
    · refine foldl_invariant (fun s : Cover => s.assignment.length = rest.length + 1) _
        (fun s i hs => (residualRow_length _ _ s i).trans hs) _ _ ?_
      refine foldl_invariant (fun s : Cover => s.assignment.length = rest.length + 1) _
        (fun s i hs => (greedyRow_length _ _ s i).trans hs) _ _ ?_
      simp
    · have hok : CoverOk (cs.length + 1)
          ((List.range (rest.length + 1)).foldl
            (residualRow ((List.range (cs.length + 1)).foldl reduceCol
              (((c :: cs) :: rest).map reduceRow)) (cs.length + 1))
            ((List.range (rest.length + 1)).foldl
              (greedyRow ((List.range (cs.length + 1)).foldl reduceCol
                (((c :: cs) :: rest).map reduceRow)) (cs.length + 1))
              { assignment := List.replicate (rest.length + 1) (-1)
                rowCovered := List.replicate (rest.length + 1) false
                colCovered := List.replicate (cs.length + 1) false })) := by
        refine foldl_invariant (CoverOk (cs.length + 1)) _
          (fun s i hs => coverOk_residualRow _ _ s i hs) _ _ ?_
        refine foldl_invariant (CoverOk (cs.length + 1)) _
          (fun s i hs => coverOk_greedyRow _ _ s i hs) _ _ ?_
        exact coverOk_initial _ _
      intro i a hi ha
      obtain ⟨h1, h2, _, h4⟩ := hok.2 i a hi ha
      exact ⟨h1, by simpa using h2, h4⟩

/-! ## The gate of `associate` -/

theorem getD_set_true (dm : List Bool) (k j : Nat) :
    (dm.set k true).getD j false = true ↔
      (dm.getD j false = true ∨ (j = k ∧ k < dm.length)) := by
  simp only [List.getD_eq_getElem?_getD, List.getElem?_set]
  by_cases hkj : k = j
  · subst hkj
    by_cases hk : k < dm.length
    · simp [hk]
    · simp [hk, List.getElem?_eq_none (Nat.le_of_not_lt hk)]
  · have hjk : ¬ j = k := fun h => hkj h.symm
    simp [hkj, hjk]

theorem gateStep_accept (cm : Mat) (m : ℚ) (g : Gate) (ia : Nat × Int)
    (h : gateAccepts cm m ia = true) :
    gateStep cm m g ia =
      { g with
        matchedTracks := g.matchedTracks ++ [ia.1]
        matchedDetections := g.matchedDetections ++ [ia.2.toNat]
        detectionMatched := g.detectionMatched.set ia.2.toNat true } := by
  unfold gateStep
  rw [if_pos (by simpa [gateAccepts] using h)]

theorem gateStep_reject (cm : Mat) (m : ℚ) (g : Gate) (ia : Nat × Int)
    (h : gateAccepts cm m ia = false) :
    gateStep cm m g ia = { g with unmatchedTracks := g.unmatchedTracks ++ [ia.1] } := by
  unfold gateStep
  rw [if_neg]
  intro hc
  have : gateAccepts cm m ia = true := by simpa [gateAccepts] using hc
  rw [h] at this
  cases this

/-- The four outputs of the "process assignments" loop, in closed form. -/
theorem gate_foldl (cm : Mat) (m : ℚ) (l : List (Nat × Int)) (g : Gate) :
    (l.foldl (gateStep cm m) g).matchedTracks =
      g.matchedTracks ++ (l.filter (gateAccepts cm m)).map Prod.fst ∧
    (l.foldl (gateStep cm m) g).matchedDetections =
      g.matchedDetections ++ (l.filter (gateAccepts cm m)).map (fun ia => ia.2.toNat) ∧
    (l.foldl (gateStep cm m) g).unmatchedTracks =
      g.unmatchedTracks ++ (l.filter (fun ia => !gateAccepts cm m ia)).map Prod.fst ∧
    (l.foldl (gateStep cm m) g).detectionMatched.length = g.detectionMatched.length ∧
    ∀ j : Nat, (l.foldl (gateStep cm m) g).detectionMatched.getD j false = true ↔
      (g.detectionMatched.getD j false = true ∨
        (j < g.detectionMatched.length ∧
          ∃ ia ∈ l, gateAccepts cm m ia = true ∧ ia.2.toNat = j)) := by
  induction l generalizing g with
  | nil => simp
  | cons x l ih =>
    simp only [List.foldl_cons]
    cases hx : gateAccepts cm m x with
    | true =>
      rw [gateStep_accept cm m g x hx]
      obtain ⟨h1, h2, h3, h4, h5⟩ := ih
        { g with
          matchedTracks := g.matchedTracks ++ [x.1]
          matchedDetections := g.matchedDetections ++ [x.2.toNat]
          detectionMatched := g.detectionMatched.set x.2.toNat true }
      simp only [List.length_set] at h4 h5
      refine ⟨?_, ?_, ?_, h4, ?_⟩
      · rw [h1]; simp [List.filter_cons, hx]
      · rw [h2]; simp [List.filter_cons, hx]
      · rw [h3]; simp [List.filter_cons, hx]
      · intro j
        rw [h5 j, getD_set_true]
        constructor
        · rintro ((h | ⟨hj, hk⟩) | ⟨hj, ia, hia, hacc, hto⟩)
          · exact Or.inl h
          · exact Or.inr ⟨by omega, x, List.mem_cons_self _ _, hx, hj.symm⟩
          · exact Or.inr ⟨hj, ia, List.mem_cons_of_mem _ hia, hacc, hto⟩
        · rintro (h | ⟨hj, ia, hia, hacc, hto⟩)
          · exact Or.inl (Or.inl h)
          · rcases List.mem_cons.mp hia with rfl | hia
            · exact Or.inl (Or.inr ⟨hto.symm, by omega⟩)
            · exact Or.inr ⟨hj, ia, hia, hacc, hto⟩
    | false =>
      rw [gateStep_reject cm m g x hx]
      obtain ⟨h1, h2, h3, h4, h5⟩ := ih
        { g with unmatchedTracks := g.unmatchedTracks ++ [x.1] }
      refine ⟨?_, ?_, ?_, h4, ?_⟩
      · rw [h1]; simp [List.filter_cons, hx]
      · rw [h2]; simp [List.filter_cons, hx]
      · rw [h3]; simp [List.filter_cons, hx]
      · intro j
        rw [h5 j]
        constructor
        · rintro (h | ⟨hj, ia, hia, hacc, hto⟩)
          · exact Or.inl h
          · exact Or.inr ⟨hj, ia, List.mem_cons_of_mem _ hia, hacc, hto⟩
        · rintro (h | ⟨hj, ia, hia, hacc, hto⟩)
          · exact Or.inl h
          · rcases List.mem_cons.mp hia with rfl | hia
            · rw [hx] at hacc; cases hacc
            · exact Or.inr ⟨hj, ia, hia, hacc, hto⟩

/-! ## The cost matrix -/

theorem createCostMatrix_rows (cv : CvOps) (tracks : List Track) (dets : List Detection) :
    (createCostMatrix cv tracks dets).2 = tracks.map (fun t => (costRow cv dets t).2) := by
  simp [createCostMatrix]

theorem createCostMatrix_length (cv : CvOps) (tracks : List Track) (dets : List Detection) :
    (createCostMatrix cv tracks dets).2.length = tracks.length ∧
    ∀ row ∈ (createCostMatrix cv tracks dets).2, row.length = dets.length := by
  rw [createCostMatrix_rows]
  refine ⟨by simp, ?_⟩
  intro row hrow
  obtain ⟨t, _, rfl⟩ := List.mem_map.mp hrow
  simp [costRow]

theorem entry_createCostMatrix (cv : CvOps) (tracks : List Track) (dets : List Detection)
    (i j : Nat) (tr : Track) (d : Detection)
    (hi : tracks[i]? = some tr) (hj : dets[j]? = some d) :
    entry (createCostMatrix cv tracks dets).2 i j =
      if tr.classId ≠ d.classId then 1
      else 1 - calculateIoU (tr.getPredictedBbox cv).2 d.bbox := by
  rw [createCostMatrix_rows]
  simp [entry, List.getD_eq_getElem?_getD, hi, hj, costRow]

theorem calculateIoU_nonneg (a b : Rect) : 0 ≤ calculateIoU a b := by
  unfold calculateIoU
  simp only
  split
  · rename_i hu
    apply div_nonneg
    · exact_mod_cast mul_nonneg (le_max_left 0 _) (le_max_left 0 _)
    · exact_mod_cast le_of_lt hu
  · exact le_refl 0

theorem calculateIoU_le_one (a b : Rect) : calculateIoU a b ≤ 1 := by
  unfold calculateIoU
  simp only
  split
  · rename_i hu
    rw [div_le_one (by exact_mod_cast hu)]
    have key : max 0 (min (a.x + a.width) (b.x + b.width) - max a.x b.x) *
          max 0 (min (a.y + a.height) (b.y + b.height) - max a.y b.y) ≤
        a.width * a.height + b.width * b.height -
          max 0 (min (a.x + a.width) (b.x + b.width) - max a.x b.x) *
          max 0 (min (a.y + a.height) (b.y + b.height) - max a.y b.y) := by
      by_cases hx : min (a.x + a.width) (b.x + b.width) - max a.x b.x ≤ 0
      · rw [max_eq_left hx] at hu ⊢
        simp only [zero_mul, sub_zero] at hu ⊢
        exact le_of_lt hu
      · by_cases hy : min (a.y + a.height) (b.y + b.height) - max a.y b.y ≤ 0
        · rw [max_eq_left hy] at hu ⊢
          simp only [mul_zero, sub_zero] at hu ⊢
          exact le_of_lt hu
        · push_neg at hx hy
          rw [max_eq_right (le_of_lt hx), max_eq_right (le_of_lt hy)]
          have h1 := min_le_left (a.x + a.width) (b.x + b.width)
          have h2 := min_le_right (a.x + a.width) (b.x + b.width)
          have h3 := le_max_left a.x b.x
          have h4 := le_max_right a.x b.x
          have h5 := min_le_left (a.y + a.height) (b.y + b.height)
          have h6 := min_le_right (a.y + a.height) (b.y + b.height)
          have h7 := le_max_left a.y b.y
          have h8 := le_max_right a.y b.y
          have ha : (min (a.x + a.width) (b.x + b.width) - max a.x b.x) *
              (min (a.y + a.height) (b.y + b.height) - max a.y b.y) ≤ a.width * a.height :=
            mul_le_mul (by omega) (by omega) (le_of_lt hy) (by omega)
          have hb : (min (a.x + a.width) (b.x + b.width) - max a.x b.x) *
              (min (a.y + a.height) (b.y + b.height) - max a.y b.y) ≤ b.width * b.height :=
            mul_le_mul (by omega) (by omega) (le_of_lt hy) (by omega)
          omega
    exact_mod_cast key
  · exact zero_le_one

/-! ## The outputs of `associate` -/

theorem assignment_degenerate (cv : CvOps) (t : Tracker) (dets : List Detection)
    (h : t.tracks = [] ∨ dets = []) : t.assignment cv dets = [] := by
  unfold Tracker.assignment Tracker.costs
  rw [createCostMatrix_rows]
  cases ht : t.tracks with
  | nil => rfl
  | cons tr trs =>
    rcases h with h | h
    · rw [ht] at h; cases h
    · subst h
      rfl

/-- Shape of the assignment on a non-degenerate input. -/
theorem assignment_shape (cv : CvOps) (t : Tracker) (dets : List Detection)
    (ht : t.tracks ≠ []) (hd : dets ≠ []) :
    (t.assignment cv dets).length = t.tracks.length ∧
    ∀ (i : Nat) (a : Int), (t.assignment cv dets)[i]? = some a → a ≠ -1 →
      (0 ≤ a ∧ a.toNat < dets.length ∧
        ∀ k : Nat, (t.assignment cv dets)[k]? = some a → k = i) := by
  unfold Tracker.assignment Tracker.costs
  rw [createCostMatrix_rows]
  cases hts : t.tracks with
  | nil => exact absurd hts ht
  | cons tr trs =>
    have hrow : (costRow cv dets tr).2 ≠ [] := by
      intro hnil
      have := congrArg List.length hnil
      simp [costRow] at this
      exact hd this
    have hlen : (costRow cv dets tr).2.length = dets.length := by simp [costRow]
    obtain ⟨h1, h2⟩ := solve_shape (costRow cv dets tr).2
      (trs.map (fun t => (costRow cv dets t).2)) hrow
    simp only [List.map_cons]
    refine ⟨by simpa using h1, ?_⟩
    intro i a hi ha
    obtain ⟨h3, h4, h5⟩ := h2 i a hi ha
    exact ⟨h3, by rw [← hlen]; exact h4, h5⟩

/-- Every entry of the assignment other than -1 is a valid detection index of
a valid track index, and no other track holds it (all inputs). -/
theorem assignment_valid (cv : CvOps) (t : Tracker) (dets : List Detection)
    (i : Nat) (a : Int) (hi : (t.assignment cv dets)[i]? = some a) (ha : a ≠ -1) :
    0 ≤ a ∧ a.toNat < dets.length ∧ i < t.tracks.length ∧
      ∀ k : Nat, (t.assignment cv dets)[k]? = some a → k = i := by
  by_cases hdeg : t.tracks = [] ∨ dets = []
  · rw [assignment_degenerate cv t dets hdeg] at hi
    simp at hi
  · push_neg at hdeg
    obtain ⟨hlen, hall⟩ := assignment_shape cv t dets hdeg.1 hdeg.2
    obtain ⟨h1, h2, h3⟩ := hall i a hi ha
    refine ⟨h1, h2, ?_, h3⟩
    rw [← hlen]
    exact (List.getElem?_eq_some.mp hi).1

theorem associate_empty_tracks (cv : CvOps) (t : Tracker) (dets : List Detection)
    (h : t.tracks = []) :
    t.associate cv dets =
      { tracks := [], matchedTracks := [], matchedDetections := [], unmatchedTracks := []
        unmatchedDetections := List.range dets.length } := by
  unfold Tracker.associate
  simp [h]

theorem associate_empty_detections (cv : CvOps) (t : Tracker) (h : t.tracks ≠ []) :
    t.associate cv [] =
      { tracks := t.tracks, matchedTracks := [], matchedDetections := []
        unmatchedTracks := List.range t.tracks.length, unmatchedDetections := [] } := by
  unfold Tracker.associate
  simp [h]

theorem associate_nondegenerate (cv : CvOps) (t : Tracker) (dets : List Detection)
    (ht : t.tracks ≠ []) (hd : dets ≠ []) :
    t.associate cv dets =
      { tracks := (createCostMatrix cv t.tracks dets).1
        matchedTracks :=
          ((t.assignment cv dets).enum.filter
            (gateAccepts (t.costs cv dets) t.maxIoUDistance)).map Prod.fst
        matchedDetections :=
          ((t.assignment cv dets).enum.filter
            (gateAccepts (t.costs cv dets) t.maxIoUDistance)).map (fun ia => ia.2.toNat)
        unmatchedTracks :=
          ((t.assignment cv dets).enum.filter
            (fun ia => !gateAccepts (t.costs cv dets) t.maxIoUDistance ia)).map Prod.fst
        unmatchedDetections :=
          (List.range dets.length).filter (fun j =>
            !decide (∃ ia ∈ (t.assignment cv dets).enum,
              gateAccepts (t.costs cv dets) t.maxIoUDistance ia = true ∧ ia.2.toNat = j)) } := by
  obtain ⟨h1, h2, h3, _, h5⟩ := gate_foldl (t.costs cv dets) t.maxIoUDistance
    (t.assignment cv dets).enum
    { matchedTracks := [], matchedDetections := [], unmatchedTracks := []
      detectionMatched := List.replicate dets.length false }
  unfold Tracker.associate
  rw [if_neg (by simpa using ht), if_neg (by simpa using hd)]
  simp only [Tracker.assignment, Tracker.costs] at h1 h2 h3 h5 ⊢
  simp only [List.nil_append] at h1 h2 h3
  rw [h1, h2, h3]
  simp only [Association.mk.injEq, true_and]
  apply List.filter_congr
  intro j hj
  have hjlt := List.mem_range.mp hj
  rw [Bool.eq_iff_iff]
  simp only [Bool.not_eq_true', decide_eq_false_iff_not]
  rw [← Bool.not_eq_true, h5 j]
  simp [hjlt]

theorem enum_nodup {α : Type} (l : List α) : l.enum.Nodup :=
  List.Nodup.of_map Prod.fst (List.nodup_enum_map_fst l)

theorem nodup_append_filter_range (n : Nat) (l : List Nat) (p : Nat → Bool)
    (hn : l.Nodup) (hp : ∀ j, j < n → (p j = true ↔ j ∉ l)) (hl : ∀ x ∈ l, x < n) :
    (l ++ (List.range n).filter p).Perm (List.range n) := by
  have h1 : l.Perm ((List.range n).filter (fun j => !p j)) := by
    rw [List.perm_ext_iff_of_nodup hn ((List.nodup_range n).filter _)]
    intro x
    simp only [List.mem_filter, List.mem_range, Bool.not_eq_true']
    constructor
    · intro hx
      refine ⟨hl x hx, ?_⟩
      by_contra hpx
      have : p x = true := by simpa using hpx
      exact ((hp x (hl x hx)).mp this) hx
    · rintro ⟨hx, hpx⟩
      by_contra hxl
      have := (hp x hx).mpr hxl
      rw [hpx] at this
      cases this
  have h2 := List.filter_append_perm (fun j => !p j) (List.range n)
  have h3 : (List.range n).filter (fun j => !(fun j => !p j) j) = (List.range n).filter p := by
    apply List.filter_congr
    intro x _
    simp
  rw [h3] at h2
  exact (List.Perm.append_right _ h1).trans h2

/-- The matched detection indices are pairwise distinct. -/
theorem accepted_toNat_injective (cv : CvOps) (t : Tracker) (dets : List Detection)
    (x y : Nat × Int) (hx : x ∈ (t.assignment cv dets).enum) (hy : y ∈ (t.assignment cv dets).enum)
    (hax : x.2 ≥ 0) (hay : y.2 ≥ 0) (h : x.2.toNat = y.2.toNat) : x = y := by
  have hxy : x.2 = y.2 := by omega
  have hx1 := List.mem_enum_iff_getElem?.mp hx
  have hy1 := List.mem_enum_iff_getElem?.mp hy
  rw [← hxy] at hy1
  have := (assignment_valid cv t dets x.1 x.2 hx1 (by omega)).2.2.2 y.1 hy1
  exact Prod.ext this.symm hxy

theorem gateAccepts_nonneg (cm : Mat) (m : ℚ) (ia : Nat × Int)
    (h : gateAccepts cm m ia = true) : ia.2 ≥ 0 ∧ entry cm ia.1 ia.2.toNat < m := by
  simpa [gateAccepts] using h

/-- The partition of track and detection indices by `associate` (all inputs). -/
theorem associate_partition (cv : CvOps) (t : Tracker) (dets : List Detection) :
    ((t.associate cv dets).matchedTracks ++ (t.associate cv dets).unmatchedTracks).Perm
      (List.range t.tracks.length) ∧
    ((t.associate cv dets).matchedDetections ++ (t.associate cv dets).unmatchedDetections).Perm
      (List.range dets.length) ∧
    (t.associate cv dets).matchedDetections.Nodup ∧
    (t.associate cv dets).matchedTracks.length = (t.associate cv dets).matchedDetections.length := by
  by_cases ht : t.tracks = []
  · rw [associate_empty_tracks cv t dets ht, ht]
    simp
  · by_cases hd : dets = []
    · subst hd
      rw [associate_empty_detections cv t ht]
      simp
    · rw [associate_nondegenerate cv t dets ht hd]
      simp only
      have hnd : (((t.assignment cv dets).enum.filter
          (gateAccepts (t.costs cv dets) t.maxIoUDistance)).map (fun ia => ia.2.toNat)).Nodup := by
        refine List.Nodup.map_on ?_ ((enum_nodup _).filter _)
        intro x hx y hy hxy
        rw [List.mem_filter] at hx hy
        exact accepted_toNat_injective cv t dets x y hx.1 hy.1
          (gateAccepts_nonneg _ _ _ hx.2).1 (gateAccepts_nonneg _ _ _ hy.2).1 hxy
      refine ⟨?_, ?_, hnd, by simp⟩
      · rw [← List.map_append]
        have := (List.filter_append_perm (gateAccepts (t.costs cv dets) t.maxIoUDistance)
          (t.assignment cv dets).enum).map Prod.fst
        rw [List.enum_map_fst, (assignment_shape cv t dets ht hd).1] at this
        exact this
      · apply nodup_append_filter_range _ _ _ hnd
        · intro j _
          simp only [Bool.not_eq_true', decide_eq_false_iff_not, List.mem_map, List.mem_filter]
          constructor
          · rintro h ⟨ia, ⟨h1, h2⟩, h3⟩
            exact h ⟨ia, h1, h2, h3⟩
          · rintro h ⟨ia, h1, h2, h3⟩
            exact h ⟨ia, ⟨h1, h2⟩, h3⟩
        · intro x hx
          obtain ⟨ia, hia, rfl⟩ := List.mem_map.mp hx
          rw [List.mem_filter] at hia
          have h0 := (gateAccepts_nonneg _ _ _ hia.2).1
          exact (assignment_valid cv t dets ia.1 ia.2
            (List.mem_enum_iff_getElem?.mp hia.1) (by omega)).2.1

/-- The matched pairs are the assigned pairs that pass the gate (all inputs). -/
theorem mem_matched_iff (cv : CvOps) (t : Tracker) (dets : List Detection) (i j : Nat) :
    (i, j) ∈ List.zip (t.associate cv dets).matchedTracks (t.associate cv dets).matchedDetections ↔
      ((t.assignment cv dets)[i]? = some (j : Int) ∧
        entry (t.costs cv dets) i j < t.maxIoUDistance) := by
  by_cases hdeg : t.tracks = [] ∨ dets = []
  · rw [assignment_degenerate cv t dets hdeg]
    by_cases ht : t.tracks = []
    · rw [associate_empty_tracks cv t dets ht]; simp
    · have hd : dets = [] := hdeg.resolve_left ht
      subst hd
      rw [associate_empty_detections cv t ht]; simp
  · push_neg at hdeg
    rw [associate_nondegenerate cv t dets hdeg.1 hdeg.2]
    simp only [List.zip_map', List.mem_map, List.mem_filter, Prod.mk.injEq]
    constructor
    · rintro ⟨ia, ⟨hmem, hacc⟩, h1, h2⟩
      obtain ⟨h0, hlt⟩ := gateAccepts_nonneg _ _ _ hacc
      have hget := List.mem_enum_iff_getElem?.mp hmem
      have hj : ia.2 = (j : Int) := by omega
      rw [h1, hj] at hget
      rw [h1, h2] at hlt
      exact ⟨hget, hlt⟩
    · rintro ⟨hget, hlt⟩
      refine ⟨(i, (j : Int)), ⟨List.mem_enum_iff_getElem?.mpr hget, ?_⟩, rfl, by simp⟩
      simp [gateAccepts, hlt]

/-! ## Spawning and the case without a match -/

theorem spawnTracks_get (dets : List Detection) (js : List Nat) (n : Int)
    (hj : ∀ j ∈ js, j < dets.length) :
    (spawnTracks dets n js).length = js.length ∧
    ∀ (k j : Nat), js[k]? = some j →
      ∃ d, dets[j]? = some d ∧
        (spawnTracks dets n js)[k]? =
          some (Track.new d.bbox d.classId d.className (n + (k : Int))) := by
  induction js generalizing n with
  | nil => simp [spawnTracks]
  | cons j js ih =>
    have hjlt : j < dets.length := hj j (List.mem_cons_self _ _)
    have hget : dets.get? j = some dets[j] := by simp [hjlt]
    obtain ⟨ih1, ih2⟩ := ih (n + 1) (fun x hx => hj x (List.mem_cons_of_mem _ hx))
    unfold spawnTracks
    rw [hget]
    refine ⟨by simp [ih1], ?_⟩
    intro k x hk
    cases k with
    | zero =>
      simp only [List.getElem?_cons_zero, Option.some.injEq] at hk
      subst hk
      exact ⟨dets[j], by simp [hjlt], by simp⟩
    | succ k =>
      simp only [List.getElem?_cons_succ] at hk
      obtain ⟨d, hd, hs⟩ := ih2 k x hk
      refine ⟨d, hd, ?_⟩
      simp only [List.getElem?_cons_succ, hs, Nat.cast_add, Nat.cast_one]
      congr 2
      omega

theorem unmatchedDetections_lt (cv : CvOps) (t : Tracker) (dets : List Detection) :
    ∀ j ∈ (t.associate cv dets).unmatchedDetections, j < dets.length := by
  intro j hj
  have hperm := (associate_partition cv t dets).2.1
  exact List.mem_range.mp (hperm.subset (List.mem_append_right _ hj))

theorem spawned_eq (cv : CvOps) (t : Tracker) (dets : List Detection) :
    t.spawned cv dets = spawnTracks dets t.nextId (t.unmatchedDetections cv dets) := rfl

/-- When the gate rejects every assigned pair, nothing is matched. -/
theorem associate_all_rejected (cv : CvOps) (t : Tracker) (dets : List Detection)
    (hrej : ∀ ia ∈ (t.assignment cv dets).enum,
      gateAccepts (t.costs cv dets) t.maxIoUDistance ia = false) :
    (t.associate cv dets).matchedTracks = [] ∧
    (t.associate cv dets).matchedDetections = [] ∧
    (t.associate cv dets).unmatchedTracks = List.range t.tracks.length ∧
    (t.associate cv dets).unmatchedDetections = List.range dets.length := by
  by_cases ht : t.tracks = []
  · rw [associate_empty_tracks cv t dets ht, ht]
    simp
  · by_cases hd : dets = []
    · subst hd
      rw [associate_empty_detections cv t ht]
      simp
    · rw [associate_nondegenerate cv t dets ht hd]
      have hnil : (t.assignment cv dets).enum.filter
          (gateAccepts (t.costs cv dets) t.maxIoUDistance) = [] := by
        rw [List.filter_eq_nil_iff]
        intro ia hia
        rw [hrej ia hia]
        simp
      have hall : (t.assignment cv dets).enum.filter
          (fun ia => !gateAccepts (t.costs cv dets) t.maxIoUDistance ia) =
          (t.assignment cv dets).enum := by
        rw [List.filter_eq_self]
        intro ia hia
        rw [hrej ia hia]
        rfl
      simp only [hnil, hall, List.map_nil, List.enum_map_fst,
        (assignment_shape cv t dets ht hd).1, true_and]
      rw [List.filter_eq_self]
      intro j _
      simp only [Bool.not_eq_true', decide_eq_false_iff_not]
      rintro ⟨ia, hia, hacc, _⟩
      rw [hrej ia hia] at hacc
      cases hacc

/-- With a gate of at most 1, tracks and detections of pairwise different
classes give no accepted pair. -/
theorem class_mismatch_rejected (cv : CvOps) (t : Tracker) (dets : List Detection)
    (hm : t.maxIoUDistance ≤ 1)
    (hc : ∀ tr ∈ t.tracks, ∀ d ∈ dets, tr.classId ≠ d.classId) :
    ∀ ia ∈ (t.assignment cv dets).enum,
      gateAccepts (t.costs cv dets) t.maxIoUDistance ia = false := by
  intro ia hia
  by_contra hacc
  have hacc2 : gateAccepts (t.costs cv dets) t.maxIoUDistance ia = true := by
    simpa using hacc
  obtain ⟨h0, hlt⟩ := gateAccepts_nonneg _ _ _ hacc2
  have hg := List.mem_enum_iff_getElem?.mp hia
  obtain ⟨_, hj, hi, _⟩ := assignment_valid cv t dets ia.1 ia.2 hg (by omega)
  have hentry := entry_createCostMatrix cv t.tracks dets ia.1 ia.2.toNat
    t.tracks[ia.1] dets[ia.2.toNat] (by simp [hi]) (by simp [hj])
  rw [if_pos (hc _ (List.getElem_mem _) _ (List.getElem_mem _))] at hentry
  simp only [Tracker.costs] at hlt
  rw [hentry] at hlt
  exact absurd (lt_of_lt_of_le hlt hm) (lt_irrefl 1)

/-- The tracks `associate` leaves behind: the given ones, each possibly after
one `getPredictedBbox` call. -/
theorem associate_tracks (cv : CvOps) (t : Tracker) (dets : List Detection) :
    (t.associate cv dets).tracks = t.tracks ∨
    (t.associate cv dets).tracks = t.tracks.map (fun tr => (tr.getPredictedBbox cv).1) := by
  by_cases ht : t.tracks = []
  · left; rw [associate_empty_tracks cv t dets ht, ht]
  · by_cases hd : dets = []
    · left; subst hd; rw [associate_empty_detections cv t ht]
    · right
      rw [associate_nondegenerate cv t dets ht hd]
      simp [createCostMatrix, costRow, Function.comp_def]

/-- When nothing is matched, `update` leaves every pre-existing track
predicted, possibly read once, and marked missed. -/
theorem afterMark_all_rejected (cv : CvOps) (t : Tracker) (dets : List Detection)
    (hrej : ∀ ia ∈ ((t.predicted cv).assignment cv dets).enum,
      gateAccepts ((t.predicted cv).costs cv dets) t.maxIoUDistance ia = false) :
    t.afterMark cv dets = t.tracks.map (fun tr => (tr.predict cv).markMissed) ∨
    t.afterMark cv dets =
      t.tracks.map (fun tr => ((tr.predict cv).getPredictedBbox cv).1.markMissed) := by
  obtain ⟨h1, h2, h3, _⟩ := associate_all_rejected cv (t.predicted cv) dets hrej
  have hAM : t.afterMark cv dets =
      markUnmatched (updateMatched cv dets ((t.predicted cv).associate cv dets).tracks
        (List.zip ((t.predicted cv).associate cv dets).matchedTracks
          ((t.predicted cv).associate cv dets).matchedDetections))
        ((t.predicted cv).associate cv dets).unmatchedTracks := rfl
  rw [hAM, h1, h2, h3]
  simp only [List.zip_nil_left, updateMatched, List.foldl_nil]
  rcases associate_tracks cv (t.predicted cv) dets with h | h
  · left
    rw [h]
    have := markUnmatched_range (t.predicted cv).tracks
    rw [this]
    simp [Tracker.predicted]
  · right
    rw [h]
    have := markUnmatched_range ((t.predicted cv).tracks.map (fun tr => (tr.getPredictedBbox cv).1))
    rw [List.length_map] at this
    rw [this]
    simp [Tracker.predicted]

/-! ## `calculateIoU` against the classical definition -/

theorem cells_card (r : Rect) (hw : 0 ≤ r.width) (hh : 0 ≤ r.height) :
    (r.cells.card : Int) = r.width * r.height := by
  simp only [Rect.cells, Finset.card_product, Int.card_Ico, Nat.cast_mul, add_sub_cancel_left]
  rw [Int.toNat_of_nonneg hw, Int.toNat_of_nonneg hh]

theorem cells_inter_card (a b : Rect) :
    ((a.cells ∩ b.cells).card : Int) =
      max 0 (min (a.x + a.width) (b.x + b.width) - max a.x b.x) *
      max 0 (min (a.y + a.height) (b.y + b.height) - max a.y b.y) := by
  simp only [Rect.cells, Finset.product_inter_product, Finset.Ico_inter_Ico,
    Finset.card_product, Int.card_Ico, Nat.cast_mul, Int.toNat_eq_max]
  rw [max_comm _ (0 : Int), max_comm _ (0 : Int)]

theorem cells_union_card (a b : Rect) (hwa : 0 ≤ a.width) (hha : 0 ≤ a.height)
    (hwb : 0 ≤ b.width) (hhb : 0 ≤ b.height) :
    ((a.cells ∪ b.cells).card : Int) =
      a.width * a.height + b.width * b.height -
        max 0 (min (a.x + a.width) (b.x + b.width) - max a.x b.x) *
        max 0 (min (a.y + a.height) (b.y + b.height) - max a.y b.y) := by
  have h := Finset.card_union_add_card_inter a.cells b.cells
  have h2 : ((a.cells ∪ b.cells).card : Int) + ((a.cells ∩ b.cells).card : Int) =
      (a.cells.card : Int) + (b.cells.card : Int) := by exact_mod_cast h
  rw [cells_card a hwa hha, cells_card b hwb hhb, cells_inter_card] at h2
  omega

/-! ## `solve` on a 2 × 2 matrix -/

theorem INF_pos : (0 : ℚ) < INF := by
  unfold INF
  positivity

theorem reduceRow_pair (a b : ℚ) (ha : a < INF) (hb : b < INF) :
    reduceRow [a, b] = [a - min a b, b - min a b] := by
  have hm : min a b < INF := lt_of_le_of_lt (min_le_left a b) ha
  simp [reduceRow, ha, hb, hm]

theorem reduceCol_zero (p q r s : ℚ) (hp : p < INF) (hr : r < INF) :
    reduceCol [[p, q], [r, s]] 0 = [[p - min p r, q], [r - min p r, s]] := by
  have h1 : min INF p = p := min_eq_right (le_of_lt hp)
  have hm : min p r < INF := lt_of_le_of_lt (min_le_left p r) hp
  simp [reduceCol, modifyNth, h1, hm, hp, hr]

theorem reduceCol_one (p q r s : ℚ) (hq : q < INF) (hs : s < INF) :
    reduceCol [[p, q], [r, s]] 1 = [[p, q - min q s], [r, s - min q s]] := by
  have h1 : min INF q = q := min_eq_right (le_of_lt hq)
  have hm : min q s < INF := lt_of_le_of_lt (min_le_left q s) hq
  simp [reduceCol, modifyNth, h1, hm, hq, hs]

/-- Steps 3 and 4 on a reduced 2 × 2 matrix with a zero diagonal. -/
theorem greedy_on_zero_diagonal (x y : ℚ) :
    ((List.range 2).foldl (residualRow [[0, x], [y, 0]] 2)
      ((List.range 2).foldl (greedyRow [[0, x], [y, 0]] 2)
        { assignment := List.replicate 2 (-1), rowCovered := List.replicate 2 false
          colCovered := List.replicate 2 false })).assignment = [0, 1] := by
  have hr : List.range 2 = [0, 1] := rfl
  simp [hr, greedyRow, residualRow, entry, List.replicate]

/-- On a 2 × 2 matrix with entries in `[0, INF)` in which each diagonal entry is
strictly below the other entry of its column, `solve` returns `[0, 1]`. -/
theorem solve_two_by_two (a b c d : ℚ) (ha : 0 ≤ a) (hb : 0 ≤ b) (hc : 0 ≤ c) (hd : 0 ≤ d)
    (ha2 : a < INF) (hb2 : b < INF) (hc2 : c < INF) (hd2 : d < INF)
    (h1 : a < c) (h2 : d < b) :
    HungarianAlgorithm.solve [[a, b], [c, d]] = [0, 1] := by
  have hm0 : 0 ≤ min a b := le_min ha hb
  have hm1 : 0 ≤ min c d := le_min hc hd
  have hp : a - min a b ≤ c - min c d := by
    rcases le_total a b with h | h <;> rcases le_total c d with h' | h' <;>
      simp only [min_eq_left, min_eq_right, h, h'] <;> linarith
  have hs : d - min c d ≤ b - min a b := by
    rcases le_total a b with h | h <;> rcases le_total c d with h' | h' <;>
      simp only [min_eq_left, min_eq_right, h, h'] <;> linarith
  have hred : (List.range 2).foldl reduceCol ([[a, b], [c, d]].map reduceRow) =
      [[0, (b - min a b) - (d - min c d)], [(c - min c d) - (a - min a b), 0]] := by
    have hr : List.range 2 = [0, 1] := rfl
    simp only [hr, List.map_cons, List.map_nil, List.foldl_cons, List.foldl_nil]
    rw [reduceRow_pair a b ha2 hb2, reduceRow_pair c d hc2 hd2,
      reduceCol_zero _ _ _ _ (by linarith) (by linarith),
      reduceCol_one _ _ _ _ (by linarith) (by linarith),
      min_eq_left hp, min_eq_right hs]
    simp
  rw [solve_cons]
  simp only [List.length_cons, List.length_nil, Nat.reduceAdd]
  rw [hred]
  exact greedy_on_zero_diagonal _ _

/-! ## Positions touched by the update and mark loops -/

theorem getElem?_modifyNth {α : Type} (f : α → α) (l : List α) (k i : Nat) :
    (modifyNth f k l)[i]? = if i = k then l[i]?.map f else l[i]? := by
  induction l generalizing k i with
  | nil => cases k <;> simp [modifyNth]
  | cons a l ih =>
    cases k with
    | zero =>
      cases i with
      | zero => simp [modifyNth]
      | succ i => simp [modifyNth]
    | succ k =>
      cases i with
      | zero => simp [modifyNth]
      | succ i => simp [modifyNth, ih]

theorem modifyNth_length {α : Type} (f : α → α) (l : List α) (k : Nat) :
    (modifyNth f k l).length = l.length := by
  induction l generalizing k with
  | nil => cases k <;> rfl
  | cons a l ih => cases k <;> simp [modifyNth, ih]

/-- A loop of in-place calls `ts[pos b] := F b ts[pos b]`: a property `U` kept
by every call holds everywhere afterwards, a property `S` established by every
call holds at every touched position, and untouched positions are unchanged. -/
theorem foldl_modifyNth_positions {α β : Type} (step : List α → β → List α)
    (pos : β → Nat) (F : β → α → α) (V : β → Prop) (U S : α → Prop)
    (hstep : ∀ b, V b → ∀ ts, step ts b = modifyNth (F b) (pos b) ts)
    (hF : ∀ b x, V b → U x → U (F b x) ∧ S (F b x))
    (l : List β) (hV : ∀ b ∈ l, V b) (ts : List α) (hU : ∀ x ∈ ts, U x) :
    (∀ x ∈ l.foldl step ts, U x) ∧
    (∀ (i : Nat) (x : α), (l.foldl step ts)[i]? = some x → i ∈ l.map pos → S x) ∧
    (∀ i : Nat, i ∉ l.map pos → (l.foldl step ts)[i]? = ts[i]?) ∧
    (l.foldl step ts).length = ts.length := by
  induction l generalizing ts with
  | nil => exact ⟨hU, by simp, by simp, rfl⟩
  | cons b l ih =>
    have hb : V b := hV b (List.mem_cons_self _ _)
    have hts : step ts b = modifyNth (F b) (pos b) ts := hstep b hb ts
    have hU2 : ∀ x ∈ step ts b, U x := by
      intro x hx
      rw [hts] at hx
      obtain ⟨i, hi⟩ := List.mem_iff_getElem?.mp hx
      rw [getElem?_modifyNth] at hi
      split at hi
      · obtain ⟨y, hy, rfl⟩ := Option.map_eq_some'.mp hi
        exact (hF b y hb (hU y (List.mem_iff_getElem?.mpr ⟨i, hy⟩))).1
      · exact hU x (List.mem_iff_getElem?.mpr ⟨i, hi⟩)
    obtain ⟨h1, h2, h3, h4⟩ := ih (fun x hx => hV x (List.mem_cons_of_mem _ hx)) (step ts b) hU2
    simp only [List.foldl_cons, List.map_cons, List.mem_cons, not_or]
    refine ⟨h1, ?_, ?_, ?_⟩
    · intro i x hi hmem
      by_cases hil : i ∈ l.map pos
      · exact h2 i x hi hil
      · have hib : i = pos b := hmem.resolve_right hil
        rw [h3 i hil, hts, getElem?_modifyNth, if_pos hib] at hi
        obtain ⟨y, hy, rfl⟩ := Option.map_eq_some'.mp hi
        exact (hF b y hb (hU y (List.mem_iff_getElem?.mpr ⟨i, hy⟩))).2
    · rintro i ⟨hib, hil⟩
      rw [h3 i hil, hts, getElem?_modifyNth, if_neg hib]
    · rw [h4, hts, modifyNth_length]

theorem associate_tracks_length (cv : CvOps) (t : Tracker) (dets : List Detection) :
    (t.associate cv dets).tracks.length = t.tracks.length :=
  (associate_evolves cv t dets).length_eq.symm

/-- One `update` call: from non-negative counters to the counter invariant on
every pre-existing track. -/
theorem afterMark_counters (cv : CvOps) (t : Tracker) (dets : List Detection)
    (h : ∀ tr ∈ t.tracks, 0 ≤ tr.timeSinceUpdate ∧ 0 ≤ tr.hitStreak) :
    ∀ x ∈ t.afterMark cv dets, CountersOk x := by
  have hA : ∀ x ∈ ((t.predicted cv).associate cv dets).tracks,
      0 ≤ x.timeSinceUpdate ∧ 0 ≤ x.hitStreak := by
    intro x hx
    rcases associate_tracks cv (t.predicted cv) dets with he | he
    · rw [he] at hx
      simp only [Tracker.predicted, List.mem_map] at hx
      obtain ⟨y, hy, rfl⟩ := hx
      have := h y hy
      simp only [Track.predict]
      exact ⟨by omega, this.2⟩
    · rw [he] at hx
      simp only [Tracker.predicted, List.mem_map] at hx
      obtain ⟨z, ⟨y, hy, rfl⟩, rfl⟩ := hx
      have := h y hy
      simp only [Track.predict, Track.getPredictedBbox]
      exact ⟨by omega, this.2⟩
  obtain ⟨hp1, hp2, _, hp4⟩ := associate_partition cv (t.predicted cv) dets
  have hV : ∀ p ∈ List.zip ((t.predicted cv).associate cv dets).matchedTracks
      ((t.predicted cv).associate cv dets).matchedDetections, p.2 < dets.length := by
    intro p hp
    have := (mem_matched_iff cv (t.predicted cv) dets p.1 p.2).mp hp
    have hv := (assignment_valid cv (t.predicted cv) dets p.1 (p.2 : Int) this.1 (by omega)).2.1
    simpa using hv
  obtain ⟨u1, u2, _, u4⟩ := foldl_modifyNth_positions
    (fun ts (p : Nat × Nat) =>
      match dets.get? p.2 with
      | some d => modifyNth (fun tr => tr.update cv d.bbox) p.1 ts
      | none => ts)
    Prod.fst
    (fun p x => match dets.get? p.2 with
      | some d => x.update cv d.bbox
      | none => x)
    (fun p => p.2 < dets.length)
    (fun x => 0 ≤ x.timeSinceUpdate ∧ 0 ≤ x.hitStreak)
    (fun x => x.timeSinceUpdate = 0 ∧ 0 < x.hitStreak)
    (by
      intro p hp ts
      have hg : dets.get? p.2 = some dets[p.2] := by simp [hp]
      simp only [hg])
    (by
      intro p x hp hx
      have hg : dets.get? p.2 = some dets[p.2] := by simp [hp]
      have h5 : (x.update cv dets[p.2].bbox).timeSinceUpdate = 0 := rfl
      have h6 : (x.update cv dets[p.2].bbox).hitStreak = x.hitStreak + 1 := rfl
      simp only [hg]
      rw [h5, h6]
      exact ⟨⟨le_refl 0, by omega⟩, rfl, by omega⟩)
    (List.zip ((t.predicted cv).associate cv dets).matchedTracks
      ((t.predicted cv).associate cv dets).matchedDetections) hV
    ((t.predicted cv).associate cv dets).tracks hA
  obtain ⟨m1, m2, m3, m4⟩ := foldl_modifyNth_positions
    (fun ts (i : Nat) => modifyNth Track.markMissed i ts) id (fun _ => Track.markMissed)
    (fun _ => True)
    (fun x => 0 ≤ x.timeSinceUpdate ∧ 0 ≤ x.hitStreak)
    (fun x => x.hitStreak = 0)
    (fun _ _ _ => rfl)
    (by
      intro _ x _ hx
      show (0 ≤ x.timeSinceUpdate + 1 ∧ (0 : Int) ≤ 0) ∧ (0 : Int) = 0
      exact ⟨⟨by omega, le_refl 0⟩, rfl⟩)
    ((t.predicted cv).associate cv dets).unmatchedTracks (fun _ _ => trivial)
    (updateMatched cv dets ((t.predicted cv).associate cv dets).tracks
      (List.zip ((t.predicted cv).associate cv dets).matchedTracks
        ((t.predicted cv).associate cv dets).matchedDetections)) u1
  intro x hx
  have hx2 : x ∈ markUnmatched (updateMatched cv dets ((t.predicted cv).associate cv dets).tracks
      (List.zip ((t.predicted cv).associate cv dets).matchedTracks
        ((t.predicted cv).associate cv dets).matchedDetections))
      ((t.predicted cv).associate cv dets).unmatchedTracks := hx
  have hxU := m1 x hx2
  obtain ⟨i, hi⟩ := List.mem_iff_getElem?.mp hx2
  by_cases hiu : i ∈ ((t.predicted cv).associate cv dets).unmatchedTracks
  · have hs := m2 i x hi (by simpa using hiu)
    refine ⟨hxU.1, hxU.2, ?_⟩
    intro hpos
    rw [hs] at hpos
    exact absurd hpos (lt_irrefl 0)
  · have hilt : i < (t.predicted cv).tracks.length := by
      have := (List.getElem?_eq_some.mp hi).1
      have hlen : (markUnmatched (updateMatched cv dets
          ((t.predicted cv).associate cv dets).tracks
          (List.zip ((t.predicted cv).associate cv dets).matchedTracks
            ((t.predicted cv).associate cv dets).matchedDetections))
          ((t.predicted cv).associate cv dets).unmatchedTracks).length =
          (t.predicted cv).tracks.length := by
        rw [show markUnmatched _ _ = List.foldl _ _ _ from rfl, m4,
          show updateMatched _ _ _ _ = List.foldl _ _ _ from rfl, u4,
          associate_tracks_length]
      omega
    have himem : i ∈ ((t.predicted cv).associate cv dets).matchedTracks := by
      have := hp1.symm.subset (List.mem_range.mpr hilt)
      rcases List.mem_append.mp this with hm | hm
      · exact hm
      · exact absurd hm hiu
    have hi2 := hi
    rw [show markUnmatched _ _ = List.foldl _ _ _ from rfl, m3 i (by simpa using hiu)] at hi2
    have hzip : i ∈ (List.zip ((t.predicted cv).associate cv dets).matchedTracks
        ((t.predicted cv).associate cv dets).matchedDetections).map Prod.fst := by
      rw [List.map_fst_zip _ _ (le_of_eq hp4)]
      exact himem
    have hs := u2 i x hi2 hzip
    exact ⟨hxU.1, hxU.2, fun _ => hs.1⟩

theorem countersOk_update (cv : CvOps) (t : Tracker) (dets : List Detection)
    (h : ∀ tr ∈ t.tracks, CountersOk tr) :
    ∀ tr ∈ (t.update cv dets).1.tracks, CountersOk tr := by
  intro tr htr
  rw [update_tracks] at htr
  rcases List.mem_append.mp (List.mem_of_mem_filter htr) with hm | hs
  · exact afterMark_counters cv t dets (fun x hx => ⟨(h x hx).1, (h x hx).2.1⟩) tr hm
  · obtain ⟨d, _, i, rfl⟩ := spawned_new cv t dets tr hs
    exact ⟨le_refl 0, le_refl 0, fun _ => rfl⟩

theorem countersOk_run (cv : CvOps) (t : Tracker) (frames : List (List Detection))
    (h : ∀ tr ∈ t.tracks, CountersOk tr) :
    ∀ tr ∈ (t.run cv frames).tracks, CountersOk tr := by
  induction frames generalizing t with
  | nil => exact h
  | cons d ds ih => exact ih _ (countersOk_update cv t d h)

/-! ## Reduction keeps the entries in `[0, INF)` -/

theorem foldl_min_le (cs : List ℚ) (c : ℚ) :
    cs.foldl min c ≤ c ∧ ∀ v ∈ cs, cs.foldl min c ≤ v := by
  induction cs generalizing c with
  | nil => simp
  | cons x cs ih =>
    obtain ⟨h1, h2⟩ := ih (min c x)
    simp only [List.foldl_cons, List.mem_cons]
    refine ⟨le_trans h1 (min_le_left c x), ?_⟩
    rintro v (rfl | hv)
    · exact le_trans h1 (min_le_right c v)
    · exact h2 v hv

theorem le_foldl_min (lb : ℚ) (cs : List ℚ) (c : ℚ) (hc : lb ≤ c) (h : ∀ v ∈ cs, lb ≤ v) :
    lb ≤ cs.foldl min c := by
  induction cs generalizing c with
  | nil => exact hc
  | cons x cs ih =>
    simp only [List.foldl_cons]
    exact ih (min c x) (le_min hc (h x (List.mem_cons_self _ _)))
      (fun v hv => h v (List.mem_cons_of_mem _ hv))

theorem reduceRow_length (row : List ℚ) : (reduceRow row).length = row.length := by
  unfold reduceRow
  split
  · rfl
  · simp only
    split <;> simp

theorem reduceRow_bounded (row : List ℚ) (h : ∀ v ∈ row, 0 ≤ v ∧ v < INF) :
    ∀ v ∈ reduceRow row, 0 ≤ v ∧ v < INF := by
  unfold reduceRow
  split
  · simp
  · rename_i c cs
    simp only
    obtain ⟨h1, h2⟩ := foldl_min_le cs c
    have h0 : 0 ≤ cs.foldl min c :=
      le_foldl_min 0 cs c (h c (List.mem_cons_self _ _)).1
        (fun v hv => (h v (List.mem_cons_of_mem _ hv)).1)
    split
    · intro v hv
      obtain ⟨w, hw, rfl⟩ := List.mem_map.mp hv
      have hwb := h w hw
      have hle : cs.foldl min c ≤ w := by
        rcases List.mem_cons.mp hw with rfl | hw2
        · exact h1
        · exact h2 w hw2
      rw [if_pos hwb.2]
      constructor <;> linarith
    · exact h

theorem colMin_le (cost : Mat) (j : Nat) (m : ℚ) :
    cost.foldl (fun m row => min m (row.getD j 0)) m ≤ m ∧
    ∀ row ∈ cost, cost.foldl (fun m row => min m (row.getD j 0)) m ≤ row.getD j 0 := by
  induction cost generalizing m with
  | nil => simp
  | cons r cost ih =>
    obtain ⟨h1, h2⟩ := ih (min m (r.getD j 0))
    simp only [List.foldl_cons, List.mem_cons]
    refine ⟨le_trans h1 (min_le_left _ _), ?_⟩
    rintro row (rfl | hrow)
    · exact le_trans h1 (min_le_right _ _)
    · exact h2 row hrow

theorem le_colMin (cost : Mat) (j : Nat) (m : ℚ) (hm : 0 ≤ m)
    (h : ∀ row ∈ cost, 0 ≤ row.getD j 0) :
    0 ≤ cost.foldl (fun m row => min m (row.getD j 0)) m := by
  induction cost generalizing m with
  | nil => exact hm
  | cons r cost ih =>
    simp only [List.foldl_cons]
    exact ih (min m (r.getD j 0)) (le_min hm (h r (List.mem_cons_self _ _)))
      (fun row hrow => h row (List.mem_cons_of_mem _ hrow))

theorem getD_nonneg (row : List ℚ) (j : Nat) (h : ∀ v ∈ row, 0 ≤ v ∧ v < INF) :
    0 ≤ row.getD j 0 := by
  rw [List.getD_eq_getElem?_getD]
  cases hj : row[j]? with
  | none => exact le_refl 0
  | some v => exact (h v (List.getElem?_mem hj)).1

theorem reduceCol_length (cost : Mat) (j : Nat) :
    (reduceCol cost j).length = cost.length ∧
    ∀ (n : Nat), (∀ row ∈ cost, row.length = n) → ∀ row ∈ reduceCol cost j, row.length = n := by
  unfold reduceCol
  simp only
  split
  · refine ⟨by simp, ?_⟩
    intro n hn row hrow
    obtain ⟨r, hr, rfl⟩ := List.mem_map.mp hrow
    rw [modifyNth_length]
    exact hn r hr
  · exact ⟨rfl, fun n hn => hn⟩

theorem reduceCol_bounded (cost : Mat) (j : Nat) (h : EntriesBounded cost) :
    EntriesBounded (reduceCol cost j) := by
  unfold reduceCol
  simp only
  split
  · intro row hrow v hv
    obtain ⟨r, hr, rfl⟩ := List.mem_map.mp hrow
    obtain ⟨i, hi⟩ := List.mem_iff_getElem?.mp hv
    rw [getElem?_modifyNth] at hi
    split at hi
    · rename_i hij
      obtain ⟨w, hw, rfl⟩ := Option.map_eq_some'.mp hi
      have hwb := h r hr w (List.getElem?_mem hw)
      have hle := (colMin_le cost j INF).2 r hr
      have hget : r.getD j 0 = w := by
        rw [List.getD_eq_getElem?_getD, ← hij, hw]
        rfl
      rw [hget] at hle
      have h0 := le_colMin cost j INF (le_of_lt INF_pos)
        (fun row hrow => getD_nonneg row j (h row hrow))
      rw [if_pos hwb.2]
      constructor <;> linarith
    · exact h r hr v (List.getElem?_mem hi)
  · exact h

/-- The matrix after steps 1 and 2: same shape, entries still in `[0, INF)`. -/
theorem reduced_shape (M : Mat) (cols n : Nat) (hb : EntriesBounded M)
    (hrect : ∀ row ∈ M, row.length = cols) :
    ((List.range n).foldl reduceCol (M.map reduceRow)).length = M.length ∧
    (∀ row ∈ (List.range n).foldl reduceCol (M.map reduceRow), row.length = cols) ∧
    EntriesBounded ((List.range n).foldl reduceCol (M.map reduceRow)) := by
  refine foldl_invariant
    (fun c : Mat => c.length = M.length ∧ (∀ row ∈ c, row.length = cols) ∧ EntriesBounded c)
    reduceCol ?_ (List.range n) (M.map reduceRow) ?_
  · rintro c j ⟨h1, h2, h3⟩
    exact ⟨by rw [(reduceCol_length c j).1, h1], (reduceCol_length c j).2 cols h2,
      reduceCol_bounded c j h3⟩
  · refine ⟨by simp, ?_, ?_⟩
    · intro row hrow
      obtain ⟨r, hr, rfl⟩ := List.mem_map.mp hrow
      rw [reduceRow_length]
      exact hrect r hr
    · intro row hrow
      obtain ⟨r, hr, rfl⟩ := List.mem_map.mp hrow
      exact reduceRow_bounded r (h := hb r hr)

theorem entry_lt_INF (cost : Mat) (cols i j : Nat) (hb : EntriesBounded cost)
    (hrect : ∀ row ∈ cost, row.length = cols) (hi : i < cost.length) (hj : j < cols) :
    entry cost i j < INF := by
  unfold entry
  have hrow : cost.getD i [] = cost[i] := List.getD_eq_getElem _ _ hi
  have hlen : cost[i].length = cols := hrect _ (List.getElem_mem _)
  rw [hrow, List.getD_eq_getElem _ _ (by omega)]
  exact (hb cost[i] (List.getElem_mem _) _ (List.getElem_mem _)).2

/-! ## Counting the rows that `solve` assigns -/

theorem coverTight_assign (s : Cover) (i j : Nat) (rc : List Bool)
    (h : CoverTight s) (hi : i < s.assignment.length)
    (hfree : s.assignment.getD i (-1) = -1) :
    CoverTight
      { assignment := s.assignment.set i (j : Int), rowCovered := rc
        colCovered := s.colCovered.set j true } := by
  intro k hk
  simp only [List.getElem?_set] at hk
  by_cases hjk : j = k
  · subst hjk
    exact ⟨i, by simp [List.getElem?_set, hi]⟩
  · rw [if_neg hjk] at hk
    obtain ⟨r, hr⟩ := h k hk
    have hne : i ≠ r := by
      intro heq
      subst heq
      rw [List.getD_eq_getElem?_getD, hr] at hfree
      simp only [Option.getD_some] at hfree
      omega
    exact ⟨r, by simp only [List.getElem?_set, if_neg hne, hr]⟩

theorem getD_set_ne {α : Type} (l : List α) (i k : Nat) (a d : α) (h : i ≠ k) :
    (l.set i a).getD k d = l.getD k d := by
  simp only [List.getD_eq_getElem?_getD, List.getElem?_set, if_neg h]

theorem getD_set_self {α : Type} (l : List α) (i : Nat) (a d : α) (h : i < l.length) :
    (l.set i a).getD i d = a := by
  simp only [List.getD_eq_getElem?_getD, List.getElem?_set, if_true, if_pos h, Option.getD_some]

/-- Step 3 for a valid row keeps the invariants of the cover. -/
theorem greedyRow_invariants (cost : Mat) (rows cols : Nat) (s : Cover) (i : Nat)
    (hi : i < rows)
    (h : CoverOk cols s ∧ CoverTight s ∧ RowsFresh s ∧ s.assignment.length = rows) :
    CoverOk cols (greedyRow cost cols s i) ∧ CoverTight (greedyRow cost cols s i) ∧
    RowsFresh (greedyRow cost cols s i) ∧ (greedyRow cost cols s i).assignment.length = rows := by
  obtain ⟨h1, h2, h3, h4⟩ := h
  refine ⟨coverOk_greedyRow cost cols s i h1, ?_, ?_, by rw [greedyRow_length]; exact h4⟩
  · unfold greedyRow
    split
    · rename_i j hfind
      have hp := List.find?_some hfind
      simp only [Bool.and_eq_true, Bool.not_eq_true'] at hp
      exact coverTight_assign s i j _ h2 (by omega) (h3.2 i hp.1.2)
    · exact h2
  · unfold greedyRow
    split
    · rename_i j hfind
      refine ⟨by simp [h3.1], ?_⟩
      intro k hk
      simp only at hk ⊢
      by_cases hik : i = k
      · subst hik
        rw [getD_set_self _ _ _ _ (by rw [h3.1]; omega)] at hk
        cases hk
      · rw [getD_set_ne _ _ _ _ _ hik] at hk ⊢
        exact h3.2 k hk
    · exact h3

/-- The inner loop of step 4 finds a column as soon as one is uncovered with a
cost below `INF`. -/
theorem residualScan_finds (cost : Mat) (cc : List Bool) (i : Nat) (l : List Nat)
    (acc : ℚ × Int)
    (hacc : (acc.2 ≠ -1 ∧ acc.1 < INF) ∨ acc = (INF, -1)) :
    ((l.foldl (residualScan cost cc i) acc).2 ≠ -1 ∧
        (l.foldl (residualScan cost cc i) acc).1 < INF ∨
      l.foldl (residualScan cost cc i) acc = (INF, -1)) ∧
    ((acc.2 ≠ -1 ∧ acc.1 < INF) ∨
        (∃ j ∈ l, cc.getD j false = false ∧ entry cost i j < INF) →
      (l.foldl (residualScan cost cc i) acc).2 ≠ -1 ∧
        (l.foldl (residualScan cost cc i) acc).1 < INF) := by
  induction l generalizing acc with
  | nil =>
    refine ⟨hacc, ?_⟩
    rintro (h | ⟨j, hj, _⟩)
    · exact h
    · cases hj
  | cons x l ih =>
    simp only [List.foldl_cons]
    have hle : acc.1 ≤ INF := by
      rcases hacc with h | h
      · exact le_of_lt h.2
      · rw [h]
    have hstep : ((residualScan cost cc i acc x).2 ≠ -1 ∧
        (residualScan cost cc i acc x).1 < INF) ∨ residualScan cost cc i acc x = (INF, -1) := by
      unfold residualScan
      split
      · rename_i hc
        simp only [Bool.and_eq_true, Bool.not_eq_true', decide_eq_true_eq] at hc
        left
        exact ⟨by simp only; omega, lt_of_lt_of_le hc.2 hle⟩
      · exact hacc
    obtain ⟨ih1, ih2⟩ := ih (residualScan cost cc i acc x) hstep
    refine ⟨ih1, ?_⟩
    intro hsrc
    apply ih2
    rcases hsrc with h | ⟨j, hj, hu, hlt⟩
    · left
      unfold residualScan
      split
      · rename_i hc
        simp only [Bool.and_eq_true, Bool.not_eq_true', decide_eq_true_eq] at hc
        exact ⟨by simp only; omega, lt_of_lt_of_le hc.2 hle⟩
      · exact h
    · rcases List.mem_cons.mp hj with rfl | hj2
      · left
        rcases hacc with h | h
        · unfold residualScan
          split
          · rename_i hc
            simp only [Bool.and_eq_true, Bool.not_eq_true', decide_eq_true_eq] at hc
            exact ⟨by simp only; omega, lt_of_lt_of_le hc.2 hle⟩
          · exact h
        · unfold residualScan
          rw [h]
          have hcond : (!cc.getD j false && decide (entry cost i j < (INF, (-1 : Int)).1))
              = true := by
            rw [hu]
            simp [hlt]
          rw [if_pos hcond]
          exact ⟨by show (j : Int) ≠ -1; omega, hlt⟩
      · exact Or.inr ⟨j, hj2, hu, hlt⟩

theorem coverTight_residualRow (cost : Mat) (cols : Nat) (s : Cover) (i : Nat)
    (h : CoverTight s) (hi : i < s.assignment.length) :
    CoverTight (residualRow cost cols s i) := by
  unfold residualRow
  split
  · rename_i hfree
    simp only
    split
    · rename_i hr
      rcases residualScan_foldl cost s.colCovered i cols (List.range cols)
          (fun j hj => List.mem_range.mp hj) (INF, -1) (Or.inl rfl) with h1 | ⟨j, _, hjr, _⟩
      · exact absurd h1 hr.1
      · rw [hjr]
        simpa using coverTight_assign s i j s.rowCovered h hi hfree
    · exact h
  · exact h

/-- Step 4 never unassigns a row and never uncovers a column. -/
theorem residualRow_monotone (cost : Mat) (cols : Nat) (s : Cover) (i : Nat) :
    (∀ k : Nat, s.assignment.getD k (-1) ≠ -1 →
      (residualRow cost cols s i).assignment.getD k (-1) ≠ -1) ∧
    (∀ j : Nat, s.colCovered.getD j false = true →
      (residualRow cost cols s i).colCovered.getD j false = true) := by
  unfold residualRow
  split
  · rename_i hfree
    simp only
    split
    · constructor
      · intro k hk
        have hik : i ≠ k := by
          intro heq
          subst heq
          exact hk hfree
        simp only
        rw [getD_set_ne _ _ _ _ _ hik]
        exact hk
      · intro j hj
        simp only
        rw [getD_set_true]
        exact Or.inl hj
    · exact ⟨fun _ h => h, fun _ h => h⟩
  · exact ⟨fun _ h => h, fun _ h => h⟩

/-- After step 4 for a valid row, the row is assigned or every column is covered. -/
theorem residualRow_progress (cost : Mat) (cols : Nat) (s : Cover) (i : Nat)
    (hi : i < s.assignment.length) (hent : ∀ j, j < cols → entry cost i j < INF) :
    (residualRow cost cols s i).assignment.getD i (-1) ≠ -1 ∨
    ∀ j, j < cols → (residualRow cost cols s i).colCovered.getD j false = true := by
  unfold residualRow
  split
  · simp only
    split
    · rename_i hr
      left
      simp only
      rw [getD_set_self _ _ _ _ hi]
      exact hr.1
    · rename_i hr
      right
      intro j hj
      by_contra hcov
      have hunc : s.colCovered.getD j false = false := by
        simpa using hcov
      have := (residualScan_finds cost s.colCovered i (List.range cols) (INF, -1)
        (Or.inr rfl)).2 (Or.inr ⟨j, List.mem_range.mpr hj, hunc, hent j hj⟩)
      exact hr this
  · rename_i hne
    exact Or.inl hne

/-- The whole of step 4: afterwards every row of the list is assigned or every
column is covered. -/
theorem residual_fold (cost : Mat) (rows cols : Nat) (l : List Nat) (s : Cover)
    (hl : ∀ i ∈ l, i < rows)
    (hent : ∀ i j, i < rows → j < cols → entry cost i j < INF)
    (hK : CoverOk cols s ∧ CoverTight s ∧ s.assignment.length = rows) :
    (CoverOk cols (l.foldl (residualRow cost cols) s) ∧
      CoverTight (l.foldl (residualRow cost cols) s) ∧
      (l.foldl (residualRow cost cols) s).assignment.length = rows) ∧
    (∀ k : Nat, s.assignment.getD k (-1) ≠ -1 →
      (l.foldl (residualRow cost cols) s).assignment.getD k (-1) ≠ -1) ∧
    (∀ j : Nat, s.colCovered.getD j false = true →
      (l.foldl (residualRow cost cols) s).colCovered.getD j false = true) ∧
    (∀ i ∈ l, (l.foldl (residualRow cost cols) s).assignment.getD i (-1) ≠ -1 ∨
      ∀ j, j < cols → (l.foldl (residualRow cost cols) s).colCovered.getD j false = true) := by
  induction l generalizing s with
  | nil => exact ⟨hK, fun _ h => h, fun _ h => h, by simp⟩
  | cons x l ih =>
    obtain ⟨h1, h2, h3⟩ := hK
    have hx : x < rows := hl x (List.mem_cons_self _ _)
    have hK2 : CoverOk cols (residualRow cost cols s x) ∧
        CoverTight (residualRow cost cols s x) ∧
        (residualRow cost cols s x).assignment.length = rows :=
      ⟨coverOk_residualRow cost cols s x h1,
        coverTight_residualRow cost cols s x h2 (by omega),
        by rw [residualRow_length]; exact h3⟩
    obtain ⟨m1, m2⟩ := residualRow_monotone cost cols s x
    have hp := residualRow_progress cost cols s x (by omega) (fun j hj => hent x j hx hj)
    obtain ⟨i1, i2, i3, i4⟩ := ih (residualRow cost cols s x)
      (fun i hi => hl i (List.mem_cons_of_mem _ hi)) hK2
    simp only [List.foldl_cons]
    refine ⟨i1, fun k hk => i2 k (m1 k hk), fun j hj => i3 j (m2 j hj), ?_⟩
    intro i hi
    rcases List.mem_cons.mp hi with rfl | hi2
    · rcases hp with hp | hp
      · exact Or.inl (i2 i hp)
      · exact Or.inr (fun j hj => i3 j (hp j hj))
    · exact i4 i hi2

theorem foldl_invariant_mem {α β : Type} (P : α → Prop) (f : α → β → α) (l : List β)
    (hf : ∀ a b, b ∈ l → P a → P (f a b)) (a : α) (ha : P a) : P (l.foldl f a) := by
  induction l generalizing a with
  | nil => exact ha
  | cons b l ih =>
    exact ih (fun a' b' hb' h => hf a' b' (List.mem_cons_of_mem _ hb') h) (f a b)
      (hf a b (List.mem_cons_self _ _) ha)

theorem getD_ne_iff (A : List Int) (i : Nat) :
    A.getD i (-1) ≠ -1 ↔ ∃ a : Int, A[i]? = some a ∧ a ≠ -1 := by
  rw [List.getD_eq_getElem?_getD]
  cases h : A[i]? with
  | none => simp
  | some a => simp

theorem mem_assignedRows (A : List Int) (i : Nat) :
    i ∈ assignedRows A ↔ ∃ a : Int, A[i]? = some a ∧ a ≠ -1 := by
  unfold assignedRows
  rw [List.mem_filter, List.mem_range, decide_eq_true_eq, getD_ne_iff]
  constructor
  · exact fun h => h.2
  · rintro ⟨a, ha, hne⟩
    exact ⟨(List.getElem?_eq_some.mp ha).1, a, ha, hne⟩

/-- Counting lemma: in a cover state where every assigned entry is a distinct
valid column, every covered column is held, and every row is assigned unless
all columns are covered, exactly `min rows cols` rows are assigned. -/
theorem assigned_count (rows cols : Nat) (s : Cover)
    (hK : CoverOk cols s ∧ CoverTight s ∧ s.assignment.length = rows)
    (hfull : ∀ i ∈ List.range rows, s.assignment.getD i (-1) ≠ -1 ∨
      ∀ j, j < cols → s.colCovered.getD j false = true) :
    (assignedRows s.assignment).length = min rows cols := by
  obtain ⟨hok, htight, hlen⟩ := hK
  have hnd : (assignedRows s.assignment).Nodup := (List.nodup_range _).filter _
  have hmapnd : ((assignedRows s.assignment).map
      (fun i => (s.assignment.getD i (-1)).toNat)).Nodup := by
    refine List.Nodup.map_on ?_ hnd
    intro x hx y hy hxy
    obtain ⟨a, ha, hane⟩ := (mem_assignedRows _ _).mp hx
    obtain ⟨b, hb, hbne⟩ := (mem_assignedRows _ _).mp hy
    simp only [List.getD_eq_getElem?_getD, ha, hb, Option.getD_some] at hxy
    have h0a := (hok.2 x a ha hane).1
    have h0b := (hok.2 y b hb hbne).1
    have hab : a = b := by omega
    rw [← hab] at hb
    exact ((hok.2 x a ha hane).2.2.2 y hb).symm
  have hsub : (assignedRows s.assignment).map (fun i => (s.assignment.getD i (-1)).toNat)
      ⊆ List.range cols := by
    intro j hj
    obtain ⟨i, hi, rfl⟩ := List.mem_map.mp hj
    obtain ⟨a, ha, hane⟩ := (mem_assignedRows _ _).mp hi
    simp only [List.getD_eq_getElem?_getD, ha, Option.getD_some]
    exact List.mem_range.mpr (hok.2 i a ha hane).2.1
  have hle_cols : (assignedRows s.assignment).length ≤ cols := by
    have := (List.subperm_of_subset hmapnd hsub).length_le
    simpa using this
  have hle_rows : (assignedRows s.assignment).length ≤ rows := by
    have := (List.filter_sublist (p := fun i => decide (s.assignment.getD i (-1) ≠ -1))
      (List.range s.assignment.length)).length_le
    simpa [assignedRows, hlen] using this
  by_cases hall : ∀ i, i < rows → s.assignment.getD i (-1) ≠ -1
  · have heq : assignedRows s.assignment = List.range rows := by
      unfold assignedRows
      rw [hlen, List.filter_eq_self]
      intro i hi
      simpa using hall i (List.mem_range.mp hi)
    rw [heq, List.length_range] at hle_cols ⊢
    omega
  · push_neg at hall
    obtain ⟨i, hi, hfree⟩ := hall
    have hcov : ∀ j, j < cols → s.colCovered.getD j false = true := by
      rcases hfull i (List.mem_range.mpr hi) with h | h
      · exact absurd hfree h
      · exact h
    have hsup : List.range cols ⊆
        (assignedRows s.assignment).map (fun i => (s.assignment.getD i (-1)).toNat) := by
      intro j hj
      have hc := hcov j (List.mem_range.mp hj)
      have hc2 : s.colCovered[j]? = some true := by
        rw [List.getD_eq_getElem?_getD] at hc
        cases hg : s.colCovered[j]? with
        | none => rw [hg] at hc; cases hc
        | some v =>
          rw [hg] at hc
          simp only [Option.getD_some] at hc
          rw [hc]
      obtain ⟨r, hr⟩ := htight j hc2
      refine List.mem_map.mpr ⟨r, (mem_assignedRows _ _).mpr ⟨(j : Int), hr, by omega⟩, ?_⟩
      simp only [List.getD_eq_getElem?_getD, hr, Option.getD_some, Int.toNat_ofNat]
    have hge : cols ≤ (assignedRows s.assignment).length := by
      have := (List.subperm_of_subset (List.nodup_range cols) hsup).length_le
      simpa using this
    omega

theorem coverTight_initial (rows cols : Nat) :
    CoverTight
      { assignment := List.replicate rows (-1), rowCovered := List.replicate rows false
        colCovered := List.replicate cols false } := by
  intro j hj
  simp only [List.getElem?_replicate] at hj
  split at hj <;> cases hj

theorem rowsFresh_initial (rows cols : Nat) :
    RowsFresh
      { assignment := List.replicate rows (-1), rowCovered := List.replicate rows false
        colCovered := List.replicate cols false } := by
  refine ⟨by simp, ?_⟩
  intro i _
  simp only [List.getD_eq_getElem?_getD, List.getElem?_replicate]
  split <;> rfl

/-- The number of rows that `solve` assigns on a rectangular matrix with
entries in `[0, INF)`. -/
theorem solve_assigned_count (M : Mat) (cols : Nat) (hrows : 1 ≤ M.length) (hcols : 1 ≤ cols)
    (hrect : ∀ row ∈ M, row.length = cols) (hb : EntriesBounded M) :
    (assignedRows (HungarianAlgorithm.solve M)).length = min M.length cols := by
  cases M with
  | nil => simp at hrows
  | cons row0 rest =>
    cases row0 with
    | nil =>
      have := hrect [] (List.mem_cons_self _ _)
      simp at this
      omega
    | cons c cs =>
      have hc : cs.length + 1 = cols := by
        simpa using hrect (c :: cs) (List.mem_cons_self _ _)
      obtain ⟨r1, r2, r3⟩ := reduced_shape ((c :: cs) :: rest) cols (cs.length + 1) hb hrect
      have hent : ∀ i j, i < rest.length + 1 → j < cols →
          entry ((List.range (cs.length + 1)).foldl reduceCol
            (((c :: cs) :: rest).map reduceRow)) i j < INF := by
        intro i j hi hj
        exact entry_lt_INF _ cols i j r3 r2 (by rw [r1]; simpa using hi) hj
      rw [solve_cons, hc]
      rw [hc] at hent
      have hg := foldl_invariant_mem
        (fun s : Cover => CoverOk cols s ∧ CoverTight s ∧ RowsFresh s ∧
          s.assignment.length = rest.length + 1)
        (greedyRow ((List.range cols).foldl reduceCol
          (((c :: cs) :: rest).map reduceRow)) cols)
        (List.range (rest.length + 1))
        (fun s i hi hs => greedyRow_invariants _ (rest.length + 1) cols s i
          (List.mem_range.mp hi) hs)
        { assignment := List.replicate (rest.length + 1) (-1)
          rowCovered := List.replicate (rest.length + 1) false
          colCovered := List.replicate cols false }
        ⟨coverOk_initial _ _, coverTight_initial _ _, rowsFresh_initial _ _, by simp⟩
      obtain ⟨f1, _, _, f4⟩ := residual_fold _ (rest.length + 1) cols
        (List.range (rest.length + 1)) _ (fun i hi => List.mem_range.mp hi) hent
        ⟨hg.1, hg.2.1, hg.2.2.2⟩
      have := assigned_count (rest.length + 1) cols _ f1 f4
      simpa using this

/-! ## Scenario runs with the exact filter -/

set_option maxRecDepth 100000 in
/-- Scenario A: ten frames with the one detection `(100, 100, 50, 50)`. -/
theorem scenarioA_trace :
    Tracker.default.trace cvExact (List.replicate 10 [detA]) =
      [([(1, TrackState.Tentative, 0, 0)], []),
       ([(1, TrackState.Tentative, 0, 1)], []),
       ([(1, TrackState.Tentative, 0, 2)], []),
       ([(1, TrackState.Confirmed, 0, 3)], [1]),
       ([(1, TrackState.Confirmed, 0, 4)], [1]),
       ([(1, TrackState.Confirmed, 0, 5)], [1]),
       ([(1, TrackState.Confirmed, 0, 6)], [1]),
       ([(1, TrackState.Confirmed, 0, 7)], [1]),
       ([(1, TrackState.Confirmed, 0, 8)], [1]),
       ([(1, TrackState.Confirmed, 0, 9)], [1])] := by
  decide!

set_option maxRecDepth 100000 in
/-- Scenario B (`max_age = 30`): five frames with the detection, five without,
one with the moved detection. -/
theorem scenarioB_trace :
    (Tracker.new (7 / 10) 30 3).trace cvExact
        (List.replicate 5 [detA] ++ List.replicate 5 [] ++ [[detB]]) =
      [([(1, TrackState.Tentative, 0, 0)], []),
       ([(1, TrackState.Tentative, 0, 1)], []),
       ([(1, TrackState.Tentative, 0, 2)], []),
       ([(1, TrackState.Confirmed, 0, 3)], [1]),
       ([(1, TrackState.Confirmed, 0, 4)], [1]),
       ([(1, TrackState.Confirmed, 2, 0)], [1]),
       ([(1, TrackState.Confirmed, 4, 0)], [1]),
       ([(1, TrackState.Confirmed, 6, 0)], [1]),
       ([(1, TrackState.Confirmed, 8, 0)], [1]),
       ([(1, TrackState.Confirmed, 10, 0)], [1]),
       ([(1, TrackState.Confirmed, 0, 1)], [1])] := by
  decide!

set_option maxRecDepth 100000 in
/-- Scenario C (`max_age = 3`): five frames with the detection, three without. -/
theorem scenarioC_trace :
    (Tracker.new (7 / 10) 3 3).trace cvExact
        (List.replicate 5 [detA] ++ List.replicate 3 []) =
      [([(1, TrackState.Tentative, 0, 0)], []),
       ([(1, TrackState.Tentative, 0, 1)], []),
       ([(1, TrackState.Tentative, 0, 2)], []),
       ([(1, TrackState.Confirmed, 0, 3)], [1]),
       ([(1, TrackState.Confirmed, 0, 4)], [1]),
       ([(1, TrackState.Confirmed, 2, 0)], [1]),
       ([], []),
       ([], [])] := by
  decide!

/-- State of a track created on one frame and matched on each of the
following `bs.length` frames. -/
theorem matched_frames_state (cv : CvOps) (bbox : Rect) (classId : Int) (className : String)
    (trackId : Int) (bs : List Rect) :
    ((Track.new bbox classId className trackId).applyOps cv
        (bs.map matchedFrame).flatten).hitStreak = bs.length ∧
    ((Track.new bbox classId className trackId).applyOps cv
        (bs.map matchedFrame).flatten).state =
      (if 3 ≤ bs.length then TrackState.Confirmed else TrackState.Tentative) := by
  induction bs using List.reverseRecOn with
  | nil => simp [Track.applyOps, Track.new]
  | append_singleton bs b ih =>
    obtain ⟨ih1, ih2⟩ := ih
    rw [List.map_append, List.flatten_append, applyOps_append]
    simp only [List.map_cons, List.map_nil, List.flatten_cons, List.flatten_nil,
      List.append_nil, matchedFrame, Track.applyOps, List.foldl_cons, List.foldl_nil,
      Track.apply, update_fields, update_state, getPredictedBbox_fields, predict_fields,
      List.length_append, List.length_singleton]
    simp only [Track.applyOps] at ih1 ih2
    rw [ih1, ih2]
    refine ⟨by push_cast; rfl, ?_⟩
    by_cases h3 : 3 ≤ bs.length
    · have : 3 ≤ bs.length + 1 := by omega
      simp [h3, this]
    · by_cases h2 : 3 ≤ bs.length + 1
      · have : ((bs.length : Int) + 1 ≥ 3) := by omega
        simp [h3, h2, this]
      · have : ¬ ((bs.length : Int) + 1 ≥ 3) := by omega
        simp [h3, h2, this]

set_option maxRecDepth 100000 in
/-- Scenario D: a detection of class 0 on frame 1, the same box with class 1
on frame 2. -/
theorem scenarioD_trace :
    Tracker.default.trace cvExact [[detA], [detA1]] =
      [([(1, TrackState.Tentative, 0, 0)], []),
       ([(1, TrackState.Tentative, 2, 0), (2, TrackState.Tentative, 0, 0)], [])] ∧
    (Tracker.default.run cvExact [[detA], [detA1]]).tracks.map
        (fun tr => (tr.id, tr.classId, tr.trajectory.length)) = [(1, 0, 1), (2, 1, 1)] := by
  decide!

/-- A loop of in-place calls at pairwise distinct positions: the element at a
touched position is the original element after exactly that call. -/
theorem foldl_modifyNth_at {α β : Type} (step : List α → β → List α)
    (pos : β → Nat) (F : β → α → α) (V : β → Prop)
    (hstep : ∀ b, V b → ∀ ts, step ts b = modifyNth (F b) (pos b) ts)
    (l : List β) (hV : ∀ b ∈ l, V b) (hnd : (l.map pos).Nodup) (ts : List α) :
    ∀ b ∈ l, (l.foldl step ts)[pos b]? = (ts[pos b]?).map (F b) := by
  induction l generalizing ts with
  | nil => intro b hb; cases hb
  | cons b0 l ih =>
    intro b hb
    rw [List.map_cons, List.nodup_cons] at hnd
    have hb0 : V b0 := hV b0 (List.mem_cons_self _ _)
    have hVl : ∀ x ∈ l, V x := fun x hx => hV x (List.mem_cons_of_mem _ hx)
    rw [List.foldl_cons]
    rcases List.mem_cons.mp hb with rfl | hbl
    · obtain ⟨_, _, h3, _⟩ := foldl_modifyNth_positions step pos F V (fun _ => True)
        (fun _ => True) hstep (fun _ _ _ _ => ⟨trivial, trivial⟩) l hVl (step ts b)
        (fun _ _ => trivial)
      rw [h3 (pos b) hnd.1, hstep b hb0, getElem?_modifyNth, if_pos rfl]
    · have hne : pos b ≠ pos b0 := by
        intro h
        exact hnd.1 (h ▸ List.mem_map_of_mem pos hbl)
      rw [ih hVl hnd.2 (step ts b0) b hbl, hstep b0 hb0, getElem?_modifyNth, if_neg hne]

/-- The collection `associate` leaves inside `update` when there are tracks and
detections: every track after `predict` and the read of the cost matrix. -/
theorem associate_predicted_tracks (cv : CvOps) (t : Tracker) (dets : List Detection)
    (ht : t.tracks ≠ []) (hd : dets ≠ []) :
    ((t.predicted cv).associate cv dets).tracks =
      t.tracks.map (fun x => ((x.predict cv).getPredictedBbox cv).1) := by
  have hp : (t.predicted cv).tracks ≠ [] := by
    simpa [Tracker.predicted] using ht
  rw [associate_nondegenerate cv (t.predicted cv) dets hp hd]
  simp [createCostMatrix, costRow, Tracker.predicted, Function.comp_def]

/-- One `update` call on a matched track: if `associate` pairs track index `i`
with detection index `j`, the track at position `i` after the update and mark
loops is the old track after `predict`, `getPredictedBbox` and
`update(detections[j].bbox)`. -/
theorem afterMark_matched (cv : CvOps) (t : Tracker) (dets : List Detection) (i j : Nat)
    (tr : Track)
    (hij : (i, j) ∈ List.zip ((t.predicted cv).associate cv dets).matchedTracks
      ((t.predicted cv).associate cv dets).matchedDetections)
    (htr : t.tracks[i]? = some tr) :
    ∃ d, dets[j]? = some d ∧
      (t.afterMark cv dets)[i]? = some (tr.applyOps cv (matchedFrame d.bbox)) := by
  obtain ⟨hp1, _, _, hp4⟩ := associate_partition cv (t.predicted cv) dets
  have hV : ∀ p ∈ List.zip ((t.predicted cv).associate cv dets).matchedTracks
      ((t.predicted cv).associate cv dets).matchedDetections, p.2 < dets.length := by
    intro p hp
    have := (mem_matched_iff cv (t.predicted cv) dets p.1 p.2).mp hp
    have hv := (assignment_valid cv (t.predicted cv) dets p.1 (p.2 : Int) this.1 (by omega)).2.1
    simpa using hv
  have hj : j < dets.length := hV (i, j) hij
  have hdne : dets ≠ [] := by
    intro h
    rw [h] at hj
    exact absurd hj (Nat.not_lt_zero _)
  have htne : t.tracks ≠ [] := by
    intro h
    rw [h] at htr
    simp at htr
  have hndall : (((t.predicted cv).associate cv dets).matchedTracks ++
      ((t.predicted cv).associate cv dets).unmatchedTracks).Nodup :=
    hp1.nodup_iff.mpr (List.nodup_range _)
  have hfst : (List.zip ((t.predicted cv).associate cv dets).matchedTracks
      ((t.predicted cv).associate cv dets).matchedDetections).map Prod.fst =
      ((t.predicted cv).associate cv dets).matchedTracks :=
    List.map_fst_zip _ _ (le_of_eq hp4)
  have himem : i ∈ ((t.predicted cv).associate cv dets).matchedTracks := by
    rw [← hfst]
    exact List.mem_map_of_mem Prod.fst hij
  have hiu : i ∉ ((t.predicted cv).associate cv dets).unmatchedTracks :=
    fun h => List.disjoint_of_nodup_append hndall himem h
  have hat := foldl_modifyNth_at
    (fun ts (p : Nat × Nat) =>
      match dets.get? p.2 with
      | some d => modifyNth (fun tr => tr.update cv d.bbox) p.1 ts
      | none => ts)
    Prod.fst
    (fun p x => match dets.get? p.2 with
      | some d => x.update cv d.bbox
      | none => x)
    (fun p => p.2 < dets.length)
    (by
      intro p hp ts
      have hg : dets.get? p.2 = some dets[p.2] := by simp [hp]
      simp only [hg])
    (List.zip ((t.predicted cv).associate cv dets).matchedTracks
      ((t.predicted cv).associate cv dets).matchedDetections) hV
    (by rw [hfst]; exact hndall.of_append_left)
    ((t.predicted cv).associate cv dets).tracks (i, j) hij
  obtain ⟨_, _, m3, _⟩ := foldl_modifyNth_positions
    (fun ts (i : Nat) => modifyNth Track.markMissed i ts) id (fun _ => Track.markMissed)
    (fun _ => True) (fun _ => True) (fun _ => True)
    (fun _ _ _ => rfl) (fun _ _ _ _ => ⟨trivial, trivial⟩)
    ((t.predicted cv).associate cv dets).unmatchedTracks (fun _ _ => trivial)
    (updateMatched cv dets ((t.predicted cv).associate cv dets).tracks
      (List.zip ((t.predicted cv).associate cv dets).matchedTracks
        ((t.predicted cv).associate cv dets).matchedDetections))
    (fun _ _ => trivial)
  have hg : dets.get? j = some dets[j] := by simp [hj]
  refine ⟨dets[j], by simp [hj], ?_⟩
  show (markUnmatched (updateMatched cv dets ((t.predicted cv).associate cv dets).tracks
      (List.zip ((t.predicted cv).associate cv dets).matchedTracks
        ((t.predicted cv).associate cv dets).matchedDetections))
      ((t.predicted cv).associate cv dets).unmatchedTracks)[i]? = _
  rw [show markUnmatched _ _ = List.foldl _ _ _ from rfl, m3 i (by simpa using hiu),
    show updateMatched _ _ _ _ = List.foldl _ _ _ from rfl]
  simp only [hg] at hat
  rw [hat, associate_predicted_tracks cv t dets htne hdne, List.getElem?_map, htr]
  rfl

/-- One `update` call on the live track with identifier `k`, matched by the
call: the track stays in the collection, as the old track after `predict`,
`getPredictedBbox` and `update` with the box of a detection of the frame. -/
theorem update_matched_track (cv : CvOps) (t : Tracker) (dets : List Detection) (k : Int)
    (tr : Track) (hnd : (t.tracks.map Track.id).Nodup) (hage : 0 ≤ t.maxAge)
    (htr : tr ∈ t.tracks) (hk : tr.id = k) (hm : t.matchesId cv dets k = true) :
    ∃ d ∈ dets, tr.applyOps cv (matchedFrame d.bbox) ∈ (t.update cv dets).1.tracks := by
  obtain ⟨i, himem, hik⟩ := List.any_eq_true.mp hm
  have hik2 : (t.tracks.map Track.id)[i]? = some k := of_decide_eq_true hik
  obtain ⟨i2, hi2⟩ := List.mem_iff_getElem?.mp htr
  have hi2lt : i2 < (t.tracks.map Track.id).length := by
    rw [List.length_map]
    exact (List.getElem?_eq_some.mp hi2).1
  have hi2k : (t.tracks.map Track.id)[i2]? = some k := by
    rw [List.getElem?_map, hi2, Option.map_some', hk]
  have hii : i2 = i := List.getElem?_inj hi2lt hnd (hi2k.trans hik2.symm)
  subst hii
  obtain ⟨_, _, _, hp4⟩ := associate_partition cv (t.predicted cv) dets
  have hfst : (List.zip ((t.predicted cv).associate cv dets).matchedTracks
      ((t.predicted cv).associate cv dets).matchedDetections).map Prod.fst =
      ((t.predicted cv).associate cv dets).matchedTracks :=
    List.map_fst_zip _ _ (le_of_eq hp4)
  rw [← hfst] at himem
  obtain ⟨⟨i3, j⟩, hp, hpi⟩ := List.mem_map.mp himem
  simp only at hpi
  subst hpi
  obtain ⟨d, hd, hres⟩ := afterMark_matched cv t dets i3 j tr hp hi2
  refine ⟨d, List.mem_iff_getElem?.mpr ⟨j, hd⟩, ?_⟩
  rw [update_tracks]
  refine List.mem_filter.mpr ⟨List.mem_append_left _ (List.mem_iff_getElem?.mpr ⟨i3, hres⟩), ?_⟩
  have h0 : (tr.applyOps cv (matchedFrame d.bbox)).timeSinceUpdate = 0 := rfl
  rw [h0]
  simpa using hage

/-- A live track matched by every `update` call of a run is, after the run, the
old track after one `predict`, `getPredictedBbox`, `update` triple per frame,
each with the box of a detection of that frame, and is still live. -/
theorem matched_run (cv : CvOps) (k : Int) (ds : List (List Detection)) (t : Tracker)
    (tr : Track) (hids : t.IdsOk) (hage : 0 ≤ t.maxAge) (htr : tr ∈ t.tracks)
    (hk : tr.id = k) (hm : Tracker.matchedThrough cv k t ds = true) :
    ∃ bs : List Rect, List.Forall₂ (fun b d => ∃ det ∈ d, det.bbox = b) bs ds ∧
      tr.applyOps cv (bs.map matchedFrame).flatten ∈ (t.run cv ds).tracks := by
  induction ds generalizing t tr with
  | nil => exact ⟨[], List.Forall₂.nil, htr⟩
  | cons d ds ih =>
    simp only [Tracker.matchedThrough, Bool.and_eq_true] at hm
    obtain ⟨det, hdet, hin⟩ := update_matched_track cv t d k tr hids.2.1 hage htr hk hm.1
    have hid : (tr.applyOps cv (matchedFrame det.bbox)).id = k :=
      (evolves_id cv ⟨_, rfl⟩).trans hk
    obtain ⟨bs, hbs, hrun⟩ := ih (t.update cv d).1 (tr.applyOps cv (matchedFrame det.bbox))
      (idsOk_update cv t d hids) hage hin hid hm.2
    refine ⟨det.bbox :: bs, List.Forall₂.cons ⟨det, hdet, rfl⟩ hbs, ?_⟩
    rw [List.map_cons, List.flatten_cons, applyOps_append, run_cons]
    exact hrun

theorem matched_frames_fresh (cv : CvOps) (bbox : Rect) (classId : Int) (className : String)
    (trackId : Int) (bs : List Rect) :
    ((Track.new bbox classId className trackId).applyOps cv
        (bs.map matchedFrame).flatten).timeSinceUpdate = 0 := by
  induction bs using List.reverseRecOn with
  | nil => rfl
  | append_singleton bs b _ =>
    rw [List.map_append, List.flatten_append, applyOps_append]
    rfl

theorem run_append (cv : CvOps) (t : Tracker) (pre ds : List (List Detection)) :
    t.run cv (pre ++ ds) = (t.run cv pre).run cv ds := by
  simp [Tracker.run, List.foldl_append]

theorem run_config (cv : CvOps) (t : Tracker) (frames : List (List Detection)) :
    (t.run cv frames).maxAge = t.maxAge ∧ (t.run cv frames).minHits = t.minHits := by
  induction frames generalizing t with
  | nil => exact ⟨rfl, rfl⟩
  | cons d ds ih => exact ih (t.update cv d).1

/-- The vector returned by the last call of a run is the filter of the final
collection by the predicate of the final loop. -/
theorem lastReturned_eq (cv : CvOps) (t : Tracker) (frames : List (List Detection))
    (h : frames ≠ []) :
    Tracker.lastReturned cv t frames = (t.run cv frames).tracks.filter (surfaced t.minHits) := by
  induction frames generalizing t with
  | nil => exact absurd rfl h
  | cons d ds ih =>
    cases ds with
    | nil => rfl
    | cons d2 ds =>
      rw [Tracker.lastReturned, ih (t.update cv d).1 (List.cons_ne_nil _ _), run_cons]
      rfl

/-! ## Claims -/

/-- C1 (code defect): a frame without detections advances `time_since_update`
of every live track by two (`predict` and `markMissed` both increment it), so
after k missed frames the counter reads 2k and a track with `max_age = 3` is
removed by the second missed frame; scenarios B and C are evaluated. -/
theorem missed_frame_counts_twice (cv : CvOps) (t : Tracker) :
    (t.update cv []).1.tracks =
      (t.tracks.map (fun tr => (tr.predict cv).markMissed)).filter
        (fun tr => !decide (tr.timeSinceUpdate > t.maxAge)) ∧
    (∀ tr : Track, (tr.predict cv).markMissed.timeSinceUpdate = tr.timeSinceUpdate + 2) ∧
    (Tracker.new (7 / 10) 3 3).trace cvExact
        (List.replicate 5 [detA] ++ List.replicate 3 []) =
      [([(1, TrackState.Tentative, 0, 0)], []),
       ([(1, TrackState.Tentative, 0, 1)], []),
       ([(1, TrackState.Tentative, 0, 2)], []),
       ([(1, TrackState.Confirmed, 0, 3)], [1]),
       ([(1, TrackState.Confirmed, 0, 4)], [1]),
       ([(1, TrackState.Confirmed, 2, 0)], [1]),
       ([], []),
       ([], [])] ∧
    (Tracker.new (7 / 10) 30 3).trace cvExact
        (List.replicate 5 [detA] ++ List.replicate 5 [] ++ [[detB]]) =
      [([(1, TrackState.Tentative, 0, 0)], []),
       ([(1, TrackState.Tentative, 0, 1)], []),
       ([(1, TrackState.Tentative, 0, 2)], []),
       ([(1, TrackState.Confirmed, 0, 3)], [1]),
       ([(1, TrackState.Confirmed, 0, 4)], [1]),
       ([(1, TrackState.Confirmed, 2, 0)], [1]),
       ([(1, TrackState.Confirmed, 4, 0)], [1]),
       ([(1, TrackState.Confirmed, 6, 0)], [1]),
       ([(1, TrackState.Confirmed, 8, 0)], [1]),
       ([(1, TrackState.Confirmed, 10, 0)], [1]),
       ([(1, TrackState.Confirmed, 0, 1)], [1])] := by
  refine ⟨(update_no_detections cv t).1, ?_, scenarioC_trace, scenarioB_trace⟩
  intro tr
  simp only [Track.markMissed, Track.predict]
  omega

/-- C2 (code defect): `Track::markMissed` resets `hit_streak` to 0 and leaves id,
class, state, age, filter and trajectory unchanged, but it does increment
`time_since_update`; after `predict` the counter has therefore advanced by two. -/
theorem markMissed_increments_timeSinceUpdate (cv : CvOps) (t : Track) :
    t.markMissed.hitStreak = 0 ∧
    t.markMissed.timeSinceUpdate = t.timeSinceUpdate + 1 ∧
    t.markMissed.timeSinceUpdate ≠ t.timeSinceUpdate ∧
    (t.predict cv).markMissed.timeSinceUpdate = t.timeSinceUpdate + 2 ∧
    t.markMissed.id = t.id ∧ t.markMissed.classId = t.classId ∧
    t.markMissed.className = t.className ∧ t.markMissed.state = t.state ∧
    t.markMissed.age = t.age ∧ t.markMissed.kf = t.kf ∧
    t.markMissed.trajectory = t.trajectory := by
  refine ⟨rfl, rfl, ?_, ?_, rfl, rfl, rfl, rfl, rfl, rfl, rfl⟩
  · simp [Track.markMissed]
  · simp [Track.markMissed, Track.predict]; omega

/-- C3: on a freshly constructed Tracker, after any sequence of `update` calls,
the ids issued so far are exactly 1, 2, ..., next_id - 1 in creation order, without
repetition; next_id does not decrease in any further calls; the live tracks have
pairwise distinct ids, each in `[1, next_id)` and each among the issued ones. -/
theorem issued_ids_consecutive_and_live_ids_distinct (cv : CvOps) (a : ℚ) (b c : Int)
    (frames : List (List Detection)) :
    (Tracker.new a b c).issuedIds cv frames =
      (List.range (((Tracker.new a b c).run cv frames).nextId - 1).toNat).map
        (fun (i : Nat) => (i : Int) + 1) ∧
    ((Tracker.new a b c).issuedIds cv frames).Nodup ∧
    (Tracker.new a b c).nextId = 1 ∧
    (∀ d, ((Tracker.new a b c).run cv frames).nextId ≤
      (((Tracker.new a b c).run cv frames).update cv d).1.nextId) ∧
    (∀ more, ((Tracker.new a b c).run cv frames).nextId ≤
      (((Tracker.new a b c).run cv frames).run cv more).nextId) ∧
    (((Tracker.new a b c).run cv frames).tracks.map Track.id).Nodup ∧
    (∀ tr ∈ ((Tracker.new a b c).run cv frames).tracks,
      1 ≤ tr.id ∧ tr.id < ((Tracker.new a b c).run cv frames).nextId ∧
      tr.id ∈ (Tracker.new a b c).issuedIds cv frames) := by
  obtain ⟨hn, hi⟩ := issuedIds_run cv (Tracker.new a b c) frames
  obtain ⟨_, hnd, hb⟩ := idsOk_run cv (Tracker.new a b c) frames (idsOk_new a b c)
  have h1 : (Tracker.new a b c).nextId = 1 := rfl
  rw [h1] at hn hi
  have hlen : (((Tracker.new a b c).run cv frames).nextId - 1).toNat =
      ((Tracker.new a b c).issuedIds cv frames).length := by
    rw [hn]; simp
  have hlist : (Tracker.new a b c).issuedIds cv frames =
      (List.range (((Tracker.new a b c).run cv frames).nextId - 1).toNat).map
        (fun (i : Nat) => (i : Int) + 1) := by
    rw [hlen]
    conv_lhs => rw [hi]
    apply List.map_congr_left
    intro i _
    omega
  refine ⟨hlist, ?_, rfl, ?_, ?_, hnd, ?_⟩
  · rw [hlist]
    refine List.Nodup.map ?_ (List.nodup_range _)
    intro x y hxy
    simpa using hxy
  · intro d
    rw [update_nextId]
    omega
  · intro more
    rw [(issuedIds_run cv _ more).1]
    omega
  · intro tr htr
    obtain ⟨hlo, hhi⟩ := hb tr htr
    refine ⟨hlo, hhi, ?_⟩
    rw [hlist]
    refine List.mem_map.mpr ⟨(tr.id - 1).toNat, ?_, ?_⟩
    · rw [List.mem_range]
      omega
    · omega

/-- C4 (as stated, refuted): on a freshly constructed Tracker `getTotalTracks`
is neither `next_id - 1` nor 0. -/
theorem getTotalTracks_fresh_is_not_zero :
    Tracker.default.getTotalTracks ≠ Tracker.default.nextId - 1 ∧
    Tracker.default.getTotalTracks ≠ 0 ∧ Tracker.default.getTotalTracks = 1 := by
  decide

/-- C4 (amended): `getTotalTracks` returns `next_id`, one more than the number of
tracks issued so far: 1 on a freshly constructed Tracker and n + 1 after n
tracks have been created; the caller in `main` subtracts 1 to print that number. -/
theorem getTotalTracks_is_nextId (cv : CvOps) (t : Tracker) (a : ℚ) (b c : Int)
    (frames : List (List Detection)) :
    t.getTotalTracks = t.nextId ∧
    totalUniqueTracks t = t.nextId - 1 ∧
    (Tracker.new a b c).getTotalTracks = 1 ∧
    ((Tracker.new a b c).run cv frames).getTotalTracks =
      ((Tracker.new a b c).issuedIds cv frames).length + 1 ∧
    totalUniqueTracks ((Tracker.new a b c).run cv frames) =
      ((Tracker.new a b c).issuedIds cv frames).length := by
  obtain ⟨hn, _⟩ := issuedIds_run cv (Tracker.new a b c) frames
  have h1 : (Tracker.new a b c).nextId = 1 := rfl
  rw [h1] at hn
  refine ⟨rfl, rfl, rfl, ?_, ?_⟩
  · simp only [Tracker.getTotalTracks, hn]; omega
  · simp only [totalUniqueTracks, Tracker.getTotalTracks, hn]; omega

/-- C5: the list returned by `update` is exactly the sub-sequence, in collection
order, of the tracks live after reaping that satisfy
`state == Confirmed || hit_streak >= min_hits`. -/
theorem update_returns_exactly_surfaced (cv : CvOps) (t : Tracker) (dets : List Detection) :
    (t.update cv dets).2 =
      (t.update cv dets).1.tracks.filter
        (fun tr => decide (tr.state = TrackState.Confirmed ∨ tr.hitStreak ≥ t.minHits)) ∧
    (∀ tr, tr ∈ (t.update cv dets).2 ↔
      (tr ∈ (t.update cv dets).1.tracks ∧
        (tr.state = TrackState.Confirmed ∨ tr.hitStreak ≥ t.minHits))) ∧
    List.Sublist (t.update cv dets).2 (t.update cv dets).1.tracks := by
  have hfilter : (t.update cv dets).2 =
      (t.update cv dets).1.tracks.filter
        (fun tr => decide (tr.state = TrackState.Confirmed ∨ tr.hitStreak ≥ t.minHits)) := by
    rw [update_returned]
    apply List.filter_congr
    intro tr _
    rw [Bool.eq_iff_iff]
    simp [surfaced]
  refine ⟨hfilter, ?_, ?_⟩
  · intro tr
    rw [hfilter, List.mem_filter]
    simp
  · rw [hfilter]
    exact List.filter_sublist _

/-- C8: after `update`, no track with `time_since_update > max_age` is in the
collection or in the returned list, and every track of the collection before
reaping with `time_since_update <= max_age` is kept, in the same order. -/
theorem update_reaps_exactly_the_expired (cv : CvOps) (t : Tracker) (dets : List Detection) :
    (∀ tr ∈ (t.update cv dets).1.tracks, ¬ tr.timeSinceUpdate > t.maxAge) ∧
    (∀ tr ∈ (t.update cv dets).2, ¬ tr.timeSinceUpdate > t.maxAge) ∧
    (∀ tr ∈ t.beforeReap cv dets, tr.timeSinceUpdate ≤ t.maxAge →
      tr ∈ (t.update cv dets).1.tracks) ∧
    (t.update cv dets).1.tracks =
      (t.beforeReap cv dets).filter (fun tr => decide (tr.timeSinceUpdate ≤ t.maxAge)) ∧
    (t.update cv dets).1.maxAge = t.maxAge := by
  have hkeep : ∀ tr ∈ (t.update cv dets).1.tracks, ¬ tr.timeSinceUpdate > t.maxAge := by
    intro tr htr
    rw [update_tracks, List.mem_filter] at htr
    simpa using htr.2
  refine ⟨hkeep, ?_, ?_, ?_, rfl⟩
  · intro tr htr
    rw [update_returned] at htr
    exact hkeep tr (List.mem_of_mem_filter htr)
  · intro tr htr hle
    rw [update_tracks, List.mem_filter]
    refine ⟨htr, ?_⟩
    simpa using hle
  · rw [update_tracks]
    apply List.filter_congr
    intro tr _
    rw [Bool.eq_iff_iff]
    simp

set_option maxRecDepth 100000 in
/-- C6 (as stated, refuted): with `min_hits = 1`, the first `update` call of a
fresh Tracker on one detection spawns track 1 and returns the empty list. -/
theorem first_frame_track_not_returned_with_min_hits_one :
    (Tracker.new (7 / 10) 30 1).spawned cvExact [detA] =
      [Track.new detA.bbox detA.classId detA.className 1] ∧
    ((Tracker.new (7 / 10) 30 1).update cvExact [detA]).1.tracks =
      [Track.new detA.bbox detA.classId detA.className 1] ∧
    ((Tracker.new (7 / 10) 30 1).update cvExact [detA]).2 = [] := by
  decide!

/-- C6 (amended): the track spawned for an unmatched detection has
`hit_streak = 0`, `time_since_update = 0` and state Tentative, so it is in the value
returned by the same `update` call exactly when `min_hits <= 0` (and
`max_age >= 0`); with `min_hits = 1` it is not returned on its first frame. -/
theorem spawned_track_returned_iff_min_hits_nonpositive (cv : CvOps) (t : Tracker)
    (dets : List Detection) (tr : Track) (h : tr ∈ t.spawned cv dets) :
    tr.hitStreak = 0 ∧ tr.timeSinceUpdate = 0 ∧ tr.state = TrackState.Tentative ∧
    (tr ∈ (t.update cv dets).2 ↔ (t.minHits ≤ 0 ∧ 0 ≤ t.maxAge)) ∧
    (tr ∈ (t.update cv dets).1.tracks ↔ 0 ≤ t.maxAge) ∧
    (t.minHits = 1 → tr ∉ (t.update cv dets).2) := by
  obtain ⟨d, _, i, hnew⟩ := spawned_new cv t dets tr h
  have hs : tr.hitStreak = 0 := by rw [hnew]; rfl
  have ht : tr.timeSinceUpdate = 0 := by rw [hnew]; rfl
  have hst : tr.state = TrackState.Tentative := by rw [hnew]; rfl
  have hlive : tr ∈ (t.update cv dets).1.tracks ↔ 0 ≤ t.maxAge := by
    rw [update_tracks, List.mem_filter]
    constructor
    · intro hm
      have := hm.2
      simp only [ht, Bool.not_eq_true', decide_eq_false_iff_not] at this
      omega
    · intro hm
      refine ⟨List.mem_append_right _ h, ?_⟩
      simp only [ht, Bool.not_eq_true', decide_eq_false_iff_not]
      omega
  have hret : tr ∈ (t.update cv dets).2 ↔ (t.minHits ≤ 0 ∧ 0 ≤ t.maxAge) := by
    rw [update_returned, List.mem_filter, hlive]
    simp only [surfaced, hst, hs, Bool.or_eq_true, beq_iff_eq, decide_eq_true_eq]
    constructor
    · rintro ⟨h1, h2 | h2⟩
      · cases h2
      · exact ⟨h2, h1⟩
    · rintro ⟨h1, h2⟩
      exact ⟨h2, Or.inr h1⟩
  refine ⟨hs, ht, hst, hret, hlive, ?_⟩
  intro h1 hmem
  have := (hret.mp hmem).1
  omega

set_option maxRecDepth 100000 in
/-- C6 (amended), instance: the track spawned on the first frame of a Tracker
with `min_hits = 1`, `max_age = 30`. -/
theorem spawned_track_returned_iff_witness :
    Track.new detA.bbox detA.classId detA.className 1
      ∈ (Tracker.new (7 / 10) 30 1).spawned cvExact [detA] ∧
    Track.new detA.bbox detA.classId detA.className 1
      ∉ ((Tracker.new (7 / 10) 30 1).update cvExact [detA]).2 :=
  ⟨by decide!,
   (spawned_track_returned_iff_min_hits_nonpositive cvExact (Tracker.new (7 / 10) 30 1)
      [detA] (Track.new detA.bbox detA.classId detA.className 1) (by decide!)).2.2.2.2.2 rfl⟩

set_option maxRecDepth 100000 in
/-- C7 (as stated, refuted): in Scenario A, after frame 3 track 1 is still
Tentative with `hit_streak = 2`, and the `update` calls of frames 1 to 3 return
no track. -/
theorem scenarioA_track_not_confirmed_at_frame_three :
    Tracker.default.trace cvExact (List.replicate 3 [detA]) =
      [([(1, TrackState.Tentative, 0, 0)], []),
       ([(1, TrackState.Tentative, 0, 1)], []),
       ([(1, TrackState.Tentative, 0, 2)], [])] := by
  decide!

/-- C7 (amended): in a Tracker built with `min_hits = 3` and `max_age >= 0`,
after any earlier frames, a track created with identifier `k` by the `update`
call of frame f and matched by each of the next m `update` calls is, after the
last of them, the one live track with identifier `k`; it is its constructor
followed by one `predict`, `getPredictedBbox`, `update` triple per frame, each
with the box of a detection of that frame; it has `hit_streak = m` and
`time_since_update = 0`; it is Confirmed, and returned by that last `update`
call, exactly when m >= 3, that is from frame f + 3 (its fourth frame) on, and
Tentative and not returned when m < 3. In Scenario A track 1 is Tentative and
not returned on frames 1 to 3, and Confirmed and returned on each of frames 4
to 10. -/
theorem track_confirmed_after_three_matched_frames (cv : CvOps) (a : ℚ) (maxAge : Int)
    (pre : List (List Detection)) (d0 : List Detection) (ds : List (List Detection))
    (k : Int) (hage : 0 ≤ maxAge)
    (hnew : k ∈ (((Tracker.new a maxAge 3).run cv pre).spawned cv d0).map Track.id)
    (hm : Tracker.matchedThrough cv k
      (((Tracker.new a maxAge 3).run cv pre).update cv d0).1 ds = true) :
    (∃ tr ∈ ((Tracker.new a maxAge 3).run cv (pre ++ d0 :: ds)).tracks,
      tr.id = k ∧
      (∀ x ∈ ((Tracker.new a maxAge 3).run cv (pre ++ d0 :: ds)).tracks, x.id = k → x = tr) ∧
      (∃ det ∈ d0, ∃ bs : List Rect,
        List.Forall₂ (fun b d => ∃ e ∈ d, e.bbox = b) bs ds ∧
        tr = (Track.new det.bbox det.classId det.className k).applyOps cv
          (bs.map matchedFrame).flatten) ∧
      tr.hitStreak = ds.length ∧ tr.timeSinceUpdate = 0 ∧
      (tr.state = TrackState.Confirmed ↔ 3 ≤ ds.length) ∧
      (tr.state = TrackState.Tentative ↔ ds.length < 3) ∧
      (tr ∈ Tracker.lastReturned cv (Tracker.new a maxAge 3) (pre ++ d0 :: ds) ↔
        3 ≤ ds.length)) ∧
    Tracker.default.minHits = 3 ∧
    Tracker.default.trace cvExact (List.replicate 10 [detA]) =
      [([(1, TrackState.Tentative, 0, 0)], []),
       ([(1, TrackState.Tentative, 0, 1)], []),
       ([(1, TrackState.Tentative, 0, 2)], []),
       ([(1, TrackState.Confirmed, 0, 3)], [1]),
       ([(1, TrackState.Confirmed, 0, 4)], [1]),
       ([(1, TrackState.Confirmed, 0, 5)], [1]),
       ([(1, TrackState.Confirmed, 0, 6)], [1]),
       ([(1, TrackState.Confirmed, 0, 7)], [1]),
       ([(1, TrackState.Confirmed, 0, 8)], [1]),
       ([(1, TrackState.Confirmed, 0, 9)], [1])] := by
  refine ⟨?_, rfl, scenarioA_trace⟩
  have hids : ((Tracker.new a maxAge 3).run cv pre).IdsOk :=
    idsOk_run cv _ pre (idsOk_new a maxAge 3)
  have hcfg := run_config cv (Tracker.new a maxAge 3) pre
  have hage2 : 0 ≤ ((Tracker.new a maxAge 3).run cv pre).maxAge := by
    rw [hcfg.1]
    exact hage
  obtain ⟨tr0, htr0, hid0⟩ := List.mem_map.mp hnew
  obtain ⟨det, hdet, i, rfl⟩ := spawned_new cv _ d0 tr0 htr0
  have hik : i = k := hid0
  subst hik
  have hlive : Track.new det.bbox det.classId det.className i ∈
      (((Tracker.new a maxAge 3).run cv pre).update cv d0).1.tracks := by
    rw [update_tracks]
    refine List.mem_filter.mpr ⟨List.mem_append_right _ htr0, ?_⟩
    have h0 : (Track.new det.bbox det.classId det.className i).timeSinceUpdate = 0 := rfl
    rw [h0]
    simpa using hage2
  obtain ⟨bs, hbs, hrun⟩ := matched_run cv i ds _ _ (idsOk_update cv _ d0 hids) hage2 hlive
    rfl hm
  have hfinal : (Tracker.new a maxAge 3).run cv (pre ++ d0 :: ds) =
      (((Tracker.new a maxAge 3).run cv pre).update cv d0).1.run cv ds := by
    rw [run_append, run_cons]
  have hidsF : ((Tracker.new a maxAge 3).run cv (pre ++ d0 :: ds)).IdsOk :=
    idsOk_run cv _ _ (idsOk_new a maxAge 3)
  have hlen : bs.length = ds.length := hbs.length_eq
  obtain ⟨hs1, hs2⟩ := matched_frames_state cv det.bbox det.classId det.className i bs
  have hidF : ((Track.new det.bbox det.classId det.className i).applyOps cv
      (bs.map matchedFrame).flatten).id = i := evolves_id cv ⟨_, rfl⟩
  rw [hlen] at hs1 hs2
  rw [← hfinal] at hrun
  have hsurf : surfaced 3 ((Track.new det.bbox det.classId det.className i).applyOps cv
      (bs.map matchedFrame).flatten) = true ↔ 3 ≤ ds.length := by
    simp only [surfaced, hs1, hs2]
    by_cases h : 3 ≤ ds.length
    · simp [h]
    · have : ¬ ((ds.length : Int) ≥ 3) := by omega
      simp [h, this]
  refine ⟨_, hrun, hidF, ?_, ⟨det, hdet, bs, hbs, rfl⟩, hs1,
    matched_frames_fresh cv det.bbox det.classId det.className i bs, ?_, ?_, ?_⟩
  · intro x hx hxi
    exact List.inj_on_of_nodup_map hidsF.2.1 hx hrun (hxi.trans hidF.symm)
  · rw [hs2]; by_cases h : 3 ≤ ds.length <;> simp [h]
  · rw [hs2]; by_cases h : 3 ≤ ds.length <;> simp [h]; omega
  · rw [lastReturned_eq cv _ _ (by simp), List.mem_filter]
    have hmin : (Tracker.new a maxAge 3).minHits = 3 := rfl
    rw [hmin]
    exact ⟨fun h => hsurf.mp h.2, fun h => ⟨hrun, hsurf.mpr h⟩⟩

set_option maxRecDepth 100000 in
/-- C7 (amended), instance: Scenario A. The track with identifier 1 is created by
the first `update` call of the default Tracker on the detection
(100, 100, 50, 50) and matched by the next three calls: after frame 4 it is live,
has `hit_streak = 3`, is Confirmed and is returned. -/
theorem track_confirmed_after_three_matched_frames_witness :
    (0 : Int) ≤ 30 ∧
    (1 : Int) ∈ (((Tracker.new (7 / 10) 30 3).run cvExact []).spawned cvExact [detA]).map
      Track.id ∧
    Tracker.matchedThrough cvExact 1
      (((Tracker.new (7 / 10) 30 3).run cvExact []).update cvExact [detA]).1
      (List.replicate 3 [detA]) = true ∧
    ∃ tr ∈ ((Tracker.new (7 / 10) 30 3).run cvExact
        ([] ++ [detA] :: List.replicate 3 [detA])).tracks,
      tr.id = 1 ∧ tr.hitStreak = 3 ∧ tr.state = TrackState.Confirmed ∧
      tr ∈ Tracker.lastReturned cvExact (Tracker.new (7 / 10) 30 3)
        ([] ++ [detA] :: List.replicate 3 [detA]) := by
  refine ⟨by decide, by decide!, by decide!, ?_⟩
  obtain ⟨tr, h1, h2, _, _, h5, _, h7, _, h9⟩ :=
    (track_confirmed_after_three_matched_frames cvExact (7 / 10) 30 [] [detA]
      (List.replicate 3 [detA]) 1 (by decide) (by decide!) (by decide!)).1
  exact ⟨tr, h1, h2, h5, h7.mpr (by decide), h9.mpr (by decide)⟩

/-- C10: `Track::update` leaves the state Confirmed exactly when the track was
Confirmed or was Tentative with incremented `hit_streak >= 3`; `predict` and
`markMissed` keep the state. For every Tracker reached from a fresh one by `update`
calls: a Confirmed live track is still Confirmed after a further call (if still
live), no live track is Deleted, and every live track is the result of its
constructor followed by calls, where any such track that is Confirmed had
`hit_streak >= 3` after some prefix of those calls. -/
theorem confirmed_is_permanent_and_earned (cv : CvOps) (a : ℚ) (b c : Int)
    (frames : List (List Detection)) (dets : List Detection) (t : Track) (bbox : Rect) :
    ((t.update cv bbox).state = TrackState.Confirmed ↔
      (t.state = TrackState.Confirmed ∨
        (t.state = TrackState.Tentative ∧ t.hitStreak + 1 ≥ 3))) ∧
    (t.update cv bbox).hitStreak = t.hitStreak + 1 ∧
    (t.predict cv).state = t.state ∧ t.markMissed.state = t.state ∧
    (∀ tr ∈ ((Tracker.new a b c).run cv frames).tracks,
      tr.state = TrackState.Confirmed →
      ∀ tr2 ∈ (((Tracker.new a b c).run cv frames).update cv dets).1.tracks,
        tr2.id = tr.id → tr2.state = TrackState.Confirmed) ∧
    (∀ tr ∈ ((Tracker.new a b c).run cv frames).tracks, tr.state ≠ TrackState.Deleted) ∧
    (∀ tr ∈ ((Tracker.new a b c).run cv frames).tracks,
      ∃ bbox0 classId className ops,
        tr = (Track.new bbox0 classId className tr.id).applyOps cv ops) ∧
    (∀ (bbox0 : Rect) (classId : Int) (className : String) (trackId : Int)
      (ops : List TrackOp),
      ((Track.new bbox0 classId className trackId).applyOps cv ops).state
          = TrackState.Confirmed →
      ∃ ops1 ops2, ops = ops1 ++ ops2 ∧
        ((Track.new bbox0 classId className trackId).applyOps cv ops1).hitStreak ≥ 3) := by
  have hcon := constructed_run cv (Tracker.new a b c) frames
    (by intro tr htr; simp [Tracker.new] at htr)
  refine ⟨?_, rfl, rfl, rfl, ?_, ?_, hcon, ?_⟩
  · rw [update_state]
    cases hst : t.state <;> by_cases h3 : t.hitStreak + 1 ≥ 3 <;> simp [h3]
  · intro tr htr hc tr2 h2 hid
    exact confirmed_kept_by_update cv _ dets
      (idsOk_run cv _ frames (idsOk_new a b c)) tr htr hc tr2 h2 hid
  · intro tr htr
    obtain ⟨bbox0, cid, cname, ops, hx⟩ := hcon tr htr
    rw [hx]
    exact new_not_deleted cv bbox0 cid cname tr.id ops
  · intro bbox0 cid cname i ops h
    exact confirmed_had_three_hits cv bbox0 cid cname i ops h

set_option maxRecDepth 100000 in
/-- C11 (as stated, refuted): with `max_iou_distance = 2`, `associate` matches
the class-0 track of scenario A to a detection of class 1 (cost 1 < 2), and
`update` then counts a hit on that track instead of creating a second one. -/
theorem class_mismatch_matched_when_gate_above_one :
    (((Tracker.new 2 30 3).run cvExact [[detA]]).tracks.map Track.classId = [0]) ∧
    detA1.classId = 1 ∧
    (((Tracker.new 2 30 3).run cvExact [[detA]]).associate cvExact [detA1]).matchedTracks
      = [0] ∧
    (((Tracker.new 2 30 3).run cvExact [[detA]]).associate cvExact [detA1]).matchedDetections
      = [0] ∧
    (Tracker.new 2 30 3).trace cvExact [[detA], [detA1]] =
      [([(1, TrackState.Tentative, 0, 0)], []), ([(1, TrackState.Tentative, 0, 1)], [])] := by
  decide!

/-- C11 (amended): class purity for every configuration with
`max_iou_distance <= 1` (any `max_age`, `min_hits`): each pair (i, j) that
`associate` reports as matched names a track and a detection of equal class id. -/
theorem matched_pairs_have_equal_class (cv : CvOps) (t : Tracker) (dets : List Detection)
    (i j : Nat) (hm : t.maxIoUDistance ≤ 1)
    (h : (i, j) ∈ List.zip (t.associate cv dets).matchedTracks
      (t.associate cv dets).matchedDetections) :
    ∃ tr d, t.tracks[i]? = some tr ∧ dets[j]? = some d ∧ tr.classId = d.classId := by
  obtain ⟨hget, hlt⟩ := (mem_matched_iff cv t dets i j).mp h
  obtain ⟨_, hj, hi, _⟩ := assignment_valid cv t dets i (j : Int) hget (by omega)
  simp only [Int.toNat_ofNat] at hj
  refine ⟨t.tracks[i], dets[j], by simp [hi], by simp [hj], ?_⟩
  by_contra hne
  have hentry := entry_createCostMatrix cv t.tracks dets i j t.tracks[i] dets[j]
    (by simp [hi]) (by simp [hj])
  rw [if_pos hne] at hentry
  simp only [Tracker.costs] at hlt
  rw [hentry] at hlt
  exact absurd (lt_of_lt_of_le hlt hm) (lt_irrefl 1)

set_option maxRecDepth 100000 in
/-- C11 (amended), instance: frame 2 of scenario A under the default
configuration, where track 0 is matched to detection 0. -/
theorem matched_pairs_have_equal_class_witness :
    (Tracker.default.run cvExact [[detA]]).maxIoUDistance ≤ 1 ∧
    (0, 0) ∈ List.zip ((Tracker.default.run cvExact [[detA]]).associate cvExact [detA]).matchedTracks
      ((Tracker.default.run cvExact [[detA]]).associate cvExact [detA]).matchedDetections ∧
    ∃ tr d, (Tracker.default.run cvExact [[detA]]).tracks[0]? = some tr ∧
      [detA][0]? = some d ∧ tr.classId = d.classId :=
  ⟨by decide!, by decide!,
   matched_pairs_have_equal_class cvExact (Tracker.default.run cvExact [[detA]]) [detA] 0 0
     (by decide!) (by decide!)⟩

/-- C12: the outputs of `associate` partition the index sets: every track index
below |T| occurs exactly once in matched tracks followed by unmatched tracks,
every detection index below |D| exactly once in matched detections followed by
unmatched detections, and no detection index is matched twice; on a
non-degenerate input `solve` returns |T| entries, each -1 or a column index
below |D|, and no column is held by two rows. -/
theorem associate_outputs_partition_indices (cv : CvOps) (t : Tracker)
    (dets : List Detection) :
    ((t.associate cv dets).matchedTracks ++ (t.associate cv dets).unmatchedTracks).Perm
      (List.range t.tracks.length) ∧
    ((t.associate cv dets).matchedTracks ++ (t.associate cv dets).unmatchedTracks).Nodup ∧
    ((t.associate cv dets).matchedDetections ++ (t.associate cv dets).unmatchedDetections).Perm
      (List.range dets.length) ∧
    ((t.associate cv dets).matchedDetections ++ (t.associate cv dets).unmatchedDetections).Nodup ∧
    (t.associate cv dets).matchedDetections.Nodup ∧
    (t.associate cv dets).matchedTracks.length = (t.associate cv dets).matchedDetections.length ∧
    (t.tracks ≠ [] → dets ≠ [] → (t.assignment cv dets).length = t.tracks.length) ∧
    (∀ (i : Nat) (a : Int), (t.assignment cv dets)[i]? = some a →
      a = -1 ∨ (0 ≤ a ∧ a.toNat < dets.length)) ∧
    (∀ (i k : Nat) (a : Int), (t.assignment cv dets)[i]? = some a →
      (t.assignment cv dets)[k]? = some a → a ≠ -1 → i = k) := by
  obtain ⟨h1, h2, h3, h4⟩ := associate_partition cv t dets
  refine ⟨h1, (List.Perm.nodup_iff h1).mpr (List.nodup_range _), h2,
    (List.Perm.nodup_iff h2).mpr (List.nodup_range _), h3, h4, ?_, ?_, ?_⟩
  · intro ht hd
    exact (assignment_shape cv t dets ht hd).1
  · intro i a hi
    by_cases ha : a = -1
    · exact Or.inl ha
    · obtain ⟨h5, h6, _, _⟩ := assignment_valid cv t dets i a hi ha
      exact Or.inr ⟨h5, h6⟩
  · intro i k a hi hk ha
    exact ((assignment_valid cv t dets i a hi ha).2.2.2 k hk).symm

/-- C13: a pair (i, j) is reported matched by `associate` exactly when `solve`
assigned column j to row i and the original cost C[i][j] is strictly below
`max_iou_distance`; an assigned pair rejected by the gate leaves track i in
the unmatched tracks and detection j in the unmatched detections. -/
theorem matched_iff_assigned_and_below_gate (cv : CvOps) (t : Tracker)
    (dets : List Detection) (i j : Nat) :
    ((i, j) ∈ List.zip (t.associate cv dets).matchedTracks
        (t.associate cv dets).matchedDetections ↔
      ((t.assignment cv dets)[i]? = some (j : Int) ∧
        entry (t.costs cv dets) i j < t.maxIoUDistance)) ∧
    ((t.assignment cv dets)[i]? = some (j : Int) →
      ¬ entry (t.costs cv dets) i j < t.maxIoUDistance →
      i ∈ (t.associate cv dets).unmatchedTracks ∧
      j ∈ (t.associate cv dets).unmatchedDetections ∧
      i ∉ (t.associate cv dets).matchedTracks ∧
      j ∉ (t.associate cv dets).matchedDetections) := by
  refine ⟨mem_matched_iff cv t dets i j, ?_⟩
  intro hget hrej
  have hdeg : ¬ (t.tracks = [] ∨ dets = []) := by
    intro hdeg
    rw [assignment_degenerate cv t dets hdeg] at hget
    simp at hget
  push_neg at hdeg
  obtain ⟨_, hj, _, huniq⟩ := assignment_valid cv t dets i (j : Int) hget (by omega)
  simp only [Int.toNat_ofNat] at hj
  have hnone : ∀ ia ∈ (t.assignment cv dets).enum,
      gateAccepts (t.costs cv dets) t.maxIoUDistance ia = true → ia.2.toNat = j → False := by
    intro ia hia hacc hto
    obtain ⟨h0, hlt⟩ := gateAccepts_nonneg _ _ _ hacc
    have hia2 : ia.2 = (j : Int) := by omega
    have hg := List.mem_enum_iff_getElem?.mp hia
    rw [hia2] at hg
    have hk := huniq ia.1 hg
    rw [hk, hto] at hlt
    exact hrej hlt
  have hacc : gateAccepts (t.costs cv dets) t.maxIoUDistance (i, (j : Int)) = false := by
    simp [gateAccepts, hrej]
  rw [associate_nondegenerate cv t dets hdeg.1 hdeg.2]
  simp only [List.mem_map, List.mem_filter, List.mem_range, Bool.not_eq_true',
    decide_eq_false_iff_not]
  refine ⟨⟨(i, (j : Int)), ⟨List.mem_enum_iff_getElem?.mpr hget, hacc⟩, rfl⟩, ⟨hj, ?_⟩, ?_, ?_⟩
  · rintro ⟨ia, hia, hacc2, hto⟩
    exact hnone ia hia hacc2 hto
  · rintro ⟨ia, ⟨hia, hacc2⟩, h1⟩
    have hg := List.mem_enum_iff_getElem?.mp hia
    rw [h1, hget] at hg
    have : ia = (i, (j : Int)) := Prod.ext h1 (Option.some.inj hg).symm
    rw [this, hacc] at hacc2
    cases hacc2
  · rintro ⟨ia, ⟨hia, hacc2⟩, hto⟩
    exact hnone ia hia hacc2 hto

/-- C17: every entry of the cost matrix lies in [0, 1] for all integer boxes: it
is 1 when the class ids differ and `1 - IoU` of the predicted box and the
detection box otherwise, with `0 <= IoU <= 1`, so clamping to [0, 1] changes
nothing. -/
theorem cost_entries_in_unit_interval (cv : CvOps) (tracks : List Track)
    (dets : List Detection) :
    (∀ row ∈ (createCostMatrix cv tracks dets).2, ∀ c ∈ row,
      0 ≤ c ∧ c ≤ 1 ∧ max 0 (min 1 c) = c) ∧
    (∀ (i j : Nat) (tr : Track) (d : Detection),
      tracks[i]? = some tr → dets[j]? = some d →
      entry (createCostMatrix cv tracks dets).2 i j =
        (if tr.classId ≠ d.classId then 1
         else 1 - calculateIoU (tr.getPredictedBbox cv).2 d.bbox)) ∧
    (∀ a b : Rect, 0 ≤ calculateIoU a b ∧ calculateIoU a b ≤ 1) := by
  refine ⟨?_, ?_, fun a b => ⟨calculateIoU_nonneg a b, calculateIoU_le_one a b⟩⟩
  · intro row hrow c hc
    rw [createCostMatrix_rows] at hrow
    obtain ⟨tr, _, rfl⟩ := List.mem_map.mp hrow
    simp only [costRow, List.mem_map] at hc
    obtain ⟨d, _, rfl⟩ := hc
    have h0 := calculateIoU_nonneg (tr.getPredictedBbox cv).2 d.bbox
    have h1 := calculateIoU_le_one (tr.getPredictedBbox cv).2 d.bbox
    have hb : (0 : ℚ) ≤ (if tr.classId ≠ d.classId then (1 : ℚ)
          else 1 - calculateIoU (tr.getPredictedBbox cv).2 d.bbox) ∧
        (if tr.classId ≠ d.classId then (1 : ℚ)
          else 1 - calculateIoU (tr.getPredictedBbox cv).2 d.bbox) ≤ 1 := by
      split
      · exact ⟨zero_le_one, le_refl 1⟩
      · constructor <;> linarith
    exact ⟨hb.1, hb.2, by rw [min_eq_right hb.2, max_eq_right hb.1]⟩
  · intro i j tr d hi hj
    exact entry_createCostMatrix cv tracks dets i j tr d hi hj

/-- C14: with an empty track collection `associate` returns empty matched lists,
no unmatched track and the unmatched detections [0, ..., |D|-1]; with an empty
detection list (and tracks) it returns empty matched lists, no unmatched
detection and the unmatched tracks [0, ..., |T|-1]. Hence an `update` without
detections creates no track, keeps `next_id` and marks every live track missed. -/
theorem associate_on_degenerate_inputs (cv : CvOps) (t : Tracker) (dets : List Detection) :
    (t.tracks = [] →
      (t.associate cv dets).matchedTracks = [] ∧ (t.associate cv dets).matchedDetections = [] ∧
      (t.associate cv dets).unmatchedTracks = [] ∧
      (t.associate cv dets).unmatchedDetections = List.range dets.length) ∧
    (t.tracks ≠ [] →
      (t.associate cv []).matchedTracks = [] ∧ (t.associate cv []).matchedDetections = [] ∧
      (t.associate cv []).unmatchedDetections = [] ∧
      (t.associate cv []).unmatchedTracks = List.range t.tracks.length) ∧
    t.spawned cv [] = [] ∧
    (t.update cv []).1.nextId = t.nextId ∧
    t.afterMark cv [] = t.tracks.map (fun tr => (tr.predict cv).markMissed) ∧
    (∀ tr ∈ t.afterMark cv [], tr.hitStreak = 0) ∧
    (t.update cv []).1.tracks =
      (t.tracks.map (fun tr => (tr.predict cv).markMissed)).filter
        (fun tr => !decide (tr.timeSinceUpdate > t.maxAge)) := by
  refine ⟨?_, ?_, spawned_no_detections cv t, (update_no_detections cv t).2,
    afterMark_no_detections cv t, ?_, (update_no_detections cv t).1⟩
  · intro ht
    rw [associate_empty_tracks cv t dets ht]
    exact ⟨rfl, rfl, rfl, rfl⟩
  · intro ht
    rw [associate_empty_detections cv t ht]
    exact ⟨rfl, rfl, rfl, rfl⟩
  · intro tr htr
    rw [afterMark_no_detections] at htr
    obtain ⟨x, _, rfl⟩ := List.mem_map.mp htr
    rfl

/-- C18: with `max_iou_distance <= 1` (the default is 0.7), when every detection
differs in class id from every live track, `update` matches no pair: every
pre-existing track is predicted and marked missed (`hit_streak = 0`, trajectory
and state unchanged) and every detection spawns a new track, in order. In
scenario D two tracks exist after frame 2, ids 1 and 2, track 1 missed. -/
theorem class_mismatch_matches_nothing (cv : CvOps) (t : Tracker) (dets : List Detection)
    (hm : t.maxIoUDistance ≤ 1)
    (hc : ∀ tr ∈ t.tracks, ∀ d ∈ dets, tr.classId ≠ d.classId) :
    ((t.predicted cv).associate cv dets).matchedTracks = [] ∧
    ((t.predicted cv).associate cv dets).matchedDetections = [] ∧
    List.Forall₂ (fun old new => new.id = old.id ∧ new.hitStreak = 0 ∧
        new.trajectory = old.trajectory ∧ new.state = old.state ∧
        new.timeSinceUpdate = old.timeSinceUpdate + 2)
      t.tracks (t.afterMark cv dets) ∧
    (t.spawned cv dets).length = dets.length ∧
    (∀ (k : Nat) (d : Detection), dets[k]? = some d →
      (t.spawned cv dets)[k]? =
        some (Track.new d.bbox d.classId d.className (t.nextId + (k : Int)))) ∧
    Tracker.default.trace cvExact [[detA], [detA1]] =
      [([(1, TrackState.Tentative, 0, 0)], []),
       ([(1, TrackState.Tentative, 2, 0), (2, TrackState.Tentative, 0, 0)], [])] := by
  have hrej := class_mismatch_rejected cv (t.predicted cv) dets hm (by
    intro tr htr d hd
    simp only [Tracker.predicted, List.mem_map] at htr
    obtain ⟨x, hx, rfl⟩ := htr
    exact hc x hx d hd)
  obtain ⟨h1, h2, _, h4⟩ := associate_all_rejected cv (t.predicted cv) dets hrej
  have hU : t.unmatchedDetections cv dets = List.range dets.length := h4
  obtain ⟨hlen, hget⟩ := spawnTracks_get dets (t.unmatchedDetections cv dets) t.nextId
    (unmatchedDetections_lt cv (t.predicted cv) dets)
  refine ⟨h1, h2, ?_, ?_, ?_, scenarioD_trace.1⟩
  · rcases afterMark_all_rejected cv t dets hrej with h | h
    · rw [h]
      refine forall2_map_self ?_ _
      intro tr
      refine ⟨rfl, rfl, rfl, rfl, ?_⟩
      simp only [Track.markMissed, Track.predict]
      omega
    · rw [h]
      refine forall2_map_self ?_ _
      intro tr
      refine ⟨rfl, rfl, rfl, rfl, ?_⟩
      simp only [Track.markMissed, Track.predict, Track.getPredictedBbox]
      omega
  · rw [spawned_eq, hlen, hU, List.length_range]
  · intro k d hk
    have hklt : k < dets.length := (List.getElem?_eq_some.mp hk).1
    have hUk : (t.unmatchedDetections cv dets)[k]? = some k := by
      rw [hU]
      exact List.getElem?_range hklt
    obtain ⟨d2, hd2, hs⟩ := hget k k hUk
    rw [hk] at hd2
    cases hd2
    exact hs

set_option maxRecDepth 100000 in
/-- C18, instance: frame 2 of scenario D under the default configuration. -/
theorem class_mismatch_matches_nothing_witness :
    (Tracker.default.run cvExact [[detA]]).maxIoUDistance ≤ 1 ∧
    (∀ tr ∈ (Tracker.default.run cvExact [[detA]]).tracks, ∀ d ∈ [detA1],
      tr.classId ≠ d.classId) ∧
    (((Tracker.default.run cvExact [[detA]]).predicted cvExact).associate cvExact
      [detA1]).matchedTracks = [] ∧
    ((Tracker.default.run cvExact [[detA]]).spawned cvExact [detA1]).length = 1 :=
  ⟨by decide!, by decide!,
   (class_mismatch_matches_nothing cvExact (Tracker.default.run cvExact [[detA]]) [detA1]
      (by decide!) (by decide!)).1,
   (class_mismatch_matches_nothing cvExact (Tracker.default.run cvExact [[detA]]) [detA1]
      (by decide!) (by decide!)).2.2.2.1⟩

/-- C16: for rectangles of non-negative width and height, `calculateIoU` is the
classical intersection over union: the number of unit cells in both rectangles
divided by the number in at least one, and 0 when that union is empty; it is 0
whenever one of the rectangles has zero area. -/
theorem calculateIoU_is_classical (a b : Rect) (hwa : 0 ≤ a.width) (hha : 0 ≤ a.height)
    (hwb : 0 ≤ b.width) (hhb : 0 ≤ b.height) :
    calculateIoU a b = classicalIoU a b ∧
    (a.width * a.height = 0 ∨ b.width * b.height = 0 → calculateIoU a b = 0) := by
  have hI := cells_inter_card a b
  have hU := cells_union_card a b hwa hha hwb hhb
  have hA := cells_card a hwa hha
  have hB := cells_card b hwb hhb
  constructor
  · unfold calculateIoU classicalIoU
    simp only
    rw [← hU, ← hI]
    by_cases h0 : (a.cells ∪ b.cells).card = 0
    · simp [h0]
    · have hpos : ((a.cells ∪ b.cells).card : Int) > 0 := by
        have := Nat.pos_of_ne_zero h0
        exact_mod_cast this
      rw [if_pos hpos, if_neg h0]
      push_cast
      rfl
  · intro hz
    have hle1 : (a.cells ∩ b.cells).card ≤ a.cells.card :=
      Finset.card_le_card Finset.inter_subset_left
    have hle2 : (a.cells ∩ b.cells).card ≤ b.cells.card :=
      Finset.card_le_card Finset.inter_subset_right
    have hzero : ((a.cells ∩ b.cells).card : Int) = 0 := by
      rcases hz with hz | hz
      · rw [← hA] at hz
        have : a.cells.card = 0 := by exact_mod_cast hz
        rw [this] at hle1
        exact_mod_cast Nat.le_zero.mp hle1
      · rw [← hB] at hz
        have : b.cells.card = 0 := by exact_mod_cast hz
        rw [this] at hle2
        exact_mod_cast Nat.le_zero.mp hle2
    unfold calculateIoU
    simp only
    rw [← hI, hzero]
    split <;> simp

/-- C16, instance: the boxes `(100, 100, 50, 50)` and `(110, 100, 50, 50)` of
scenario B, whose intersection over union is 2000 / 3000. -/
theorem calculateIoU_is_classical_witness :
    (0 : Int) ≤ detA.bbox.width ∧ (0 : Int) ≤ detB.bbox.height ∧
    calculateIoU detA.bbox detB.bbox = classicalIoU detA.bbox detB.bbox :=
  ⟨by decide, by decide,
   (calculateIoU_is_classical detA.bbox detB.bbox (by decide) (by decide) (by decide)
      (by decide)).1⟩

/-- C19: when the cost matrix of two tracks and two detections has each
diagonal entry strictly below the other entry of its column
(`C[0][0] < C[1][0]`, `C[1][1] < C[0][1]`) and both diagonal entries below
`max_iou_distance`, `solve` returns `[0, 1]` and `associate` reports exactly
the matched pairs (0, 0) and (1, 1), leaving nothing unmatched. -/
theorem no_identity_swap_for_two_objects (cv : CvOps) (t : Tracker) (dets : List Detection)
    (a b c d : ℚ) (hC : t.costs cv dets = [[a, b], [c, d]])
    (h1 : a < c) (h2 : d < b) (h3 : a < t.maxIoUDistance) (h4 : d < t.maxIoUDistance) :
    HungarianAlgorithm.solve [[a, b], [c, d]] = [0, 1] ∧
    t.assignment cv dets = [0, 1] ∧
    List.zip (t.associate cv dets).matchedTracks (t.associate cv dets).matchedDetections
      = [(0, 0), (1, 1)] ∧
    (t.associate cv dets).unmatchedTracks = [] ∧
    (t.associate cv dets).unmatchedDetections = [] := by
  have hbounds : ∀ row ∈ t.costs cv dets, ∀ x ∈ row, 0 ≤ x ∧ x < INF := by
    intro row hrow x hx
    have hx1 : x ≤ 1 := by
      unfold Tracker.costs at hrow
      rw [createCostMatrix_rows] at hrow
      obtain ⟨tr, _, rfl⟩ := List.mem_map.mp hrow
      simp only [costRow, List.mem_map] at hx
      obtain ⟨dd, _, rfl⟩ := hx
      have := calculateIoU_nonneg (tr.getPredictedBbox cv).2 dd.bbox
      split <;> linarith
    have hx0 : 0 ≤ x := by
      unfold Tracker.costs at hrow
      rw [createCostMatrix_rows] at hrow
      obtain ⟨tr, _, rfl⟩ := List.mem_map.mp hrow
      simp only [costRow, List.mem_map] at hx
      obtain ⟨dd, _, rfl⟩ := hx
      have := calculateIoU_le_one (tr.getPredictedBbox cv).2 dd.bbox
      split <;> linarith
    have hINF : (1 : ℚ) < INF := by
      unfold INF
      norm_num
    exact ⟨hx0, lt_of_le_of_lt hx1 hINF⟩
  rw [hC] at hbounds
  have ha := hbounds [a, b] (by simp) a (by simp)
  have hb := hbounds [a, b] (by simp) b (by simp)
  have hc := hbounds [c, d] (by simp) c (by simp)
  have hd := hbounds [c, d] (by simp) d (by simp)
  have hsolve := solve_two_by_two a b c d ha.1 hb.1 hc.1 hd.1 ha.2 hb.2 hc.2 hd.2 h1 h2
  have hA : t.assignment cv dets = [0, 1] := by
    unfold Tracker.assignment
    rw [hC]
    exact hsolve
  obtain ⟨hlenT, hlenD⟩ := createCostMatrix_length cv t.tracks dets
  have hC2 : (createCostMatrix cv t.tracks dets).2 = [[a, b], [c, d]] := hC
  rw [hC2] at hlenT hlenD
  have hT : t.tracks.length = 2 := by simpa using hlenT.symm
  have hD : dets.length = 2 := by simpa using (hlenD [a, b] (by simp)).symm
  have htne : t.tracks ≠ [] := by
    intro h; rw [h] at hT; cases hT
  have hdne : dets ≠ [] := by
    intro h; rw [h] at hD; cases hD
  have hacc0 : gateAccepts [[a, b], [c, d]] t.maxIoUDistance ((0 : Nat), (0 : Int)) = true := by
    simp [gateAccepts, entry, h3]
  have hacc1 : gateAccepts [[a, b], [c, d]] t.maxIoUDistance ((1 : Nat), (1 : Int)) = true := by
    simp [gateAccepts, entry, h4]
  have henum : ([0, 1] : List Int).enum = [((0 : Nat), (0 : Int)), ((1 : Nat), (1 : Int))] := rfl
  have hfa : ([((0 : Nat), (0 : Int)), ((1 : Nat), (1 : Int))]).filter
      (gateAccepts [[a, b], [c, d]] t.maxIoUDistance)
      = [((0 : Nat), (0 : Int)), ((1 : Nat), (1 : Int))] := by
    rw [List.filter_eq_self]
    intro x hx
    rcases List.mem_cons.mp hx with rfl | hx
    · exact hacc0
    · rcases List.mem_cons.mp hx with rfl | hx
      · exact hacc1
      · cases hx
  have hfr : ([((0 : Nat), (0 : Int)), ((1 : Nat), (1 : Int))]).filter
      (fun ia => !gateAccepts [[a, b], [c, d]] t.maxIoUDistance ia) = [] := by
    rw [List.filter_eq_nil_iff]
    intro x hx
    rcases List.mem_cons.mp hx with rfl | hx
    · rw [hacc0]; simp
    · rcases List.mem_cons.mp hx with rfl | hx
      · rw [hacc1]; simp
      · cases hx
  refine ⟨hsolve, hA, ?_, ?_, ?_⟩
  · rw [associate_nondegenerate cv t dets htne hdne, hA, hC, henum]
    simp only [hfa]
    rfl
  · rw [associate_nondegenerate cv t dets htne hdne, hA, hC, henum]
    simp only [hfr]
    rfl
  · rw [associate_nondegenerate cv t dets htne hdne, hA, hC, henum, hD]
    simp only
    rw [List.filter_eq_nil_iff]
    intro j hj
    simp only [Bool.not_eq_true', decide_eq_false_iff_not, not_not]
    have hjlt := List.mem_range.mp hj
    rcases Nat.lt_or_ge j 1 with h | h
    · have hj0 : j = 0 := by omega
      subst hj0
      exact ⟨((0 : Nat), (0 : Int)), by simp, hacc0, rfl⟩
    · have hj1 : j = 1 := by omega
      subst hj1
      exact ⟨((1 : Nat), (1 : Int)), by simp, hacc1, rfl⟩

set_option maxRecDepth 100000 in
/-- C19, instance: two class-0 objects far apart, tracked from one frame and
seen again at the same places. -/
theorem no_identity_swap_for_two_objects_witness :
    (Tracker.default.run cvExact [[detA, detC]]).costs cvExact [detA, detC]
      = [[0, 1], [1, 0]] ∧
    HungarianAlgorithm.solve [[0, 1], [1, 0]] = [0, 1] ∧
    List.zip
      ((Tracker.default.run cvExact [[detA, detC]]).associate cvExact [detA, detC]).matchedTracks
      ((Tracker.default.run cvExact [[detA, detC]]).associate cvExact
        [detA, detC]).matchedDetections = [(0, 0), (1, 1)] :=
  ⟨by decide!,
   (no_identity_swap_for_two_objects cvExact (Tracker.default.run cvExact [[detA, detC]])
      [detA, detC] 0 1 1 0 (by decide!) (by decide!) (by decide!) (by decide!) (by decide!)).1,
   (no_identity_swap_for_two_objects cvExact (Tracker.default.run cvExact [[detA, detC]])
      [detA, detC] 0 1 1 0 (by decide!) (by decide!) (by decide!) (by decide!)
      (by decide!)).2.2.1⟩

set_option maxRecDepth 100000 in
/-- C20: the assigner is not optimal: on the square matrix
`[[0.1, 0.2], [0.1, 0.3]]`, with entries in [0, 1], `solve` assigns every row
(`[0, 1]`, total cost 0.4) although the complete one-to-one assignment `[1, 0]`
costs 0.3. -/
theorem solve_is_not_optimal :
    HungarianAlgorithm.solve greedyExample = [0, 1] ∧
    assignmentCost greedyExample (HungarianAlgorithm.solve greedyExample) = 4 / 10 ∧
    assignmentCost greedyExample [1, 0] = 3 / 10 ∧
    ∃ C : Mat, C.length = 2 ∧ (∀ row ∈ C, row.length = 2 ∧ ∀ x ∈ row, 0 ≤ x ∧ x ≤ 1) ∧
      (∀ v ∈ HungarianAlgorithm.solve C, v ≠ -1) ∧
      ∃ other : List Int, other.Perm [0, 1] ∧
        assignmentCost C other < assignmentCost C (HungarianAlgorithm.solve C) := by
  refine ⟨by decide!, by decide!, by decide!, greedyExample, by decide!, by decide!,
    by decide!, [1, 0], by decide!, by decide!⟩

set_option maxRecDepth 100000 in
/-- C21 (code defect): `getPredictedBbox` and `getCurrentBbox` both run
`kf.predict()` on the track's own filter, so the track is changed by the read
and two successive reads differ (x = 114, then x = 119 on a moving track); in an
`update` call with tracks and detections every filter is advanced twice, by
`predict` and by the read of the cost matrix. -/
theorem reading_the_bbox_advances_the_filter (cv : CvOps) (tr : Track) (t : Tracker)
    (dets : List Detection) :
    (tr.getPredictedBbox cv).1.kf = (tr.kf.predict cv).1 ∧
    (tr.getCurrentBbox cv).1.kf = (tr.kf.predict cv).1 ∧
    (tr.getPredictedBbox cv).2 = (tr.kf.predict cv).2 ∧
    (tr.predict cv).kf = (tr.kf.predict cv).1 ∧
    (t.tracks ≠ [] → dets ≠ [] →
      ((t.predicted cv).associate cv dets).tracks =
        t.tracks.map (fun x => ((x.predict cv).getPredictedBbox cv).1)) ∧
    ((Track.new detA.bbox 0 "" 1).getPredictedBbox cvExact).1 ≠ Track.new detA.bbox 0 "" 1 ∧
    (movedTrack.getPredictedBbox cvExact).1 ≠ movedTrack ∧
    (movedTrack.getPredictedBbox cvExact).2 = ⟨114, 100, 50, 50⟩ ∧
    ((movedTrack.getPredictedBbox cvExact).1.getPredictedBbox cvExact).2 = ⟨119, 100, 50, 50⟩ ∧
    ((movedTrack.getCurrentBbox cvExact).1.getCurrentBbox cvExact).2 = ⟨119, 100, 50, 50⟩ := by
  refine ⟨rfl, rfl, rfl, rfl, ?_, by decide!, by decide!, by decide!, by decide!, by decide!⟩
  intro ht hd
  have hp : (t.predicted cv).tracks ≠ [] := by
    simpa [Tracker.predicted] using ht
  rw [associate_nondegenerate cv (t.predicted cv) dets hp hd]
  simp [createCostMatrix, costRow, Tracker.predicted, Function.comp_def]

/-- C22: on a filter that was never initialised, `predict` returns the empty box
(0, 0, 0, 0) and leaves the filter as it is; `update(bbox)` is `init(bbox)`: the
posterior state becomes (x + w/2, y + h/2, w, h, 0, 0, 0, 0), the filter is marked
initialised and nothing else of it changes (no correction is applied). -/
theorem uninitialised_filter_predict_and_update (cv : CvOps) (f : KalmanFilter) (bbox : Rect)
    (h : f.initialized = false) :
    (f.predict cv).2 = ⟨0, 0, 0, 0⟩ ∧
    (f.predict cv).1 = f ∧
    f.update cv bbox = f.init bbox ∧
    (f.update cv bbox).initialized = true ∧
    (f.update cv bbox).kf.statePost =
      [(bbox.x : ℚ) + (bbox.width : ℚ) / 2, (bbox.y : ℚ) + (bbox.height : ℚ) / 2,
       (bbox.width : ℚ), (bbox.height : ℚ), 0, 0, 0, 0] ∧
    (f.update cv bbox).kf = { f.kf with statePost := bboxToState bbox } := by
  simp [KalmanFilter.predict, KalmanFilter.update, KalmanFilter.init, h, Rect.empty,
    bboxToState]

set_option maxRecDepth 100000 in
/-- C22, instance: the filter right after its constructor, and the box
`(100, 100, 50, 50)`. -/
theorem uninitialised_filter_witness :
    KalmanFilter.new.initialized = false ∧
    (KalmanFilter.new.predict cvExact).2 = ⟨0, 0, 0, 0⟩ ∧
    (KalmanFilter.new.update cvExact detA.bbox).kf.statePost = [125, 125, 50, 50, 0, 0, 0, 0] :=
  ⟨rfl,
   (uninitialised_filter_predict_and_update cvExact KalmanFilter.new detA.bbox rfl).1,
   by decide!⟩

/-- C23: `Track::predict` adds exactly 1 to `age` and to `time_since_update` and
keeps id, class id, class name, state, `hit_streak` and trajectory; `predict`,
`update` and `markMissed` (and the two box reads) never change id, class id or
class name. -/
theorem predict_effect_and_identity_immutable (cv : CvOps) (t : Track) (bbox : Rect)
    (ops : List TrackOp) :
    (t.predict cv).age = t.age + 1 ∧
    (t.predict cv).timeSinceUpdate = t.timeSinceUpdate + 1 ∧
    (t.predict cv).id = t.id ∧ (t.predict cv).classId = t.classId ∧
    (t.predict cv).className = t.className ∧ (t.predict cv).state = t.state ∧
    (t.predict cv).hitStreak = t.hitStreak ∧ (t.predict cv).trajectory = t.trajectory ∧
    (t.update cv bbox).id = t.id ∧ (t.update cv bbox).classId = t.classId ∧
    (t.update cv bbox).className = t.className ∧
    t.markMissed.id = t.id ∧ t.markMissed.classId = t.classId ∧
    t.markMissed.className = t.className ∧
    (t.applyOps cv ops).id = t.id ∧ (t.applyOps cv ops).classId = t.classId ∧
    (t.applyOps cv ops).className = t.className := by
  refine ⟨rfl, rfl, rfl, rfl, rfl, rfl, rfl, rfl, rfl, rfl, rfl, rfl, rfl, rfl, ?_⟩
  have h : (t.applyOps cv ops).id = t.id ∧ (t.applyOps cv ops).classId = t.classId ∧
      (t.applyOps cv ops).className = t.className := by
    refine evolves_induction cv
      (fun a b => b.id = a.id ∧ b.classId = a.classId ∧ b.className = a.className)
      (fun _ => ⟨rfl, rfl, rfl⟩) ?_ ⟨ops, rfl⟩
    intro a b op hab
    cases op <;> exact hab
  exact h


set_option maxRecDepth 100000 in
/-- C24 (as stated, refuted): finiteness of the entries is not enough. `INF` is
`FLT_MAX`, a finite float: on the 1 x 1 matrix `[[INF]]` the reduction is skipped
and the residual pass refuses the entry, so `solve` returns `[-1]` and assigns 0
rows, not min(1, 1) = 1. On `spreadExample`, with finite entries `-2^127` and
`2^127`, row reduction lifts the second column to `2^128`, not below `INF`, and
the second row stays unassigned: `[0, -1]`, one row assigned, not min(2, 2) = 2. -/
theorem solve_leaves_row_unassigned_at_sentinel :
    HungarianAlgorithm.solve [[INF]] = [-1] ∧
    (assignedRows (HungarianAlgorithm.solve [[INF]])).length = 0 ∧
    (assignedRows (HungarianAlgorithm.solve [[INF]])).length ≠ min 1 1 ∧
    (∀ row ∈ spreadExample, row.length = 2 ∧ ∀ v ∈ row, -INF < v ∧ v < INF) ∧
    HungarianAlgorithm.solve spreadExample = [0, -1] ∧
    (assignedRows (HungarianAlgorithm.solve spreadExample)).length ≠ min 2 2 := by
  decide!

/-- C24 (amended): for every rectangular cost matrix with at least one row and one
column whose entries all lie in `[0, INF)` (for example in [0, 1]), `solve`
returns one entry per row, exactly min(rows, cols) rows carry an assignment, every
assignment is a column index below `cols` held by no other row, the other entries
are -1, and when rows <= cols no row is left unassigned. -/
theorem solve_assigns_min_rows_cols (M : Mat) (cols : Nat) (hrows : 1 ≤ M.length)
    (hcols : 1 ≤ cols) (hrect : ∀ row ∈ M, row.length = cols)
    (hb : ∀ row ∈ M, ∀ v ∈ row, 0 ≤ v ∧ v < INF) :
    (HungarianAlgorithm.solve M).length = M.length ∧
    (assignedRows (HungarianAlgorithm.solve M)).length = min M.length cols ∧
    (∀ (i : Nat) (a : Int), (HungarianAlgorithm.solve M)[i]? = some a → a ≠ -1 →
      (0 ≤ a ∧ a.toNat < cols ∧
        ∀ k : Nat, (HungarianAlgorithm.solve M)[k]? = some a → k = i)) ∧
    (∀ i : Nat, i < M.length → i ∉ assignedRows (HungarianAlgorithm.solve M) →
      (HungarianAlgorithm.solve M)[i]? = some (-1)) ∧
    (M.length ≤ cols → ∀ a ∈ HungarianAlgorithm.solve M, a ≠ -1) := by
  have hcount := solve_assigned_count M cols hrows hcols hrect hb
  have hshape : (HungarianAlgorithm.solve M).length = M.length ∧
      ∀ (i : Nat) (a : Int), (HungarianAlgorithm.solve M)[i]? = some a → a ≠ -1 →
        (0 ≤ a ∧ a.toNat < cols ∧
          ∀ k : Nat, (HungarianAlgorithm.solve M)[k]? = some a → k = i) := by
    cases M with
    | nil => simp at hrows
    | cons row0 rest =>
      have h0 : row0.length = cols := hrect row0 (List.mem_cons_self _ _)
      have hne : row0 ≠ [] := by
        intro h
        rw [h] at h0
        simp at h0
        omega
      obtain ⟨h1, h2⟩ := solve_shape row0 rest hne
      rw [h0] at h2
      exact ⟨by simpa using h1, h2⟩
  refine ⟨hshape.1, hcount, hshape.2, ?_, ?_⟩
  · intro i hi hnot
    have hlt : i < (HungarianAlgorithm.solve M).length := by rw [hshape.1]; exact hi
    rw [List.getElem?_eq_getElem hlt]
    by_contra hne
    exact hnot ((mem_assignedRows _ _).mpr
      ⟨_, List.getElem?_eq_getElem hlt, fun h => hne (by rw [h])⟩)
  · intro hle a ha
    rw [min_eq_left hle, ← hshape.1] at hcount
    have hsub : (assignedRows (HungarianAlgorithm.solve M)).Sublist
        (List.range (HungarianAlgorithm.solve M).length) := List.filter_sublist _
    have heq := hsub.eq_of_length (by rw [hcount, List.length_range])
    obtain ⟨i, hi⟩ := List.mem_iff_getElem?.mp ha
    have hlt : i < (HungarianAlgorithm.solve M).length := (List.getElem?_eq_some.mp hi).1
    have hmem : i ∈ assignedRows (HungarianAlgorithm.solve M) := by
      rw [heq]
      exact List.mem_range.mpr hlt
    obtain ⟨b, hb1, hb2⟩ := (mem_assignedRows _ _).mp hmem
    rw [hi] at hb1
    cases hb1
    exact hb2

set_option maxRecDepth 100000 in
/-- C24, instance: the 3 x 2 matrix `tallExample` with entries in [0, 1]: the
result is `[1, 0, -1]`, with min(3, 2) = 2 rows assigned. -/
theorem solve_assigns_min_rows_cols_witness :
    1 ≤ tallExample.length ∧ (∀ row ∈ tallExample, row.length = 2) ∧
    (∀ row ∈ tallExample, ∀ v ∈ row, 0 ≤ v ∧ v ≤ 1) ∧
    HungarianAlgorithm.solve tallExample = [1, 0, -1] ∧
    (assignedRows (HungarianAlgorithm.solve tallExample)).length = min 3 2 :=
  ⟨by decide, by decide, by decide!, by decide!,
   (solve_assigns_min_rows_cols tallExample 2 (by decide) (by decide) (by decide)
      (by decide!)).2.1⟩

set_option maxRecDepth 100000 in
/-- C25: in every state reached from a tracker without tracks by `update` calls,
every live track, and every returned track, has `time_since_update >= 0` and
`hit_streak >= 0`, and a positive `hit_streak` comes with `time_since_update = 0`.
The last part is an instance with a positive streak: after two frames with the
same detection the one live track has counters (0, 1). -/
theorem counters_invariant_of_reachable_states (cv : CvOps) :
    (∀ (t : Tracker) (frames : List (List Detection)) (dets : List Detection),
      t.tracks = [] →
      (∀ tr ∈ ((t.run cv frames).update cv dets).1.tracks,
        0 ≤ tr.timeSinceUpdate ∧ 0 ≤ tr.hitStreak ∧
          (0 < tr.hitStreak → tr.timeSinceUpdate = 0)) ∧
      (∀ tr ∈ ((t.run cv frames).update cv dets).2,
        0 ≤ tr.timeSinceUpdate ∧ 0 ≤ tr.hitStreak ∧
          (0 < tr.hitStreak → tr.timeSinceUpdate = 0))) ∧
    (∀ (a : ℚ) (b c : Int), (Tracker.new a b c).tracks = []) ∧
    ((Tracker.default.run cvExact [[detA]]).update cvExact [detA]).1.tracks.map
      (fun tr => (tr.timeSinceUpdate, tr.hitStreak)) = [(0, 1)] := by
  refine ⟨?_, fun _ _ _ => rfl, by decide!⟩
  intro t frames dets ht
  have hrun : ∀ tr ∈ (t.run cv frames).tracks, CountersOk tr :=
    countersOk_run cv t frames (by rw [ht]; intro tr h; cases h)
  have hup := countersOk_update cv (t.run cv frames) dets hrun
  refine ⟨hup, ?_⟩
  intro tr htr
  rw [update_returned] at htr
  exact hup tr (List.mem_of_mem_filter htr)

end MOT
